import Mathlib

/-!
Verification of the succinct resizable array (`succinct::vector` in
`src/succinct_vector.hpp`, together with the near-duplicate `struct space`
in `src/space.hpp`).

The development has three layers:

* a numeric layer (`MetaSt`): the evolution of the five scalar fields
  `dir_size`, `last_buffer_size`, `log_buffer_capacity`, `big_buffer`,
  `extra_buffer`.  All branch conditions of the C++ operations depend only
  on these fields, so the invariant arithmetic is proved once here and
  transported to the richer models by proved projection lemmas.
* a functional model (`SV`): the directory is a list of buffers (each
  buffer a list of elements); `new T[...]` yields a buffer of default
  values, garbage directory slots hold `[]`.  All operations of
  `succinct_vector.hpp` and the differing operations of `space.hpp` are
  translated here statement by statement.
* a heap model (`Mem`/`HV`): buffers live in an explicit memory (addresses
  are allocation indices), the directory is a list of addresses.  This
  layer expresses the aliasing facts: deep-copy independence and the
  behaviour of `operator=` when source and destination are the same object.
-/

namespace Succinct

/-- The five scalar fields of the container, used to state and prove the
numeric invariants once for all models. -/
structure MetaSt where
  ds : Nat
  lbs : Nat
  L : Nat
  big : Bool
  e : Bool
deriving Repr, DecidableEq

namespace MetaSt

/-- `buffer_capacity()`: buffers hold `2 ^ log_buffer_capacity` elements. -/
def bcap (n : MetaSt) : Nat := 2 ^ n.L

/-- `dir_capacity()`: the directory is half the buffer capacity in the
`big_buffer` regime, equal to it otherwise. -/
def dcap (n : MetaSt) : Nat := 2 ^ (n.L - cond n.big 1 0)

/-- The `(extra_buffer ? 1 : 0)` term. -/
def ebit (n : MetaSt) : Nat := cond n.e 1 0

/-- `size()` as computed from the scalar fields. -/
def msize (n : MetaSt) : Nat := (n.ds - 1) * n.bcap + n.lbs

/-- Scalar effect of `upsize()`: `upsize_dir` when `big_buffer`, else
`upsize_buffers`. -/
def upsizeMeta (n : MetaSt) : MetaSt :=
  cond n.big { n with big := false }
    { n with L := n.L + 1, lbs := n.lbs * 2, big := true, ds := n.ds / 2 }

/-- Scalar effect of `push_back`. -/
def pushMeta (n : MetaSt) : MetaSt :=
  let n0 : MetaSt := { n with lbs := n.lbs + 1 }
  if n0.lbs = n0.bcap then
    let n1 := cond n0.e n0 (if n0.ds = n0.dcap then n0.upsizeMeta else n0)
    { n1 with ds := n1.ds + 1, e := false, lbs := 0 }
  else n0

/-- Scalar effect of the body of `pop_back` (everything before the
downsize trigger test). -/
def popBodyMeta (n : MetaSt) : MetaSt :=
  if n.lbs = 0 then
    { n with lbs := n.bcap - 1, ds := n.ds - 1, e := true }
  else
    let n1 : MetaSt := { n with lbs := n.lbs - 1 }
    if n1.lbs = 0 ∧ n1.e = true then { n1 with e := false } else n1

/-- The downsize trigger of `succinct::vector::pop_back`:
`(dir_size + (extra_buffer ? 1 : 0)) * 4 <= dir_capacity()`. -/
def trig (n : MetaSt) : Prop := (n.ds + n.ebit) * 4 ≤ n.dcap

instance (n : MetaSt) : Decidable n.trig := by unfold trig; infer_instance

/-- Scalar effect of `downsize()`: `downsize_buffers` when `big_buffer`
(splits buffers: `--log_buffer_capacity`, `big_buffer = false`,
`dir_size = 2*dir_size - 1`), else `downsize_dir` (halves the directory:
`big_buffer = true`). -/
def downsizeMeta (n : MetaSt) : MetaSt :=
  cond n.big { n with big := false, L := n.L - 1, ds := 2 * n.ds - 1 }
    { n with big := true }

/-- Scalar effect of `succinct::vector::pop_back`. -/
def popMeta (n : MetaSt) : MetaSt :=
  let t := n.popBodyMeta
  if t.trig then t.downsizeMeta else t

/-- Scalar effect of `space::pop_back` from `space.hpp`: the downsize test
(`dir_size * 4 <= dir_capacity()`, without the `extra_buffer` term) is
performed only inside the branch that has just freed the extra buffer. -/
def spacePopMeta (n : MetaSt) : MetaSt :=
  if n.lbs = 0 then
    { n with lbs := n.bcap - 1, ds := n.ds - 1, e := true }
  else
    let n1 : MetaSt := { n with lbs := n.lbs - 1 }
    if n1.lbs = 0 ∧ n1.e = true then
      let n2 : MetaSt := { n1 with e := false }
      if n2.ds * 4 ≤ n2.dcap then n2.downsizeMeta else n2
    else n1

/-- Invariants 1 to 5 of the specification, plus `log_buffer_capacity > 0`
(asserted by `assert_valid`). -/
def ValidM (n : MetaSt) : Prop :=
  1 ≤ n.L ∧ 1 ≤ n.ds ∧ n.ds ≤ n.dcap ∧ n.lbs < n.bcap ∧
    (n.lbs = 0 → n.e = false) ∧ (n.e = true → 0 < n.lbs ∧ n.ds < n.dcap) ∧
    n.dcap ≤ (n.ds + n.ebit) * 4

instance (n : MetaSt) : Decidable n.ValidM := by unfold ValidM; infer_instance

/-- The strengthened inductive invariant: additionally, invariant 5 is an
equality only in the states `dir_size = 1`, `extra_buffer = false`,
`big_buffer = false` (which forces `dir_capacity = 4`). -/
def StrongM (n : MetaSt) : Prop :=
  n.ValidM ∧ ((n.ds + n.ebit) * 4 = n.dcap → n.ds = 1 ∧ n.e = false ∧ n.big = false)

instance (n : MetaSt) : Decidable n.StrongM := by unfold StrongM; infer_instance

/-- The scalar fields of the default-constructed vector. -/
def initMeta : MetaSt := { ds := 1, lbs := 0, L := 1, big := true, e := false }

end MetaSt

/-!
## The functional model of `succinct::vector<T>`
The directory is a list of buffers stored inline (slot `i` of `dir` holds
the contents of the buffer `dir[i]` points to in C++).  A slot whose buffer
is unallocated or freed holds the junk value `[]`; `new T[n]` produces a
buffer of `n` default-initialised values.  Every operation is translated
statement by statement from `src/succinct_vector.hpp`.
-/
/-- State of `succinct::vector<T>`. -/
structure vector (α : Type) where
  dir : List (List α)
  dir_size : Nat
  last_buffer_size : Nat
  log_buffer_capacity : Nat
  big_buffer : Bool
  extra_buffer : Bool
deriving DecidableEq

namespace vector

variable {α : Type} [Inhabited α]

/-- `buffer_capacity()`. -/
def buffer_capacity (s : vector α) : Nat := 2 ^ s.log_buffer_capacity

/-- `dir_capacity()`: `1 << (log_buffer_capacity - (big_buffer ? 1 : 0))`. -/
def dir_capacity (s : vector α) : Nat :=
  2 ^ (s.log_buffer_capacity - cond s.big_buffer 1 0)

/-- `size()`: `((dir_size - 1) << log_buffer_capacity) + last_buffer_size`. -/
def size (s : vector α) : Nat :=
  ((s.dir_size - 1) <<< s.log_buffer_capacity) + s.last_buffer_size

/-- The scalar fields of a state. -/
def metaOf (s : vector α) : MetaSt :=
  ⟨s.dir_size, s.last_buffer_size, s.log_buffer_capacity, s.big_buffer, s.extra_buffer⟩

/-- `pget(i)`: `dir[i >> log_buffer_capacity][i & (buffer_capacity() - 1)]`. -/
def pget (s : vector α) (i : Nat) : α :=
  (s.dir.getD (i >>> s.log_buffer_capacity) []).getD (i &&& (s.buffer_capacity - 1)) default

/-- `upsize_dir()`: a directory of twice the capacity is allocated and the
`dir_capacity()` old entries are copied into it; the new slots are garbage. -/
def upsize_dir (s : vector α) : vector α :=
  { s with dir := s.dir.take s.dir_capacity ++ List.replicate s.dir_capacity [],
           big_buffer := false }

/-- The merge loop of `upsize_buffers()`: `mergePairs d k` performs the
iterations `i = 0, 2, ..., 2*(k-1)` of
`for(i = 0; i < dir_size; i += 2) dir[i/2] = dir[i] ++ dir[i+1]`
(each iteration allocates a double buffer, copies both halves and frees the
two old buffers). -/
def mergePairs (d : List (List α)) : Nat → List (List α)
  | 0 => d
  | k + 1 =>
    let d1 := mergePairs d k
    d1.set k (d1.getD (2 * k) [] ++ d1.getD (2 * k + 1) [])

/-- `upsize_buffers()` (precondition: `dir_size = dir_capacity()` is even and
the last buffer is exactly full). -/
def upsize_buffers (s : vector α) : vector α :=
  { s with dir := mergePairs s.dir (s.dir_size / 2),
           log_buffer_capacity := s.log_buffer_capacity + 1,
           last_buffer_size := s.last_buffer_size * 2,
           big_buffer := true,
           dir_size := s.dir_size / 2 }

/-- `upsize()`. -/
def upsize (s : vector α) : vector α := cond s.big_buffer s.upsize_dir s.upsize_buffers

/-- `push_back(x)`. -/
def push_back (s : vector α) (x : α) : vector α :=
  let s0 : vector α :=
    { s with dir := s.dir.set (s.dir_size - 1)
               ((s.dir.getD (s.dir_size - 1) []).set s.last_buffer_size x),
             last_buffer_size := s.last_buffer_size + 1 }
  if s0.last_buffer_size = s0.buffer_capacity then
    let s1 := cond s0.extra_buffer s0
      (let s2 := if s0.dir_size = s0.dir_capacity then s0.upsize else s0
       { s2 with dir := s2.dir.set s2.dir_size (List.replicate s2.buffer_capacity default) })
    { s1 with dir_size := s1.dir_size + 1, extra_buffer := false, last_buffer_size := 0 }
  else s0

/-- The body of `pop_back()`, before the downsize trigger test.  The
`delete[] dir[dir_size]` of the freed extra buffer has no functional
content in this model (the slot becomes stale garbage). -/
def pop_body (s : vector α) : vector α :=
  if s.last_buffer_size = 0 then
    { s with last_buffer_size := s.buffer_capacity - 1,
             dir_size := s.dir_size - 1,
             extra_buffer := true }
  else
    let s1 : vector α := { s with last_buffer_size := s.last_buffer_size - 1 }
    if s1.last_buffer_size = 0 ∧ s1.extra_buffer = true then
      { s1 with extra_buffer := false }
    else s1

/-- `downsize_dir()`: a directory of half the capacity is allocated and the
`dir_size` live entries are copied into it. -/
def downsize_dir (s : vector α) : vector α :=
  { s with dir := s.dir.take s.dir_size ++
             List.replicate (s.dir_capacity / 2 - s.dir_size) [],
           big_buffer := true }

/-- The split loop shared by both `downsize_buffers()` implementations:
`splitPairs d h k` performs, for `j = k-1` down to `0`, the step
`dir[2*j] = first h items of dir[j]; dir[2*j+1] = last h items of dir[j]`
(allocating the two halves and freeing the old buffer). -/
def splitPairs (d : List (List α)) (half : Nat) : Nat → List (List α)
  | 0 => d
  | k + 1 =>
    splitPairs ((d.set (2 * k) ((d.getD k []).take half)).set
        (2 * k + 1) ((d.getD k []).drop half)) half k

/-- `succinct::vector::downsize_buffers()`: frees the empty last buffer,
splits the `dir_size - 1` remaining buffers back to front, then allocates a
fresh empty buffer in the new last slot. -/
def downsize_buffers (s : vector α) : vector α :=
  let d := splitPairs s.dir (s.buffer_capacity / 2) (s.dir_size - 1)
  let ds2 := 2 * s.dir_size - 1
  { s with dir := d.set (ds2 - 1) (List.replicate (s.buffer_capacity / 2) default),
           big_buffer := false,
           log_buffer_capacity := s.log_buffer_capacity - 1,
           dir_size := ds2 }

/-- `downsize()`. -/
def downsize (s : vector α) : vector α := cond s.big_buffer s.downsize_buffers s.downsize_dir

/-- `pop_back()`. -/
def pop_back (s : vector α) : vector α :=
  let t := s.pop_body
  if (t.dir_size + cond t.extra_buffer 1 0) * 4 ≤ t.dir_capacity then t.downsize else t

/-- The default-constructed vector: a one-slot directory whose slot owns a
fresh buffer of capacity 2. -/
def init : vector α :=
  { dir := [List.replicate 2 default], dir_size := 1, last_buffer_size := 0,
    log_buffer_capacity := 1, big_buffer := true, extra_buffer := false }

/-- `space::downsize_buffers()` from `space.hpp`: splits all `dir_size`
buffers (including the empty last one) back to front, then frees the
surplus half buffer left at slot `2*dir_size - 1`. -/
def space_downsize_buffers (s : vector α) : vector α :=
  let d := splitPairs s.dir (s.buffer_capacity / 2) s.dir_size
  { s with dir := d,
           log_buffer_capacity := s.log_buffer_capacity - 1,
           big_buffer := false,
           dir_size := 2 * s.dir_size - 1 }

/-- `space::downsize()`. -/
def space_downsize (s : vector α) : vector α :=
  cond s.big_buffer s.space_downsize_buffers s.downsize_dir

/-- `space::pop_back()` from `space.hpp`: identical to
`succinct::vector::pop_back` except that the downsize test
(`dir_size * 4 <= dir_capacity()`, without the `extra_buffer` term) is only
evaluated right after freeing the extra buffer. -/
def space_pop_back (s : vector α) : vector α :=
  if s.last_buffer_size = 0 then
    { s with last_buffer_size := s.buffer_capacity - 1,
             dir_size := s.dir_size - 1,
             extra_buffer := true }
  else
    let s1 : vector α := { s with last_buffer_size := s.last_buffer_size - 1 }
    if s1.last_buffer_size = 0 ∧ s1.extra_buffer = true then
      let s2 : vector α := { s1 with extra_buffer := false }
      if s2.dir_size * 4 ≤ s2.dir_capacity then s2.space_downsize else s2
    else s1

/-- `std::copy(src, src + len, dst)` where `dst` is a fresh buffer of `len`
default-initialised slots: element `t` receives `src[t]` (reading past the
end of `src` is junk, modelled by the default value). -/
def copyN (src : List α) (len : Nat) : List α :=
  (List.range len).map (fun t => src.getD t default)

/-- `construct(that)`: in a vector whose scalar fields are already copied
from `that` and whose directory is allocated (but garbage), allocate and
copy every counted buffer of `that`, and allocate (without copying) an
extra buffer when `extra_buffer` is set.  At both call sites
`buffer_capacity()` of the receiver and of `that` coincide. -/
def construct (s that : vector α) : vector α :=
  let d1 := (List.range s.dir_size).foldl
      (fun d i => d.set i (copyN (that.dir.getD i []) s.buffer_capacity)) s.dir
  let d2 := if s.extra_buffer = true
            then d1.set s.dir_size (List.replicate s.buffer_capacity default)
            else d1
  { s with dir := d2 }

/-- The copy constructor: a fresh directory of `that.dir_capacity()` garbage
slots, the scalar fields of `that`, then `construct(that)`.  The assignment
operator for distinct objects performs `destuct()` (deallocation only, no
functional content) followed by exactly the same steps, so it produces the
same value. -/
def copy_vec (that : vector α) : vector α :=
  construct
    { dir := List.replicate that.dir_capacity [],
      dir_size := that.dir_size,
      last_buffer_size := that.last_buffer_size,
      log_buffer_capacity := that.log_buffer_capacity,
      big_buffer := that.big_buffer,
      extra_buffer := that.extra_buffer } that

/-- `pget` in a checked build: `assert (i < size())` runs before the read;
on failure the abort happens with the container untouched, which the
`Except.error` value records. -/
def pget_checked (s : vector α) (i : Nat) : Except (vector α) α :=
  if i < s.size then Except.ok (s.pget i) else Except.error s

/-- `pop_back` in a checked build: `assert (size() > 0)` runs before any
mutation; on failure the abort happens with the container untouched. -/
def pop_checked (s : vector α) : Except (vector α) (vector α) :=
  if 0 < s.size then Except.ok s.pop_back else Except.error s

/-! ### Well-formedness and representation -/
/-- Structural well-formedness: the strengthened scalar invariant, a
directory of exactly `dir_capacity()` slots, and every allocated buffer
(the `dir_size` counted ones, plus the extra one if present) of exactly
`buffer_capacity()` elements. -/
def wf (s : vector α) : Prop :=
  (metaOf s).StrongM ∧ s.dir.length = s.dir_capacity ∧
    (∀ j, j < s.dir_size → (s.dir.getD j []).length = s.buffer_capacity) ∧
    (s.extra_buffer = true → (s.dir.getD s.dir_size []).length = s.buffer_capacity)

/-- The vector represents the element list `l`. -/
def reps (s : vector α) (l : List α) : Prop :=
  s.size = l.length ∧ ∀ i, i < l.length → s.pget i = l.getD i default

instance (s : vector α) : Decidable (wf s) := by
  unfold wf
  infer_instance

/-- The state after the unconditional write/increment step of `push_back`. -/
def wstep (s : vector α) (x : α) : vector α :=
  { s with dir := s.dir.set (s.dir_size - 1)
             ((s.dir.getD (s.dir_size - 1) []).set s.last_buffer_size x),
           last_buffer_size := s.last_buffer_size + 1 }

/-- A public mutating operation: `push_back x` or `pop_back`. -/
inductive Op (α : Type) where
  | push (x : α)
  | pop
deriving DecidableEq

/-- Run a sequence of operations on the container. -/
def runOps [Inhabited α] (s : vector α) : List (Op α) → vector α
  | [] => s
  | Op.push x :: rest => runOps (s.push_back x) rest
  | Op.pop :: rest => runOps s.pop_back rest

/-- Run the same sequence of operations on the plain-list reference model. -/
def runList (l : List α) : List (Op α) → List α
  | [] => l
  | Op.push x :: rest => runList (l ++ [x]) rest
  | Op.pop :: rest => runList l.dropLast rest

/-- A sequence of operations is legal from reference state `l` when every
`pop` happens on a non-empty state. -/
def legal (l : List α) : List (Op α) → Bool
  | [] => true
  | Op.push x :: rest => legal (l ++ [x]) rest
  | Op.pop :: rest => !l.isEmpty && legal l.dropLast rest

/-- States reachable from the default-constructed container by public
operations (`pop_back` only on a non-empty container). -/
inductive Reachable [Inhabited α] : vector α → Prop where
  | init : Reachable init
  | push (s : vector α) (x : α) : Reachable s → Reachable (s.push_back x)
  | pop (s : vector α) : Reachable s → 0 < s.size → Reachable s.pop_back
  | copy (s : vector α) : Reachable s → Reachable (copy_vec s)

/-- `operator=` applied to the object itself, step by step as the source
executes it: `destuct()` frees every owned buffer and the directory; then a
fresh directory of `that.dir_capacity()` slots is allocated (observable
through the alias `that` as the receiver's new `dir`), the scalar fields
are copied (a self-copy, no change), and `construct(that)` runs.  For each
counted slot `i`, `construct` allocates a fresh default-initialised buffer
into `dir[i]` and then copies `buffer_capacity()` elements from
`that.dir[i]` — but `that.dir[i]` is the very buffer just allocated, so the
copy reads the fresh default contents, not the destroyed originals.  The
result keeps every scalar field (hence `size()`) but every buffer holds
default values. -/
def assign_self (s : vector α) : vector α :=
  let d0 := List.replicate s.dir_capacity ([] : List α)
  let d1 := (List.range s.dir_size).foldl
      (fun d i => d.set i (copyN (List.replicate s.buffer_capacity default)
        s.buffer_capacity)) d0
  let d2 := if s.extra_buffer = true
            then d1.set s.dir_size (List.replicate s.buffer_capacity default)
            else d1
  { s with dir := d2 }

/-- A concrete well-formed big-regime state with an empty last buffer, used
to exercise `downsize_buffers` directly. -/
def c5ex : vector Nat :=
  { dir := [[10, 11, 12, 13, 14, 15, 16, 17], List.replicate 8 0, [], []],
    dir_size := 2, last_buffer_size := 0, log_buffer_capacity := 3,
    big_buffer := true, extra_buffer := false }

/-- Run a sequence of operations using `space::push_back`/`space::pop_back`
(`space.hpp`'s push_back is the same algorithm as `succinct::vector`'s). -/
def space_runOps [Inhabited α] (s : vector α) : List (Op α) → vector α
  | [] => s
  | Op.push x :: rest => space_runOps (s.push_back x) rest
  | Op.pop :: rest => space_runOps s.space_pop_back rest

/-! ### Heap-level model

`vector` above models buffers inline.  To settle ownership questions the
following model makes the heap explicit: a memory is a list of allocated
buffers, an address is an index into it, allocation appends (addresses are
never reused, matching a run in which the allocator always returns fresh
storage), `delete[]` has no observable content, and the directory of a
container holds addresses.  Every definition mirrors the same source lines
as its inline counterpart. -/
/-- The state of a `succinct::vector` seen as scalar fields plus a
directory of buffer addresses. -/
structure HV where
  dir : List Nat
  dir_size : Nat
  last_buffer_size : Nat
  log_buffer_capacity : Nat
  big_buffer : Bool
  extra_buffer : Bool
deriving DecidableEq

/-- The scalar fields of a heap-level state. -/
def metaOfH (h : HV) : MetaSt :=
  ⟨h.dir_size, h.last_buffer_size, h.log_buffer_capacity, h.big_buffer, h.extra_buffer⟩

/-- `size()` of a heap-level state. -/
def HV.size (h : HV) : Nat :=
  ((h.dir_size - 1) <<< h.log_buffer_capacity) + h.last_buffer_size

/-- The footprint test: `a` is the address of one of the owned buffers
(the `dir_size` counted ones, plus the extra buffer's slot when present). -/
def HV.fp (h : HV) (a : Nat) : Bool :=
  (List.range (h.dir_size + cond h.extra_buffer 1 0)).any fun k => h.dir.getD k 0 == a

/-- `pget(i)` reading buffers through the heap. -/
def hpget (mem : List (List α)) (h : HV) (i : Nat) : α :=
  (mem.getD (h.dir.getD (i >>> h.log_buffer_capacity) 0) []).getD
    (i &&& (2 ^ h.log_buffer_capacity - 1)) default

/-- Heap-level `upsize_dir()`: the directory is reallocated at twice the
capacity (the new slots are garbage); no buffer is touched. -/
def hupsize_dir (h : HV) : HV :=
  { h with
      dir := h.dir.take (2 ^ (h.log_buffer_capacity - cond h.big_buffer 1 0)) ++
        List.replicate (2 ^ (h.log_buffer_capacity - cond h.big_buffer 1 0)) 0,
      big_buffer := false }

/-- Heap-level merge loop of `upsize_buffers()`: iteration `k` allocates a
fresh double buffer holding the contents of the buffers at `dir[2k]` and
`dir[2k+1]` and stores its address in `dir[k]`. -/
def hmergePairs (mem : List (List α)) (d : List Nat) : Nat → List (List α) × List Nat
  | 0 => (mem, d)
  | k + 1 =>
    let p := hmergePairs mem d k
    (p.1 ++ [p.1.getD (p.2.getD (2 * k) 0) [] ++ p.1.getD (p.2.getD (2 * k + 1) 0) []],
     p.2.set k p.1.length)

/-- Heap-level `upsize_buffers()`. -/
def hupsize_buffers (mem : List (List α)) (h : HV) : List (List α) × HV :=
  let p := hmergePairs mem h.dir (h.dir_size / 2)
  (p.1, { h with
      dir := p.2, log_buffer_capacity := h.log_buffer_capacity + 1,
          last_buffer_size := h.last_buffer_size * 2, big_buffer := true,
          dir_size := h.dir_size / 2 })

/-- Heap-level `upsize()`. -/
def hupsize (mem : List (List α)) (h : HV) : List (List α) × HV :=
  cond h.big_buffer (mem, hupsize_dir h) (hupsize_buffers mem h)

/-- Heap-level `push_back(x)`: the element write goes to the buffer at
address `dir[dir_size-1]`; a possible upsize follows, then a fresh buffer
allocation unless the extra buffer is promoted. -/
def hpush (mem : List (List α)) (h : HV) (x : α) : List (List α) × HV :=
  let wa := h.dir.getD (h.dir_size - 1) 0
  let mem0 := mem.set wa ((mem.getD wa []).set h.last_buffer_size x)
  let s0 : HV := { h with
      last_buffer_size := h.last_buffer_size + 1 }
  if h.last_buffer_size + 1 = 2 ^ h.log_buffer_capacity then
    cond h.extra_buffer
      (mem0, { s0 with
      dir_size := h.dir_size + 1, extra_buffer := false,
               last_buffer_size := 0 })
      (let q := if h.dir_size = 2 ^ (h.log_buffer_capacity - cond h.big_buffer 1 0)
                then hupsize mem0 s0 else (mem0, s0)
       (q.1 ++ [List.replicate (2 ^ q.2.log_buffer_capacity) default],
        { q.2 with
      dir := q.2.dir.set q.2.dir_size q.1.length,
          dir_size := q.2.dir_size + 1, extra_buffer := false,
          last_buffer_size := 0 }))
  else (mem0, s0)

/-- Heap-level body of `pop_back()` (no buffer is written; the freed extra
buffer simply stops being owned). -/
def hpop_body (h : HV) : HV :=
  if h.last_buffer_size = 0 then
    { h with
      last_buffer_size := 2 ^ h.log_buffer_capacity - 1,
      dir_size := h.dir_size - 1, extra_buffer := true }
  else
    let s1 : HV := { h with
      last_buffer_size := h.last_buffer_size - 1 }
    if h.last_buffer_size - 1 = 0 ∧ h.extra_buffer = true then
      { s1 with
      extra_buffer := false }
    else s1

/-- Heap-level split loop of `downsize_buffers()`: iteration `k` (processed
back to front) allocates the two half buffers of the buffer at `dir[k]`
and stores their addresses in `dir[2k]` and `dir[2k+1]`. -/
def hsplitPairs (mem : List (List α)) (d : List Nat) (half : Nat) :
    Nat → List (List α) × List Nat
  | 0 => (mem, d)
  | k + 1 =>
    hsplitPairs (mem ++ [(mem.getD (d.getD k 0) []).take half,
        (mem.getD (d.getD k 0) []).drop half])
      ((d.set (2 * k) mem.length).set (2 * k + 1) (mem.length + 1)) half k

/-- Heap-level `succinct::vector::downsize_buffers()`. -/
def hdownsize_buffers (mem : List (List α)) (h : HV) : List (List α) × HV :=
  let p := hsplitPairs mem h.dir (2 ^ h.log_buffer_capacity / 2) (h.dir_size - 1)
  (p.1 ++ [List.replicate (2 ^ h.log_buffer_capacity / 2) default],
   { h with
      dir := p.2.set (2 * h.dir_size - 1 - 1) p.1.length,
      big_buffer := false, log_buffer_capacity := h.log_buffer_capacity - 1,
      dir_size := 2 * h.dir_size - 1 })

/-- Heap-level `downsize_dir()`. -/
def hdownsize_dir (h : HV) : HV :=
  { h with
      dir := h.dir.take h.dir_size ++
        List.replicate (2 ^ (h.log_buffer_capacity - cond h.big_buffer 1 0) / 2 -
          h.dir_size) 0,
      big_buffer := true }

/-- Heap-level `downsize()`. -/
def hdownsize (mem : List (List α)) (h : HV) : List (List α) × HV :=
  cond h.big_buffer (hdownsize_buffers mem h) (mem, hdownsize_dir h)

/-- Heap-level `pop_back()`. -/
def hpop (mem : List (List α)) (h : HV) : List (List α) × HV :=
  let t := hpop_body h
  if (t.dir_size + cond t.extra_buffer 1 0) * 4 ≤
      2 ^ (t.log_buffer_capacity - cond t.big_buffer 1 0) then
    hdownsize mem t
  else (mem, t)

/-- Heap-level copy construction (and assignment between distinct objects,
which `destuct`s the receiver — no observable content — and then performs
the same steps): a fresh directory, a fresh buffer per counted slot filled
by `std::copy` from the source buffer, and a fresh uninitialised extra
buffer when `extra_buffer` is set. -/
def hcopy (mem : List (List α)) (h : HV) : List (List α) × HV :=
  let p := (List.range h.dir_size).foldl
      (fun (q : List (List α) × List Nat) i =>
        (q.1 ++ [copyN (mem.getD (h.dir.getD i 0) []) (2 ^ h.log_buffer_capacity)],
         q.2.set i q.1.length))
      (mem, List.replicate (2 ^ (h.log_buffer_capacity - cond h.big_buffer 1 0)) 0)
  let q := if h.extra_buffer = true
           then (p.1 ++ [List.replicate (2 ^ h.log_buffer_capacity) default],
                 p.2.set h.dir_size p.1.length)
           else p
  (q.1, { dir := q.2, dir_size := h.dir_size,
          last_buffer_size := h.last_buffer_size,
          log_buffer_capacity := h.log_buffer_capacity,
          big_buffer := h.big_buffer, extra_buffer := h.extra_buffer })

/-- Run a sequence of mutations at the heap level. -/
def hrunOps (mem : List (List α)) (h : HV) : List (Op α) → List (List α) × HV
  | [] => (mem, h)
  | Op.push x :: rest => hrunOps (hpush mem h x).1 (hpush mem h x).2 rest
  | Op.pop :: rest => hrunOps (hpop mem h).1 (hpop mem h).2 rest

/-- Scalar legality of an operation sequence: every `pop` happens at a
positive size. -/
def mlegal (n : MetaSt) : List (Op α) → Bool
  | [] => true
  | Op.push _ :: rest => mlegal n.pushMeta rest
  | Op.pop :: rest => if n.msize = 0 then false else mlegal n.popMeta rest

/-- The buffer-copying loop of `construct(that)` at the heap level, with
explicit accumulators. -/
def hcopyLoop (mem : List (List α)) (h : HV) (macc : List (List α))
    (dacc : List Nat) (n : Nat) : List (List α) × List Nat :=
  (List.range n).foldl
    (fun (q : List (List α) × List Nat) i =>
      (q.1 ++ [copyN (mem.getD (h.dir.getD i 0) []) (2 ^ h.log_buffer_capacity)],
       q.2.set i q.1.length))
    (macc, dacc)

end vector

namespace MetaSt

theorem strong_init : initMeta.StrongM := by decide

theorem dcap_pos (n : MetaSt) : 0 < n.dcap := Nat.pow_pos (by norm_num)

theorem bcap_pos (n : MetaSt) : 0 < n.bcap := Nat.pow_pos (by norm_num)

theorem two_le_bcap (n : MetaSt) (hL : 1 ≤ n.L) : 2 ≤ n.bcap := by
  have h : 2 ^ 1 ≤ 2 ^ n.L := Nat.pow_le_pow_right (by norm_num) hL
  simpa [bcap] using h

theorem bcap_of_big (n : MetaSt) (hb : n.big = true) (hL : 1 ≤ n.L) :
    n.bcap = 2 * n.dcap := by
  have h : n.L = (n.L - 1) + 1 := by omega
  unfold bcap dcap
  rw [hb, Bool.cond_true]
  conv_lhs => rw [h]
  rw [pow_succ]
  ring

theorem bcap_of_not_big (n : MetaSt) (hb : n.big = false) : n.bcap = n.dcap := by
  unfold bcap dcap
  rw [hb, Bool.cond_false, Nat.sub_zero]

theorem succ_pred_mul (a B : Nat) (h : 1 ≤ a) : a * B = (a - 1) * B + B := by
  have hd : a = (a - 1) + 1 := by omega
  conv_lhs => rw [hd]
  rw [Nat.succ_mul]

theorem pow_pred_double (L : Nat) (h : 1 ≤ L) : (2 : Nat) ^ L = 2 * 2 ^ (L - 1) := by
  have hd : L = (L - 1) + 1 := by omega
  conv_lhs => rw [hd]
  rw [pow_succ]
  ring

/-- `push_back` preserves the strengthened invariant and increments the size. -/
theorem strong_push (n : MetaSt) (h : n.StrongM) :
    n.pushMeta.StrongM ∧ n.pushMeta.msize = n.msize + 1 := by
  obtain ⟨ds, lbs, L, big, e⟩ := n
  obtain ⟨⟨hL, hds1, hdsD, hlbs, hlz, he, hinv5⟩, hstrict⟩ := h
  have hpow1 := pow_pred_double L hL
  have hmul := succ_pred_mul ds (2 ^ L) hds1
  have hB1 : 0 < 2 ^ L := Nat.pow_pos (by norm_num)
  have hC1 : 0 < 2 ^ (L - 1) := Nat.pow_pos (by norm_num)
  replace hL : 1 ≤ L := hL
  replace hds1 : 1 ≤ ds := hds1
  cases e <;> cases big <;>
      simp only [StrongM, ValidM, dcap, bcap, ebit, Bool.cond_false, Bool.cond_true,
        Nat.sub_zero] at hdsD hlbs he hlz hinv5 hstrict
  case false.false =>
    by_cases hfull : lbs + 1 = 2 ^ L
    · by_cases hdd : ds = 2 ^ L
      · -- full, no extra, directory full, flat regime: upsize_buffers
        have hq : ds / 2 * 2 ^ (L + 1) = ds * 2 ^ L := by
          rw [show ds / 2 = 2 ^ (L - 1) by omega]
          rw [show (2 : Nat) ^ (L + 1) = 2 * 2 ^ L by rw [pow_succ]; ring]
          rw [hdd, hpow1]
          ring
        have hpow2 : (2 : Nat) ^ (L + 1) = 2 * 2 ^ L := by rw [pow_succ]; ring
        simp only [pushMeta, upsizeMeta, bcap, dcap, ebit, Bool.cond_false, Bool.cond_true, Nat.sub_zero]
        rw [if_pos hfull, if_pos hdd]
        simp only [StrongM, ValidM, msize, dcap, bcap, ebit, Bool.cond_false, Bool.cond_true, Nat.sub_zero, Nat.add_sub_cancel]
        refine ⟨⟨⟨by omega, by omega, by omega, by omega, ?_, ?_, by omega⟩, ?_⟩, ?_⟩
        · exact fun _ => trivial
        · intro hc; exact Bool.noConfusion hc
        · intro h4; exact absurd h4 (by omega)
        · omega
      · -- full, no extra, room in the directory: allocate a fresh buffer
        simp only [pushMeta, upsizeMeta, bcap, dcap, ebit, Bool.cond_false, Bool.cond_true, Nat.sub_zero]
        rw [if_pos hfull, if_neg hdd]
        simp only [StrongM, ValidM, msize, dcap, bcap, ebit, Bool.cond_false, Bool.cond_true, Nat.sub_zero, Nat.add_sub_cancel]
        refine ⟨⟨⟨by omega, by omega, by omega, by omega, ?_, ?_, by omega⟩, ?_⟩, ?_⟩
        · exact fun _ => trivial
        · intro hc; exact Bool.noConfusion hc
        · intro h4; exact absurd h4 (by omega)
        · omega
    · -- the buffer is not yet full
      simp only [pushMeta, bcap, Bool.cond_false, Bool.cond_true, Nat.sub_zero]
      rw [if_neg hfull]
      simp only [StrongM, ValidM, msize, dcap, bcap, ebit, Bool.cond_false, Bool.cond_true, Nat.sub_zero, Nat.add_sub_cancel]
      refine ⟨⟨⟨by omega, by omega, by omega, by omega, ?_, ?_, by omega⟩, ?_⟩, ?_⟩
      · intro hc; exact absurd hc (by omega)
      · intro hc; exact Bool.noConfusion hc
      · exact fun h4 => hstrict h4
      · omega
  case false.true =>
    have hstF : (ds + 0) * 4 = 2 ^ (L - 1) → False := fun h4 =>
      Bool.noConfusion (hstrict h4).2.2
    by_cases hfull : lbs + 1 = 2 ^ L
    · by_cases hdd : ds = 2 ^ (L - 1)
      · -- full, no extra, directory full, big regime: upsize_dir
        simp only [pushMeta, upsizeMeta, bcap, dcap, ebit, Bool.cond_false, Bool.cond_true, Nat.sub_zero]
        rw [if_pos hfull, if_pos hdd]
        simp only [StrongM, ValidM, msize, dcap, bcap, ebit, Bool.cond_false, Bool.cond_true, Nat.sub_zero, Nat.add_sub_cancel]
        refine ⟨⟨⟨by omega, by omega, by omega, by omega, ?_, ?_, by omega⟩, ?_⟩, ?_⟩
        · exact fun _ => trivial
        · intro hc; exact Bool.noConfusion hc
        · intro h4; exact absurd h4 (by omega)
        · omega
      · -- full, no extra, room in the directory
        simp only [pushMeta, upsizeMeta, bcap, dcap, ebit, Bool.cond_false, Bool.cond_true, Nat.sub_zero]
        rw [if_pos hfull, if_neg hdd]
        simp only [StrongM, ValidM, msize, dcap, bcap, ebit, Bool.cond_false, Bool.cond_true, Nat.sub_zero, Nat.add_sub_cancel]
        refine ⟨⟨⟨by omega, by omega, by omega, by omega, ?_, ?_, by omega⟩, ?_⟩, ?_⟩
        · exact fun _ => trivial
        · intro hc; exact Bool.noConfusion hc
        · intro h4; exact absurd h4 (by omega)
        · omega
    · -- the buffer is not yet full
      simp only [pushMeta, bcap, Bool.cond_false, Bool.cond_true, Nat.sub_zero]
      rw [if_neg hfull]
      simp only [StrongM, ValidM, msize, dcap, bcap, ebit, Bool.cond_false, Bool.cond_true, Nat.sub_zero, Nat.add_sub_cancel]
      refine ⟨⟨⟨by omega, by omega, by omega, by omega, ?_, ?_, by omega⟩, ?_⟩, ?_⟩
      · intro hc; exact absurd hc (by omega)
      · intro hc; exact Bool.noConfusion hc
      · intro h4; exact (hstF (by omega)).elim
      · omega
  case true.false =>
    obtain ⟨hlpos, hdlt⟩ := he trivial
    have hstF : (ds + 1) * 4 = 2 ^ L → False := fun h4 =>
      Bool.noConfusion (hstrict h4).2.1
    by_cases hfull : lbs + 1 = 2 ^ L
    · -- full, extra buffer present: promote it into the directory
      simp only [pushMeta, bcap, Bool.cond_false, Bool.cond_true, Nat.sub_zero]
      rw [if_pos hfull]
      simp only [StrongM, ValidM, msize, dcap, bcap, ebit, Bool.cond_false, Bool.cond_true, Nat.sub_zero, Nat.add_sub_cancel]
      refine ⟨⟨⟨by omega, by omega, by omega, by omega, ?_, ?_, by omega⟩, ?_⟩, ?_⟩
      · exact fun _ => trivial
      · intro hc; exact Bool.noConfusion hc
      · intro h4; exact (hstF (by omega)).elim
      · omega
    · simp only [pushMeta, bcap, Bool.cond_false, Bool.cond_true, Nat.sub_zero]
      rw [if_neg hfull]
      simp only [StrongM, ValidM, msize, dcap, bcap, ebit, Bool.cond_false, Bool.cond_true, Nat.sub_zero, Nat.add_sub_cancel]
      refine ⟨⟨⟨by omega, by omega, by omega, by omega, ?_, ?_, by omega⟩, ?_⟩, ?_⟩
      · intro hc; exact absurd hc (by omega)
      · intro; exact ⟨by omega, by omega⟩
      · intro h4; exact (hstF (by omega)).elim
      · omega
  case true.true =>
    obtain ⟨hlpos, hdlt⟩ := he trivial
    have hstF : (ds + 1) * 4 = 2 ^ (L - 1) → False := fun h4 =>
      Bool.noConfusion (hstrict h4).2.1
    by_cases hfull : lbs + 1 = 2 ^ L
    · -- full, extra buffer present: promote it into the directory
      simp only [pushMeta, bcap, Bool.cond_false, Bool.cond_true, Nat.sub_zero]
      rw [if_pos hfull]
      simp only [StrongM, ValidM, msize, dcap, bcap, ebit, Bool.cond_false, Bool.cond_true, Nat.sub_zero, Nat.add_sub_cancel]
      refine ⟨⟨⟨by omega, by omega, by omega, by omega, ?_, ?_, by omega⟩, ?_⟩, ?_⟩
      · exact fun _ => trivial
      · intro hc; exact Bool.noConfusion hc
      · intro h4; exact (hstF (by omega)).elim
      · omega
    · simp only [pushMeta, bcap, Bool.cond_false, Bool.cond_true, Nat.sub_zero]
      rw [if_neg hfull]
      simp only [StrongM, ValidM, msize, dcap, bcap, ebit, Bool.cond_false, Bool.cond_true, Nat.sub_zero, Nat.add_sub_cancel]
      refine ⟨⟨⟨by omega, by omega, by omega, by omega, ?_, ?_, by omega⟩, ?_⟩, ?_⟩
      · intro hc; exact absurd hc (by omega)
      · intro; exact ⟨by omega, by omega⟩
      · intro h4; exact (hstF (by omega)).elim
      · omega

theorem two_pow_mod_four (m : Nat) : 2 ^ m < 4 ∨ 2 ^ m % 4 = 0 := by
  match m with
  | 0 => left; norm_num
  | 1 => left; norm_num
  | k + 2 => right; rw [pow_succ, pow_succ, Nat.mul_assoc]; omega

theorem two_le_of_four_le_pow (m : Nat) (h : 4 ≤ 2 ^ m) : 2 ≤ m := by
  by_contra hc
  push_neg at hc
  interval_cases m <;> omega

/-- `pop_back` preserves the strengthened invariant and decrements the size;
moreover, whenever the downsize trigger fires it does so with equality, with
no extra buffer, and (in the `big_buffer` regime) with an empty last buffer,
and the trigger never fires in the `last_buffer_size == 0` branch. -/
theorem strong_pop (n : MetaSt) (h : n.StrongM) (hsz : 0 < n.msize) :
    n.popMeta.StrongM ∧ n.popMeta.msize + 1 = n.msize ∧
      (n.popBodyMeta.trig →
        (n.popBodyMeta.ds + n.popBodyMeta.ebit) * 4 = n.popBodyMeta.dcap ∧
        n.popBodyMeta.e = false ∧
        (n.big = true → n.popBodyMeta.lbs = 0 ∧
          2 * n.popBodyMeta.ds < n.popBodyMeta.dcap ∧ 2 ≤ n.popBodyMeta.L)) ∧
      (n.lbs = 0 → ¬ n.popBodyMeta.trig) := by
  obtain ⟨ds, lbs, L, big, e⟩ := n
  obtain ⟨⟨hL, hds1, hdsD, hlbs, hlz, he, hinv5⟩, hstrict⟩ := h
  replace hL : 1 ≤ L := hL
  replace hds1 : 1 ≤ ds := hds1
  have hpow1 := pow_pred_double L hL
  have hB1 : 0 < 2 ^ L := Nat.pow_pos (by norm_num)
  have hC1 : 0 < 2 ^ (L - 1) := Nat.pow_pos (by norm_num)
  simp only [msize, bcap] at hsz
  cases e <;> cases big <;>
      simp only [StrongM, ValidM, dcap, bcap, ebit, Bool.cond_false, Bool.cond_true,
        Nat.sub_zero] at hdsD hlbs he hlz hinv5 hstrict
  case false.false =>
    by_cases hlbs0 : lbs = 0
    · -- last buffer empty: it becomes the extra buffer; the trigger never fires
      have hds2 : 2 ≤ ds := by
        by_contra hc
        have hds_eq : ds = 1 := by omega
        rw [hds_eq, hlbs0] at hsz
        simp at hsz
      have hmul2 := succ_pred_mul (ds - 1) (2 ^ L) (by omega)
      have htrF : ¬ ((ds - 1 + 1) * 4 ≤ 2 ^ L) := by
        intro hc
        have h4 : (ds + 0) * 4 = 2 ^ L := by omega
        exact absurd (hstrict h4).1 (by omega)
      simp only [popMeta, popBodyMeta]
      rw [if_pos hlbs0]
      simp only [trig, downsizeMeta, dcap, bcap, ebit, Bool.cond_false, Bool.cond_true,
        Nat.sub_zero, Nat.add_sub_cancel]
      rw [if_neg htrF]
      simp only [StrongM, ValidM, msize, trig, dcap, bcap, ebit, Bool.cond_false,
        Bool.cond_true, Nat.sub_zero, Nat.add_sub_cancel]
      refine ⟨⟨⟨hL, by omega, by omega, by omega, ?_, ?_, by omega⟩, ?_⟩, ?_, ?_, ?_⟩
      · intro hc; exact absurd hc (by omega)
      · intro; exact ⟨by omega, by omega⟩
      · intro h4; exact absurd h4 (by omega)
      · omega
      · intro hc; exact absurd hc htrF
      · intro _; exact htrF
    · -- decrement within the last buffer; no extra buffer to free
      simp only [popMeta, popBodyMeta]
      rw [if_neg hlbs0, if_neg (show ¬ (lbs - 1 = 0 ∧ false = true) by simp)]
      simp only [trig, downsizeMeta, dcap, bcap, ebit, Bool.cond_false, Bool.cond_true,
        Nat.sub_zero, Nat.add_sub_cancel]
      by_cases htr : (ds + 0) * 4 ≤ 2 ^ L
      · -- the trigger fires with equality; downsize_dir halves the directory
        have heq : (ds + 0) * 4 = 2 ^ L := by omega
        have hds_eq : ds = 1 := (hstrict heq).1
        rw [if_pos htr]
        simp only [StrongM, ValidM, msize, trig, dcap, bcap, ebit, Bool.cond_false,
        Bool.cond_true, Nat.sub_zero, Nat.add_sub_cancel]
        refine ⟨⟨⟨hL, by omega, by omega, by omega, ?_, ?_, by omega⟩, ?_⟩, ?_, ?_, ?_⟩
        · exact fun _ => trivial
        · intro hc; exact Bool.noConfusion hc
        · intro h4; exact absurd h4 (by omega)
        · omega
        · intro _
          refine ⟨by omega, by trivial, ?_⟩
          intro hc; exact Bool.noConfusion hc
        · intro hc; exact absurd hc hlbs0
      · rw [if_neg htr]
        simp only [StrongM, ValidM, msize, trig, dcap, bcap, ebit, Bool.cond_false,
        Bool.cond_true, Nat.sub_zero, Nat.add_sub_cancel]
        refine ⟨⟨⟨hL, by omega, by omega, by omega, ?_, ?_, by omega⟩, ?_⟩, ?_, ?_, ?_⟩
        · exact fun _ => trivial
        · intro hc; exact Bool.noConfusion hc
        · intro h4; exact absurd h4 (by omega)
        · omega
        · intro hc; exact absurd hc htr
        · intro hc; exact absurd hc hlbs0
  case false.true =>
    have hstF : (ds + 0) * 4 = 2 ^ (L - 1) → False := fun h4 =>
      Bool.noConfusion (hstrict h4).2.2
    by_cases hlbs0 : lbs = 0
    · -- last buffer empty: it becomes the extra buffer; the trigger never fires
      have hds2 : 2 ≤ ds := by
        by_contra hc
        have hds_eq : ds = 1 := by omega
        rw [hds_eq, hlbs0] at hsz
        simp at hsz
      have hmul2 := succ_pred_mul (ds - 1) (2 ^ L) (by omega)
      have htrF : ¬ ((ds - 1 + 1) * 4 ≤ 2 ^ (L - 1)) := by
        intro hc
        exact hstF (by omega)
      simp only [popMeta, popBodyMeta]
      rw [if_pos hlbs0]
      simp only [trig, downsizeMeta, dcap, bcap, ebit, Bool.cond_false, Bool.cond_true,
        Nat.sub_zero, Nat.add_sub_cancel]
      rw [if_neg htrF]
      simp only [StrongM, ValidM, msize, trig, dcap, bcap, ebit, Bool.cond_false,
        Bool.cond_true, Nat.sub_zero, Nat.add_sub_cancel]
      refine ⟨⟨⟨hL, by omega, by omega, by omega, ?_, ?_, by omega⟩, ?_⟩, ?_, ?_, ?_⟩
      · intro hc; exact absurd hc (by omega)
      · intro; exact ⟨by omega, by omega⟩
      · intro h4; exact (hstF (by omega)).elim
      · omega
      · intro hc; exact absurd hc htrF
      · intro _; exact htrF
    · -- decrement within the last buffer; the trigger cannot fire at all here
      have htrF : ¬ ((ds + 0) * 4 ≤ 2 ^ (L - 1)) := by
        intro hc
        exact hstF (by omega)
      simp only [popMeta, popBodyMeta]
      rw [if_neg hlbs0, if_neg (show ¬ (lbs - 1 = 0 ∧ false = true) by simp)]
      simp only [trig, downsizeMeta, dcap, bcap, ebit, Bool.cond_false, Bool.cond_true,
        Nat.sub_zero, Nat.add_sub_cancel]
      rw [if_neg htrF]
      simp only [StrongM, ValidM, msize, trig, dcap, bcap, ebit, Bool.cond_false,
        Bool.cond_true, Nat.sub_zero, Nat.add_sub_cancel]
      refine ⟨⟨⟨hL, by omega, by omega, by omega, ?_, ?_, by omega⟩, ?_⟩, ?_, ?_, ?_⟩
      · exact fun _ => trivial
      · intro hc; exact Bool.noConfusion hc
      · intro h4; exact (hstF (by omega)).elim
      · omega
      · intro hc; exact absurd hc htrF
      · intro hc; exact absurd hc hlbs0
  case true.false =>
    obtain ⟨hlpos, hdlt⟩ := he trivial
    have hstF : (ds + 1) * 4 = 2 ^ L → False := fun h4 =>
      Bool.noConfusion (hstrict h4).2.1
    have hlbs0 : ¬ (lbs = 0) := by omega
    by_cases hfr : lbs - 1 = 0
    · -- the decrement empties the last buffer: the extra buffer is freed
      simp only [popMeta, popBodyMeta]
      rw [if_neg hlbs0, if_pos (show lbs - 1 = 0 ∧ True from ⟨hfr, trivial⟩)]
      simp only [trig, downsizeMeta, dcap, bcap, ebit, Bool.cond_false, Bool.cond_true,
        Nat.sub_zero, Nat.add_sub_cancel]
      by_cases htr : (ds + 0) * 4 ≤ 2 ^ L
      · -- the trigger fires with equality; downsize_dir halves the directory
        have hmod := two_pow_mod_four L
        have hne : ¬ ((ds + 1) * 4 = 2 ^ L) := fun hx => hstF hx
        have heq : ds * 4 = 2 ^ L := by omega
        rw [if_pos htr]
        simp only [StrongM, ValidM, msize, trig, dcap, bcap, ebit, Bool.cond_false,
        Bool.cond_true, Nat.sub_zero, Nat.add_sub_cancel]
        refine ⟨⟨⟨hL, by omega, by omega, by omega, ?_, ?_, by omega⟩, ?_⟩, ?_, ?_, ?_⟩
        · exact fun _ => trivial
        · intro hc; exact Bool.noConfusion hc
        · intro h4; exact absurd h4 (by omega)
        · omega
        · intro _
          refine ⟨by omega, by trivial, ?_⟩
          intro hc; exact Bool.noConfusion hc
        · intro hc; exact absurd hc hlbs0
      · rw [if_neg htr]
        simp only [StrongM, ValidM, msize, trig, dcap, bcap, ebit, Bool.cond_false,
        Bool.cond_true, Nat.sub_zero, Nat.add_sub_cancel]
        refine ⟨⟨⟨hL, by omega, by omega, by omega, ?_, ?_, by omega⟩, ?_⟩, ?_, ?_, ?_⟩
        · exact fun _ => trivial
        · intro hc; exact Bool.noConfusion hc
        · intro h4; exact absurd h4 (by omega)
        · omega
        · intro hc; exact absurd hc htr
        · intro hc; exact absurd hc hlbs0
    · -- the last buffer stays non-empty; the extra buffer is kept
      have htrF : ¬ ((ds + 1) * 4 ≤ 2 ^ L) := by
        intro hc
        exact hstF (by omega)
      simp only [popMeta, popBodyMeta]
      rw [if_neg hlbs0, if_neg (show ¬ (lbs - 1 = 0 ∧ True) by simp [hfr])]
      simp only [trig, downsizeMeta, dcap, bcap, ebit, Bool.cond_false, Bool.cond_true,
        Nat.sub_zero, Nat.add_sub_cancel]
      rw [if_neg htrF]
      simp only [StrongM, ValidM, msize, trig, dcap, bcap, ebit, Bool.cond_false,
        Bool.cond_true, Nat.sub_zero, Nat.add_sub_cancel]
      refine ⟨⟨⟨hL, by omega, by omega, by omega, ?_, ?_, by omega⟩, ?_⟩, ?_, ?_, ?_⟩
      · intro hc; exact absurd hc hfr
      · intro; exact ⟨by omega, by omega⟩
      · intro h4; exact (hstF (by omega)).elim
      · omega
      · intro hc; exact absurd hc htrF
      · intro hc; exact absurd hc hlbs0
  case true.true =>
    obtain ⟨hlpos, hdlt⟩ := he trivial
    have hstF : (ds + 1) * 4 = 2 ^ (L - 1) → False := fun h4 =>
      Bool.noConfusion (hstrict h4).2.1
    have hlbs0 : ¬ (lbs = 0) := by omega
    by_cases hfr : lbs - 1 = 0
    · -- the decrement empties the last buffer: the extra buffer is freed
      simp only [popMeta, popBodyMeta]
      rw [if_neg hlbs0, if_pos (show lbs - 1 = 0 ∧ True from ⟨hfr, trivial⟩)]
      simp only [trig, downsizeMeta, dcap, bcap, ebit, Bool.cond_false, Bool.cond_true,
        Nat.sub_zero, Nat.add_sub_cancel]
      by_cases htr : (ds + 0) * 4 ≤ 2 ^ (L - 1)
      · -- trigger fires with equality; downsize_buffers splits all buffers
        have hmod := two_pow_mod_four (L - 1)
        have hne : ¬ ((ds + 1) * 4 = 2 ^ (L - 1)) := fun hx => hstF hx
        have heq : ds * 4 = 2 ^ (L - 1) := by omega
        have hL2 : 2 ≤ L - 1 := two_le_of_four_le_pow (L - 1) (by omega)
        have hbr : (2 * ds - 1 - 1) * 2 ^ (L - 1) = (ds - 1) * 2 ^ L := by
          have h1 : 2 * ds - 1 - 1 = 2 * (ds - 1) := by omega
          rw [h1, hpow1]
          ring
        rw [if_pos htr]
        simp only [StrongM, ValidM, msize, trig, dcap, bcap, ebit, Bool.cond_false,
        Bool.cond_true, Nat.sub_zero, Nat.add_sub_cancel]
        refine ⟨⟨⟨by omega, by omega, by omega, by omega, ?_, ?_, by omega⟩, ?_⟩, ?_, ?_, ?_⟩
        · exact fun _ => trivial
        · intro hc; exact Bool.noConfusion hc
        · intro h4; exact ⟨by omega, by trivial, by trivial⟩
        · omega
        · intro _
          exact ⟨by omega, by trivial, fun _ => ⟨hfr, by omega, by omega⟩⟩
        · intro hc; exact absurd hc hlbs0
      · rw [if_neg htr]
        simp only [StrongM, ValidM, msize, trig, dcap, bcap, ebit, Bool.cond_false,
        Bool.cond_true, Nat.sub_zero, Nat.add_sub_cancel]
        refine ⟨⟨⟨hL, by omega, by omega, by omega, ?_, ?_, by omega⟩, ?_⟩, ?_, ?_, ?_⟩
        · exact fun _ => trivial
        · intro hc; exact Bool.noConfusion hc
        · intro h4; exact absurd h4 (by omega)
        · omega
        · intro hc; exact absurd hc htr
        · intro hc; exact absurd hc hlbs0
    · -- the last buffer stays non-empty; the extra buffer is kept
      have htrF : ¬ ((ds + 1) * 4 ≤ 2 ^ (L - 1)) := by
        intro hc
        exact hstF (by omega)
      simp only [popMeta, popBodyMeta]
      rw [if_neg hlbs0, if_neg (show ¬ (lbs - 1 = 0 ∧ True) by simp [hfr])]
      simp only [trig, downsizeMeta, dcap, bcap, ebit, Bool.cond_false, Bool.cond_true,
        Nat.sub_zero, Nat.add_sub_cancel]
      rw [if_neg htrF]
      simp only [StrongM, ValidM, msize, trig, dcap, bcap, ebit, Bool.cond_false,
        Bool.cond_true, Nat.sub_zero, Nat.add_sub_cancel]
      refine ⟨⟨⟨hL, by omega, by omega, by omega, ?_, ?_, by omega⟩, ?_⟩, ?_, ?_, ?_⟩
      · intro hc; exact absurd hc hfr
      · intro; exact ⟨by omega, by omega⟩
      · intro h4; exact (hstF (by omega)).elim
      · omega
      · intro hc; exact absurd hc htrF
      · intro hc; exact absurd hc hlbs0

/-- `space::pop_back` preserves the strengthened invariant and decrements the
size; moreover its nested downsize test, reached only right after freeing the
extra buffer, holds with equality whenever it holds at all, so the
`assert (dir_size * 4 == dir_capacity())` in `space.hpp` never fails. -/
theorem strong_spacePop (n : MetaSt) (h : n.StrongM) (hsz : 0 < n.msize) :
    n.spacePopMeta.StrongM ∧ n.spacePopMeta.msize + 1 = n.msize ∧
      (n.lbs = 1 → n.e = true → n.ds * 4 ≤ n.dcap →
        n.ds * 4 = n.dcap ∧ (n.big = true → 2 * n.ds < n.dcap ∧ 2 ≤ n.L)) := by
  obtain ⟨ds, lbs, L, big, e⟩ := n
  obtain ⟨⟨hL, hds1, hdsD, hlbs, hlz, he, hinv5⟩, hstrict⟩ := h
  replace hL : 1 ≤ L := hL
  replace hds1 : 1 ≤ ds := hds1
  have hpow1 := pow_pred_double L hL
  have hB1 : 0 < 2 ^ L := Nat.pow_pos (by norm_num)
  have hC1 : 0 < 2 ^ (L - 1) := Nat.pow_pos (by norm_num)
  simp only [msize, bcap] at hsz
  cases e <;> cases big <;>
      simp only [StrongM, ValidM, dcap, bcap, ebit, Bool.cond_false, Bool.cond_true,
        Nat.sub_zero] at hdsD hlbs he hlz hinv5 hstrict
  case false.false =>
    by_cases hlbs0 : lbs = 0
    · -- last buffer empty: it becomes the extra buffer; no downsize test at all
      have hds2 : 2 ≤ ds := by
        by_contra hc
        have hds_eq : ds = 1 := by omega
        rw [hds_eq, hlbs0] at hsz
        simp at hsz
      have hmul2 := succ_pred_mul (ds - 1) (2 ^ L) (by omega)
      simp only [spacePopMeta]
      rw [if_pos hlbs0]
      simp only [StrongM, ValidM, msize, dcap, bcap, ebit, Bool.cond_false,
        Bool.cond_true, Nat.sub_zero, Nat.add_sub_cancel]
      refine ⟨⟨⟨hL, by omega, by omega, by omega, ?_, ?_, by omega⟩, ?_⟩, ?_, ?_⟩
      · intro hc; exact absurd hc (by omega)
      · intro; exact ⟨by omega, by omega⟩
      · intro h4
        have h5 : (ds + 0) * 4 = 2 ^ L := by omega
        exact absurd (hstrict h5).1 (by omega)
      · omega
      · intro _ hc; exact Bool.noConfusion hc
    · -- decrement within the last buffer; no extra buffer, no downsize test
      simp only [spacePopMeta]
      rw [if_neg hlbs0, if_neg (show ¬ (lbs - 1 = 0 ∧ false = true) by simp)]
      simp only [StrongM, ValidM, msize, dcap, bcap, ebit, Bool.cond_false,
        Bool.cond_true, Nat.sub_zero, Nat.add_sub_cancel]
      refine ⟨⟨⟨hL, by omega, by omega, by omega, ?_, ?_, by omega⟩, ?_⟩, ?_, ?_⟩
      · exact fun _ => trivial
      · intro hc; exact Bool.noConfusion hc
      · exact fun h4 => hstrict h4
      · omega
      · intro _ hc; exact Bool.noConfusion hc
  case false.true =>
    have hstF : (ds + 0) * 4 = 2 ^ (L - 1) → False := fun h4 =>
      Bool.noConfusion (hstrict h4).2.2
    by_cases hlbs0 : lbs = 0
    · have hds2 : 2 ≤ ds := by
        by_contra hc
        have hds_eq : ds = 1 := by omega
        rw [hds_eq, hlbs0] at hsz
        simp at hsz
      have hmul2 := succ_pred_mul (ds - 1) (2 ^ L) (by omega)
      simp only [spacePopMeta]
      rw [if_pos hlbs0]
      simp only [StrongM, ValidM, msize, dcap, bcap, ebit, Bool.cond_false,
        Bool.cond_true, Nat.sub_zero, Nat.add_sub_cancel]
      refine ⟨⟨⟨hL, by omega, by omega, by omega, ?_, ?_, by omega⟩, ?_⟩, ?_, ?_⟩
      · intro hc; exact absurd hc (by omega)
      · intro; exact ⟨by omega, by omega⟩
      · intro h4; exact (hstF (by omega)).elim
      · omega
      · intro _ hc; exact Bool.noConfusion hc
    · simp only [spacePopMeta]
      rw [if_neg hlbs0, if_neg (show ¬ (lbs - 1 = 0 ∧ false = true) by simp)]
      simp only [StrongM, ValidM, msize, dcap, bcap, ebit, Bool.cond_false,
        Bool.cond_true, Nat.sub_zero, Nat.add_sub_cancel]
      refine ⟨⟨⟨hL, by omega, by omega, by omega, ?_, ?_, by omega⟩, ?_⟩, ?_, ?_⟩
      · exact fun _ => trivial
      · intro hc; exact Bool.noConfusion hc
      · intro h4; exact (hstF (by omega)).elim
      · omega
      · intro _ hc; exact Bool.noConfusion hc
  case true.false =>
    obtain ⟨hlpos, hdlt⟩ := he trivial
    have hstF : (ds + 1) * 4 = 2 ^ L → False := fun h4 =>
      Bool.noConfusion (hstrict h4).2.1
    have hne : ¬ ((ds + 1) * 4 = 2 ^ L) := fun hx => hstF hx
    have hlbs0 : ¬ (lbs = 0) := by omega
    by_cases hfr : lbs - 1 = 0
    · -- the extra buffer is freed, then the downsize test is evaluated
      simp only [spacePopMeta]
      rw [if_neg hlbs0, if_pos (show lbs - 1 = 0 ∧ True from ⟨hfr, trivial⟩)]
      simp only [downsizeMeta, dcap, bcap, ebit, Bool.cond_false, Bool.cond_true,
        Nat.sub_zero, Nat.add_sub_cancel]
      by_cases htr : ds * 4 ≤ 2 ^ L
      · have hmod := two_pow_mod_four L
        have heq : ds * 4 = 2 ^ L := by omega
        rw [if_pos htr]
        simp only [StrongM, ValidM, msize, dcap, bcap, ebit, Bool.cond_false,
        Bool.cond_true, Nat.sub_zero, Nat.add_sub_cancel]
        refine ⟨⟨⟨hL, by omega, by omega, by omega, ?_, ?_, by omega⟩, ?_⟩, ?_, ?_⟩
        · exact fun _ => trivial
        · intro hc; exact Bool.noConfusion hc
        · intro h4; exact absurd h4 (by omega)
        · omega
        · intro _ _ _
          refine ⟨by omega, ?_⟩
          intro hc; exact Bool.noConfusion hc
      · rw [if_neg htr]
        simp only [StrongM, ValidM, msize, dcap, bcap, ebit, Bool.cond_false,
        Bool.cond_true, Nat.sub_zero, Nat.add_sub_cancel]
        refine ⟨⟨⟨hL, by omega, by omega, by omega, ?_, ?_, by omega⟩, ?_⟩, ?_, ?_⟩
        · exact fun _ => trivial
        · intro hc; exact Bool.noConfusion hc
        · intro h4; exact absurd h4 (by omega)
        · omega
        · intro hl1 _ hc
          exact absurd (by omega : ds * 4 ≤ 2 ^ L) htr
    · -- the last buffer stays non-empty; the extra buffer is kept
      have hlne : ¬ (lbs = 1) := by omega
      simp only [spacePopMeta]
      rw [if_neg hlbs0, if_neg (show ¬ (lbs - 1 = 0 ∧ True) by simp [hfr])]
      simp only [StrongM, ValidM, msize, dcap, bcap, ebit, Bool.cond_false,
        Bool.cond_true, Nat.sub_zero, Nat.add_sub_cancel]
      refine ⟨⟨⟨hL, by omega, by omega, by omega, ?_, ?_, by omega⟩, ?_⟩, ?_, ?_⟩
      · intro hc; exact absurd hc hfr
      · intro; exact ⟨by omega, by omega⟩
      · intro h4; exact (hstF (by omega)).elim
      · omega
      · intro hc; exact absurd hc hlne
  case true.true =>
    obtain ⟨hlpos, hdlt⟩ := he trivial
    have hstF : (ds + 1) * 4 = 2 ^ (L - 1) → False := fun h4 =>
      Bool.noConfusion (hstrict h4).2.1
    have hne : ¬ ((ds + 1) * 4 = 2 ^ (L - 1)) := fun hx => hstF hx
    have hlbs0 : ¬ (lbs = 0) := by omega
    by_cases hfr : lbs - 1 = 0
    · -- the extra buffer is freed, then the downsize test is evaluated
      simp only [spacePopMeta]
      rw [if_neg hlbs0, if_pos (show lbs - 1 = 0 ∧ True from ⟨hfr, trivial⟩)]
      simp only [downsizeMeta, dcap, bcap, ebit, Bool.cond_false, Bool.cond_true,
        Nat.sub_zero, Nat.add_sub_cancel]
      by_cases htr : ds * 4 ≤ 2 ^ (L - 1)
      · have hmod := two_pow_mod_four (L - 1)
        have heq : ds * 4 = 2 ^ (L - 1) := by omega
        have hL2 : 2 ≤ L - 1 := two_le_of_four_le_pow (L - 1) (by omega)
        have hbr : (2 * ds - 1 - 1) * 2 ^ (L - 1) = (ds - 1) * 2 ^ L := by
          have h1 : 2 * ds - 1 - 1 = 2 * (ds - 1) := by omega
          rw [h1, hpow1]
          ring
        rw [if_pos htr]
        simp only [StrongM, ValidM, msize, dcap, bcap, ebit, Bool.cond_false,
        Bool.cond_true, Nat.sub_zero, Nat.add_sub_cancel]
        refine ⟨⟨⟨by omega, by omega, by omega, by omega, ?_, ?_, by omega⟩, ?_⟩, ?_, ?_⟩
        · exact fun _ => trivial
        · intro hc; exact Bool.noConfusion hc
        · intro h4; exact ⟨by omega, by trivial, by trivial⟩
        · omega
        · intro _ _ _
          exact ⟨by omega, fun _ => ⟨by omega, by omega⟩⟩
      · rw [if_neg htr]
        simp only [StrongM, ValidM, msize, dcap, bcap, ebit, Bool.cond_false,
        Bool.cond_true, Nat.sub_zero, Nat.add_sub_cancel]
        refine ⟨⟨⟨hL, by omega, by omega, by omega, ?_, ?_, by omega⟩, ?_⟩, ?_, ?_⟩
        · exact fun _ => trivial
        · intro hc; exact Bool.noConfusion hc
        · intro h4; exact absurd h4 (by omega)
        · omega
        · intro hl1 _ hc
          exact absurd (by omega : ds * 4 ≤ 2 ^ (L - 1)) htr
    · -- the last buffer stays non-empty; the extra buffer is kept
      have hlne : ¬ (lbs = 1) := by omega
      simp only [spacePopMeta]
      rw [if_neg hlbs0, if_neg (show ¬ (lbs - 1 = 0 ∧ True) by simp [hfr])]
      simp only [StrongM, ValidM, msize, dcap, bcap, ebit, Bool.cond_false,
        Bool.cond_true, Nat.sub_zero, Nat.add_sub_cancel]
      refine ⟨⟨⟨hL, by omega, by omega, by omega, ?_, ?_, by omega⟩, ?_⟩, ?_, ?_⟩
      · intro hc; exact absurd hc hfr
      · intro; exact ⟨by omega, by omega⟩
      · intro h4; exact (hstF (by omega)).elim
      · omega
      · intro hc; exact absurd hc hlne

end MetaSt

namespace vector

variable {α : Type} [Inhabited α]

theorem size_eq_msize (s : vector α) : s.size = (metaOf s).msize := by
  simp [size, MetaSt.msize, MetaSt.bcap, metaOf, Nat.shiftLeft_eq]

theorem metaOf_push (s : vector α) (x : α) :
    metaOf (s.push_back x) = (metaOf s).pushMeta := by
  obtain ⟨d, ds, lbs, L, big, e⟩ := s
  cases e <;> cases big <;>
      simp only [push_back, MetaSt.pushMeta, upsize, upsize_dir, upsize_buffers,
        MetaSt.upsizeMeta, metaOf, buffer_capacity, dir_capacity, MetaSt.bcap,
        MetaSt.dcap, Bool.cond_false, Bool.cond_true] <;>
    split_ifs <;> rfl

theorem metaOf_pop_body (s : vector α) :
    metaOf s.pop_body = (metaOf s).popBodyMeta := by
  obtain ⟨d, ds, lbs, L, big, e⟩ := s
  cases e <;> cases big <;>
      simp only [pop_body, MetaSt.popBodyMeta, metaOf, buffer_capacity, MetaSt.bcap] <;>
    split_ifs <;> rfl

theorem metaOf_downsize (s : vector α) :
    metaOf s.downsize = (metaOf s).downsizeMeta := by
  obtain ⟨d, ds, lbs, L, big, e⟩ := s
  cases big <;>
      simp only [downsize, downsize_buffers, downsize_dir, MetaSt.downsizeMeta, metaOf,
        Bool.cond_false, Bool.cond_true]

theorem metaOf_space_downsize (s : vector α) :
    metaOf s.space_downsize = (metaOf s).downsizeMeta := by
  obtain ⟨d, ds, lbs, L, big, e⟩ := s
  cases big <;>
      simp only [space_downsize, space_downsize_buffers, downsize_dir,
        MetaSt.downsizeMeta, metaOf, Bool.cond_false, Bool.cond_true]

theorem metaOf_pop (s : vector α) :
    metaOf s.pop_back = (metaOf s).popMeta := by
  have hb := metaOf_pop_body s
  have hc : ((s.metaOf.popBodyMeta.ds + cond s.metaOf.popBodyMeta.e 1 0) * 4 ≤
      2 ^ (s.metaOf.popBodyMeta.L - cond s.metaOf.popBodyMeta.big 1 0)) ↔
      ((s.pop_body.dir_size + cond s.pop_body.extra_buffer 1 0) * 4 ≤
        s.pop_body.dir_capacity) := by
    rw [← hb]
    exact Iff.rfl
  simp only [pop_back, MetaSt.popMeta, MetaSt.trig, MetaSt.ebit, MetaSt.dcap]
  by_cases ht : (s.pop_body.dir_size + cond s.pop_body.extra_buffer 1 0) * 4 ≤
      s.pop_body.dir_capacity
  · rw [if_pos ht, if_pos (hc.mpr ht), metaOf_downsize, hb]
  · rw [if_neg ht, if_neg (fun hx => ht (hc.mp hx)), hb]

theorem metaOf_space_pop (s : vector α) :
    metaOf s.space_pop_back = (metaOf s).spacePopMeta := by
  obtain ⟨d, ds, lbs, L, big, e⟩ := s
  cases e <;> cases big <;>
      simp only [space_pop_back, MetaSt.spacePopMeta, space_downsize,
        space_downsize_buffers, downsize_dir, MetaSt.downsizeMeta, metaOf,
        buffer_capacity, dir_capacity, MetaSt.bcap, MetaSt.dcap,
        Bool.cond_false, Bool.cond_true] <;>
    split_ifs <;> rfl

theorem metaOf_init : metaOf (init (α := α)) = MetaSt.initMeta := rfl

/-! ### List access toolkit -/
theorem getD_set_self {β : Type} (l : List β) (i : Nat) (a d : β) (h : i < l.length) :
    (l.set i a).getD i d = a := by
  rw [List.getD_eq_getElem?_getD, List.getElem?_set_self (by simpa using h)]
  rfl

theorem getD_set_ne {β : Type} (l : List β) (i j : Nat) (a d : β) (h : i ≠ j) :
    (l.set i a).getD j d = l.getD j d := by
  rw [List.getD_eq_getElem?_getD, List.getElem?_set_ne h, ← List.getD_eq_getElem?_getD]

theorem getD_append_left {β : Type} (l1 l2 : List β) (j : Nat) (d : β)
    (h : j < l1.length) : (l1 ++ l2).getD j d = l1.getD j d := by
  rw [List.getD_eq_getElem?_getD, List.getElem?_append, if_pos h,
    ← List.getD_eq_getElem?_getD]

theorem getD_append_right {β : Type} (l1 l2 : List β) (j : Nat) (d : β)
    (h : l1.length ≤ j) : (l1 ++ l2).getD j d = l2.getD (j - l1.length) d := by
  rw [List.getD_eq_getElem?_getD, List.getElem?_append, if_neg (by omega),
    ← List.getD_eq_getElem?_getD]

theorem getD_take_lt {β : Type} (l : List β) (n j : Nat) (d : β) (h : j < n) :
    (l.take n).getD j d = l.getD j d := by
  rw [List.getD_eq_getElem?_getD, List.getElem?_take, if_pos h, ← List.getD_eq_getElem?_getD]

theorem getD_drop {β : Type} (l : List β) (n j : Nat) (d : β) :
    (l.drop n).getD j d = l.getD (n + j) d := by
  rw [List.getD_eq_getElem?_getD, List.getElem?_drop, ← List.getD_eq_getElem?_getD]

theorem getD_beyond {β : Type} (l : List β) (j : Nat) (d : β) (h : l.length ≤ j) :
    l.getD j d = d := by
  rw [List.getD_eq_getElem?_getD, List.getElem?_eq_none h]
  rfl

theorem getD_replicate_lt {β : Type} (n j : Nat) (a d : β) (h : j < n) :
    (List.replicate n a).getD j d = a := by
  rw [List.getD_eq_getElem?_getD, List.getElem?_replicate, if_pos h]
  rfl

theorem getD_copyN (src : List α) (len t : Nat) (d : α) :
    (copyN src len).getD t d = if t < len then src.getD t default else d := by
  unfold copyN
  rw [List.getD_eq_getElem?_getD, List.getElem?_map]
  by_cases h : t < len
  · rw [List.getElem?_range h, if_pos h]
    rfl
  · rw [List.getElem?_eq_none (by simpa using h), if_neg h]
    rfl

theorem length_copyN (src : List α) (len : Nat) : (copyN src len).length = len := by
  simp [copyN]

/-! ### Closed forms of the resize loops -/
theorem length_mergePairs (d : List (List α)) (n : Nat) :
    (mergePairs d n).length = d.length := by
  induction n with
  | zero => rfl
  | succ k ih => simp [mergePairs, ih]

theorem getD_mergePairs (d : List (List α)) (n : Nat) (hn : n ≤ d.length) :
    ∀ j, (mergePairs d n).getD j [] =
      if j < n then d.getD (2 * j) [] ++ d.getD (2 * j + 1) [] else d.getD j [] := by
  induction n with
  | zero => intro j; simp [mergePairs]
  | succ k ih =>
    intro j
    have hk : k ≤ d.length := by omega
    have hlen : (mergePairs d k).length = d.length := length_mergePairs d k
    show ((mergePairs d k).set k _).getD j [] = _
    by_cases hj : j = k
    · subst hj
      rw [getD_set_self _ _ _ _ (by omega)]
      rw [ih hk (2 * j), ih hk (2 * j + 1)]
      rw [if_neg (show ¬ (2 * j < j) by omega), if_neg (show ¬ (2 * j + 1 < j) by omega),
        if_pos (show j < j + 1 by omega)]
    · rw [getD_set_ne _ _ _ _ _ (fun hx => hj hx.symm), ih hk j]
      by_cases hlt : j < k
      · rw [if_pos hlt, if_pos (show j < k + 1 by omega)]
      · rw [if_neg hlt, if_neg (show ¬ (j < k + 1) by omega)]

theorem length_splitPairs (d : List (List α)) (half n : Nat) :
    (splitPairs d half n).length = d.length := by
  induction n generalizing d with
  | zero => rfl
  | succ k ih => simp [splitPairs, ih]

theorem getD_splitPairs (d : List (List α)) (half n : Nat) (hn : 2 * n ≤ d.length)
    (j : Nat) :
    (splitPairs d half n).getD j [] =
      if j < 2 * n then
        (if j % 2 = 0 then (d.getD (j / 2) []).take half else (d.getD (j / 2) []).drop half)
      else d.getD j [] := by
  induction n generalizing d with
  | zero => simp [splitPairs]
  | succ k ih =>
    show (splitPairs ((d.set (2 * k) _).set (2 * k + 1) _) half k).getD j [] = _
    have hlen : ((d.set (2 * k) ((d.getD k []).take half)).set
        (2 * k + 1) ((d.getD k []).drop half)).length = d.length := by simp
    rw [ih _ (by rw [hlen]; omega)]
    by_cases hj : j < 2 * k
    · rw [if_pos hj, if_pos (show j < 2 * (k + 1) by omega)]
      have hne1 : (2 : Nat) * k ≠ j / 2 := by omega
      have hne2 : (2 : Nat) * k + 1 ≠ j / 2 := by omega
      rw [getD_set_ne _ _ _ _ _ hne2, getD_set_ne _ _ _ _ _ hne1]
    · rw [if_neg hj]
      by_cases hj1 : j = 2 * k
      · subst hj1
        rw [getD_set_ne _ _ _ _ _ (show (2 : Nat) * k + 1 ≠ 2 * k by omega),
          getD_set_self _ _ _ _ (by omega)]
        rw [if_pos (show 2 * k < 2 * (k + 1) by omega),
          if_pos (show 2 * k % 2 = 0 by omega)]
        have h2 : 2 * k / 2 = k := by omega
        rw [h2]
      · by_cases hj2 : j = 2 * k + 1
        · subst hj2
          rw [getD_set_self _ _ _ _ (by rw [List.length_set]; omega)]
          rw [if_pos (show 2 * k + 1 < 2 * (k + 1) by omega),
            if_neg (show ¬ ((2 * k + 1) % 2 = 0) by omega)]
          have h2 : (2 * k + 1) / 2 = k := by omega
          rw [h2]
        · rw [getD_set_ne _ _ _ _ _ (fun hx => hj2 hx.symm),
            getD_set_ne _ _ _ _ _ (fun hx => hj1 hx.symm)]
          rw [if_neg (show ¬ (j < 2 * (k + 1)) by omega)]

theorem length_foldl_set (f : Nat → List α) (d : List (List α)) (n : Nat) :
    ((List.range n).foldl (fun acc i => acc.set i (f i)) d).length = d.length := by
  induction n generalizing d with
  | zero => rfl
  | succ k ih =>
    rw [List.range_succ, List.foldl_append]
    simp [ih]

theorem getD_foldl_set (f : Nat → List α) (d : List (List α)) (n j : Nat) :
    ((List.range n).foldl (fun acc i => acc.set i (f i)) d).getD j [] =
      if j < n ∧ j < d.length then f j else d.getD j [] := by
  induction n with
  | zero => simp
  | succ k ih =>
    rw [List.range_succ, List.foldl_append]
    simp only [List.foldl_cons, List.foldl_nil]
    have hlen := length_foldl_set f d k
    by_cases hj : j = k
    · subst hj
      by_cases hjl : j < d.length
      · rw [getD_set_self _ _ _ _ (by omega), if_pos ⟨by omega, hjl⟩]
      · rw [List.set_eq_of_length_le (by omega), ih, if_neg (by omega),
          if_neg (by omega)]
    · rw [getD_set_ne _ _ _ _ _ (fun hx => hj hx.symm), ih]
      by_cases hlt : j < k ∧ j < d.length
      · rw [if_pos hlt, if_pos ⟨by omega, hlt.2⟩]
      · rw [if_neg hlt, if_neg (by omega)]

theorem valid_fields (s : vector α) (h : (metaOf s).StrongM) :
    1 ≤ s.log_buffer_capacity ∧ 1 ≤ s.dir_size ∧ s.dir_size ≤ s.dir_capacity ∧
      s.last_buffer_size < s.buffer_capacity ∧
      (s.last_buffer_size = 0 → s.extra_buffer = false) ∧
      (s.extra_buffer = true → 0 < s.last_buffer_size ∧ s.dir_size < s.dir_capacity) ∧
      s.dir_capacity ≤ (s.dir_size + cond s.extra_buffer 1 0) * 4 := h.1

theorem pget_eq (s : vector α) (i : Nat) :
    s.pget i =
      (s.dir.getD (i / s.buffer_capacity) []).getD (i % s.buffer_capacity) default := by
  unfold pget buffer_capacity
  rw [Nat.shiftRight_eq_div_pow, Nat.and_pow_two_sub_one_eq_mod]

theorem size_eq (s : vector α) :
    s.size = (s.dir_size - 1) * s.buffer_capacity + s.last_buffer_size := by
  unfold size buffer_capacity
  rw [Nat.shiftLeft_eq]

theorem push_eq_nf (s : vector α) (x : α)
    (h : ¬ (s.last_buffer_size + 1 = s.buffer_capacity)) :
    s.push_back x = s.wstep x := by
  simp only [push_back, wstep, buffer_capacity]
  rw [if_neg (by simpa [buffer_capacity] using h)]

theorem push_eq_promote (s : vector α) (x : α)
    (hfull : s.last_buffer_size + 1 = s.buffer_capacity) (he : s.extra_buffer = true) :
    s.push_back x = { s.wstep x with
      dir_size := s.dir_size + 1,
      extra_buffer := false,
      last_buffer_size := 0 } := by
  simp only [push_back, wstep, buffer_capacity, he, Bool.cond_true]
  rw [if_pos (by simpa [buffer_capacity] using hfull)]

theorem push_eq_alloc (s : vector α) (x : α)
    (hfull : s.last_buffer_size + 1 = s.buffer_capacity) (he : s.extra_buffer = false)
    (hdd : ¬ (s.dir_size = s.dir_capacity)) :
    s.push_back x =
      { s.wstep x with
        dir := (s.wstep x).dir.set s.dir_size (List.replicate s.buffer_capacity default),
        dir_size := s.dir_size + 1,
        extra_buffer := false,
        last_buffer_size := 0 } := by
  simp only [push_back, wstep, buffer_capacity, dir_capacity, he, Bool.cond_false]
  rw [if_pos (by simpa [buffer_capacity] using hfull),
    if_neg (by simpa [dir_capacity] using hdd)]

theorem push_eq_updir (s : vector α) (x : α)
    (hfull : s.last_buffer_size + 1 = s.buffer_capacity) (he : s.extra_buffer = false)
    (hdd : s.dir_size = s.dir_capacity) (hb : s.big_buffer = true) :
    s.push_back x =
      { s.wstep x with
        dir := ((s.wstep x).dir.take s.dir_capacity ++
          List.replicate s.dir_capacity []).set s.dir_size
          (List.replicate s.buffer_capacity default),
        big_buffer := false,
        dir_size := s.dir_size + 1,
        extra_buffer := false,
        last_buffer_size := 0 } := by
  simp only [push_back, wstep, upsize, upsize_dir, buffer_capacity, dir_capacity, he,
    hb, Bool.cond_false, Bool.cond_true]
  rw [if_pos (by simpa [buffer_capacity] using hfull),
    if_pos (by simpa [dir_capacity, hb] using hdd)]

theorem push_eq_upbuf (s : vector α) (x : α)
    (hfull : s.last_buffer_size + 1 = s.buffer_capacity) (he : s.extra_buffer = false)
    (hdd : s.dir_size = s.dir_capacity) (hb : s.big_buffer = false) :
    s.push_back x =
      { s.wstep x with
        dir := (mergePairs (s.wstep x).dir (s.dir_size / 2)).set (s.dir_size / 2)
          (List.replicate (2 ^ (s.log_buffer_capacity + 1)) default),
        log_buffer_capacity := s.log_buffer_capacity + 1,
        big_buffer := true,
        dir_size := s.dir_size / 2 + 1,
        extra_buffer := false,
        last_buffer_size := 0 } := by
  simp only [push_back, wstep, upsize, upsize_buffers, buffer_capacity, dir_capacity,
    he, hb, Bool.cond_false, Bool.cond_true]
  rw [if_pos (by simpa [buffer_capacity] using hfull),
    if_pos (by simpa [dir_capacity, hb] using hdd)]

theorem wstep_dir_length (s : vector α) (x : α) :
    (s.wstep x).dir.length = s.dir.length := by
  simp [wstep]

theorem wstep_dir_ne (s : vector α) (x : α) (j : Nat) (h : s.dir_size - 1 ≠ j) :
    (s.wstep x).dir.getD j [] = s.dir.getD j [] := by
  unfold wstep
  exact getD_set_ne _ _ _ _ _ h

theorem wstep_dir_eq (s : vector α) (x : α) (h : s.dir_size - 1 < s.dir.length) :
    (s.wstep x).dir.getD (s.dir_size - 1) [] =
      (s.dir.getD (s.dir_size - 1) []).set s.last_buffer_size x := by
  unfold wstep
  exact getD_set_self _ _ _ _ h

theorem wstep_buf_length (s : vector α) (x : α) (hdlen : s.dir.length = s.dir_capacity)
    (hds : s.dir_size ≤ s.dir_capacity) (hds1 : 1 ≤ s.dir_size)
    (hblen : ∀ j, j < s.dir_size → (s.dir.getD j []).length = s.buffer_capacity) :
    ∀ j, j < s.dir_size → ((s.wstep x).dir.getD j []).length = s.buffer_capacity := by
  intro j hj
  by_cases hje : s.dir_size - 1 = j
  · rw [← hje, wstep_dir_eq s x (by omega), List.length_set]
    exact hblen _ (by omega)
  · rw [wstep_dir_ne s x j hje]
    exact hblen _ hj

/-- After the write/increment step, reading element `i` of the represented
list `l ++ [x]` through the directory (with the original buffer capacity)
yields the right value, for every `i < l.length + 1`. -/
theorem wstep_elem (s : vector α) (l : List α) (x : α)
    (hstrong : (metaOf s).StrongM) (hdlen : s.dir.length = s.dir_capacity)
    (hblen : ∀ j, j < s.dir_size → (s.dir.getD j []).length = s.buffer_capacity)
    (hsz : s.size = l.length) (hget : ∀ i, i < l.length → s.pget i = l.getD i default) :
    ∀ i, i < l.length + 1 →
      ((s.wstep x).dir.getD (i / s.buffer_capacity) []).getD
        (i % s.buffer_capacity) default = (l ++ [x]).getD i default := by
  obtain ⟨hL, hds1, hdsD, hlbs, hlz, he, hinv5⟩ := valid_fields s hstrong
  have hB1 : 0 < s.buffer_capacity := Nat.pow_pos (by norm_num)
  have hmulds : s.dir_size * s.buffer_capacity =
      (s.dir_size - 1) * s.buffer_capacity + s.buffer_capacity :=
    MetaSt.succ_pred_mul _ _ hds1
  have hszl := size_eq s
  rw [hsz] at hszl
  intro i hi
  have hqm := Nat.div_add_mod i s.buffer_capacity
  have hmod := Nat.mod_lt i hB1
  have hcomm : s.buffer_capacity * (s.dir_size - 1) =
      (s.dir_size - 1) * s.buffer_capacity := Nat.mul_comm _ _
  have hilt : i < s.dir_size * s.buffer_capacity := by omega
  have hq : i / s.buffer_capacity < s.dir_size :=
    Nat.div_lt_of_lt_mul (by rw [Nat.mul_comm] at hilt; exact hilt)
  by_cases hqe : i / s.buffer_capacity = s.dir_size - 1
  · rw [hqe, wstep_dir_eq s x (by omega)]
    by_cases hie : i = l.length
    · have hr : i % s.buffer_capacity = s.last_buffer_size := by
        rw [hqe] at hqm
        omega
      rw [hr, getD_set_self _ _ _ _ (by rw [hblen _ (by omega)]; omega)]
      rw [hie, getD_append_right _ _ _ _ (by omega)]
      simp
    · have hil : i < l.length := by omega
      have hr : i % s.buffer_capacity < s.last_buffer_size := by
        rw [hqe] at hqm
        omega
      rw [getD_set_ne _ _ _ _ _ (by omega)]
      rw [getD_append_left _ _ _ _ hil, ← hget i hil, pget_eq, hqe]
  · have hil : i < l.length := by
      rcases Nat.lt_or_ge i l.length with hc | hc
      · exact hc
      · exfalso
        have hie : i = l.length := by omega
        have hdiv : i / s.buffer_capacity = s.dir_size - 1 := by
          rw [hie, hszl, Nat.mul_comm (s.dir_size - 1) s.buffer_capacity,
            Nat.mul_add_div hB1, Nat.div_eq_of_lt hlbs, Nat.add_zero]
        exact hqe hdiv
    rw [wstep_dir_ne s x _ (fun hx => hqe hx.symm)]
    rw [getD_append_left _ _ _ _ hil, ← hget i hil, pget_eq]

theorem idx_div_lt (s : vector α) (l : List α)
    (hstrong : (metaOf s).StrongM) (hsz : s.size = l.length) :
    ∀ i, i < l.length + 1 → i / s.buffer_capacity < s.dir_size := by
  obtain ⟨hL, hds1, hdsD, hlbs, hlz, he, hinv5⟩ := valid_fields s hstrong
  have hB1 : 0 < s.buffer_capacity := Nat.pow_pos (by norm_num)
  have hmulds : s.dir_size * s.buffer_capacity =
      (s.dir_size - 1) * s.buffer_capacity + s.buffer_capacity :=
    MetaSt.succ_pred_mul _ _ hds1
  have hszl := size_eq s
  rw [hsz] at hszl
  intro i hi
  have hilt : i < s.dir_size * s.buffer_capacity := by omega
  exact Nat.div_lt_of_lt_mul (by rw [Nat.mul_comm] at hilt; exact hilt)

set_option maxHeartbeats 1000000 in
/-- `push_back` preserves well-formedness and appends `x` to the
represented list. -/
theorem push_wf (s : vector α) (l : List α) (x : α) (hw : wf s) (hr : reps s l) :
    wf (s.push_back x) ∧ reps (s.push_back x) (l ++ [x]) := by
  obtain ⟨hstrong, hdlen, hblen, hext⟩ := hw
  obtain ⟨hsz, hget⟩ := hr
  obtain ⟨hL, hds1, hdsD, hlbs, hlz, he, hinv5⟩ := valid_fields s hstrong
  have hB1 : 0 < s.buffer_capacity := Nat.pow_pos (by norm_num)
  have hS : (metaOf (s.push_back x)).StrongM := by
    rw [metaOf_push]
    exact (MetaSt.strong_push _ hstrong).1
  have hsz2 : (s.push_back x).size = l.length + 1 := by
    rw [size_eq_msize, metaOf_push, (MetaSt.strong_push _ hstrong).2, ← size_eq_msize, hsz]
  have hW := wstep_elem s l x hstrong hdlen hblen hsz hget
  have hWlen := wstep_dir_length s x
  have hWblen := wstep_buf_length s x hdlen hdsD hds1 hblen
  have hQ := idx_div_lt s l hstrong hsz
  by_cases hfull : s.last_buffer_size + 1 = s.buffer_capacity
  · by_cases hee : s.extra_buffer = true
    · -- the pre-allocated extra buffer is promoted into the directory
      rw [push_eq_promote s x hfull hee] at hS hsz2 ⊢
      refine ⟨⟨hS, ?_, ?_, ?_⟩, ?_, ?_⟩
      · show (s.wstep x).dir.length = s.dir_capacity
        rw [hWlen, hdlen]
      · intro j hj
        show ((s.wstep x).dir.getD j []).length = s.buffer_capacity
        by_cases hj2 : j < s.dir_size
        · exact hWblen j hj2
        · have hje : j = s.dir_size := by
            have : j < s.dir_size + 1 := hj
            omega
          subst hje
          rw [wstep_dir_ne s x _ (by omega)]
          exact hext hee
      · intro hc
        exact absurd hc (by simp)
      · rw [hsz2]
        simp
      · intro i hi
        rw [pget_eq]
        exact hW i (by simpa using hi)
    · replace hee : s.extra_buffer = false := by
        revert hee
        cases s.extra_buffer <;> simp
      by_cases hdd : s.dir_size = s.dir_capacity
      · by_cases hb : s.big_buffer = true
        · -- upsize_dir, then a fresh buffer in the next slot
          have hBD : s.buffer_capacity = 2 * s.dir_capacity :=
            MetaSt.bcap_of_big (metaOf s) hb hL
          have htlen : ((s.wstep x).dir.take s.dir_capacity).length = s.dir_capacity := by
            rw [List.length_take, hWlen, hdlen]
            omega
          rw [push_eq_updir s x hfull hee hdd hb] at hS hsz2 ⊢
          refine ⟨⟨hS, ?_, ?_, ?_⟩, ?_, ?_⟩
          · show _ = 2 ^ s.log_buffer_capacity
            rw [List.length_set, List.length_append, htlen, List.length_replicate]
            have : s.buffer_capacity = 2 ^ s.log_buffer_capacity := rfl
            omega
          · intro j hj
            replace hj : j < s.dir_size + 1 := hj
            show (_ : List α).length = 2 ^ s.log_buffer_capacity
            by_cases hj2 : j < s.dir_size
            · rw [getD_set_ne _ _ _ _ _ (by omega),
                getD_append_left _ _ _ _ (by omega),
                getD_take_lt _ _ _ _ (by omega)]
              exact hWblen j hj2
            · have hje : j = s.dir_size := by omega
              subst hje
              rw [getD_set_self _ _ _ _ (by rw [List.length_append, htlen, List.length_replicate]; omega),
                List.length_replicate]
              rfl
          · intro hc
            exact absurd hc (by simp)
          · rw [hsz2]
            simp
          · intro i hi
            replace hi : i < l.length + 1 := by simpa using hi
            rw [pget_eq]
            show ((_ : List (List α)).getD (i / s.buffer_capacity) []).getD
              (i % s.buffer_capacity) default = _
            rw [getD_set_ne _ _ _ _ _ (by have := hQ i hi; omega),
              getD_append_left _ _ _ _ (by have := hQ i hi; omega),
              getD_take_lt _ _ _ _ (by have := hQ i hi; omega)]
            exact hW i hi
        · -- upsize_buffers, then a fresh double buffer in the next slot
          replace hb : s.big_buffer = false := by
            revert hb
            cases s.big_buffer <;> simp
          have hBD : s.buffer_capacity = s.dir_capacity :=
            MetaSt.bcap_of_not_big (metaOf s) hb
          have h2 : 2 * (s.dir_size / 2) = s.dir_size := by
            have hdvd : (2 : Nat) ∣ s.dir_size := by
              rw [hdd]
              show (2 : Nat) ∣ 2 ^ (s.log_buffer_capacity - cond s.big_buffer 1 0)
              rw [hb, Bool.cond_false, Nat.sub_zero]
              exact dvd_pow_self 2 (by omega)
            omega
          have hds2 : 2 ≤ s.dir_size := by
            have : 2 ≤ s.buffer_capacity := MetaSt.two_le_bcap (metaOf s) hL
            omega
          have hpow2 : (2 : Nat) ^ (s.log_buffer_capacity + 1) = s.buffer_capacity * 2 := by
            rw [pow_succ]
            rfl
          have hmlen : (mergePairs (s.wstep x).dir (s.dir_size / 2)).length =
              s.dir_capacity := by
            rw [length_mergePairs, hWlen, hdlen]
          have hmp := getD_mergePairs ((s.wstep x).dir) (s.dir_size / 2)
            (by rw [hWlen, hdlen]; omega)
          rw [push_eq_upbuf s x hfull hee hdd hb] at hS hsz2 ⊢
          refine ⟨⟨hS, ?_, ?_, ?_⟩, ?_, ?_⟩
          · show _ = 2 ^ s.log_buffer_capacity
            rw [List.length_set, hmlen]
            have : s.buffer_capacity = 2 ^ s.log_buffer_capacity := rfl
            omega
          · intro j hj
            replace hj : j < s.dir_size / 2 + 1 := hj
            show (_ : List α).length = 2 ^ (s.log_buffer_capacity + 1)
            by_cases hj2 : j < s.dir_size / 2
            · rw [getD_set_ne _ _ _ _ _ (by omega), hmp j, if_pos hj2]
              rw [List.length_append, hWblen _ (by omega), hWblen _ (by omega)]
              have : s.buffer_capacity = 2 ^ s.log_buffer_capacity := rfl
              rw [hpow2]
              omega
            · have hje : j = s.dir_size / 2 := by omega
              subst hje
              rw [getD_set_self _ _ _ _ (by rw [hmlen]; omega), List.length_replicate]
          · intro hc
            exact absurd hc (by simp)
          · rw [hsz2]
            simp
          · intro i hi
            replace hi : i < l.length + 1 := by simpa using hi
            rw [pget_eq]
            show ((_ : List (List α)).getD (i / 2 ^ (s.log_buffer_capacity + 1))
              []).getD (i % 2 ^ (s.log_buffer_capacity + 1)) default = _
            have hq := hQ i hi
            have hq2 : i / 2 ^ (s.log_buffer_capacity + 1) =
                i / s.buffer_capacity / 2 := by
              rw [hpow2, ← Nat.div_div_eq_div_mul]
            have hm2 : i % 2 ^ (s.log_buffer_capacity + 1) =
                i % s.buffer_capacity + s.buffer_capacity * (i / s.buffer_capacity % 2) := by
              rw [hpow2, Nat.mod_mul]
            have hqlt : i / s.buffer_capacity / 2 < s.dir_size / 2 := by omega
            rw [hq2, hm2, getD_set_ne _ _ _ _ _ (by omega), hmp _, if_pos hqlt]
            have hmod := Nat.mod_lt i hB1
            rcases Nat.mod_two_eq_zero_or_one (i / s.buffer_capacity) with hpar | hpar
            · rw [hpar, Nat.mul_zero, Nat.add_zero]
              rw [getD_append_left _ _ _ _ (by rw [hWblen _ (by omega)]; omega)]
              have hqq : 2 * (i / s.buffer_capacity / 2) = i / s.buffer_capacity := by
                omega
              rw [hqq]
              exact hW i hi
            · rw [hpar, Nat.mul_one]
              rw [getD_append_right _ _ _ _ (by rw [hWblen _ (by omega)]; omega)]
              have hqq : 2 * (i / s.buffer_capacity / 2) + 1 = i / s.buffer_capacity := by
                omega
              rw [hWblen _ (by omega), hqq]
              have hsub : i % s.buffer_capacity + s.buffer_capacity - s.buffer_capacity =
                  i % s.buffer_capacity := by omega
              rw [hsub]
              exact hW i hi
      · -- no extra buffer, directory has room: allocate a fresh buffer
        rw [push_eq_alloc s x hfull hee hdd] at hS hsz2 ⊢
        refine ⟨⟨hS, ?_, ?_, ?_⟩, ?_, ?_⟩
        · show _ = s.dir_capacity
          rw [List.length_set, hWlen, hdlen]
        · intro j hj
          replace hj : j < s.dir_size + 1 := hj
          show (_ : List α).length = s.buffer_capacity
          by_cases hj2 : j < s.dir_size
          · rw [getD_set_ne _ _ _ _ _ (by omega)]
            exact hWblen j hj2
          · have hje : j = s.dir_size := by omega
            subst hje
            rw [getD_set_self _ _ _ _ (by rw [hWlen, hdlen]; omega),
              List.length_replicate]
        · intro hc
          exact absurd hc (by simp)
        · rw [hsz2]
          simp
        · intro i hi
          replace hi : i < l.length + 1 := by simpa using hi
          rw [pget_eq]
          show ((_ : List (List α)).getD (i / s.buffer_capacity) []).getD
            (i % s.buffer_capacity) default = _
          rw [getD_set_ne _ _ _ _ _ (by have := hQ i hi; omega)]
          exact hW i hi
  · -- the buffer is not yet full: only the write takes effect
    rw [push_eq_nf s x hfull] at hS hsz2 ⊢
    refine ⟨⟨hS, ?_, ?_, ?_⟩, ?_, ?_⟩
    · show (s.wstep x).dir.length = s.dir_capacity
      rw [hWlen, hdlen]
    · intro j hj
      exact hWblen j hj
    · intro hee
      show ((s.wstep x).dir.getD s.dir_size []).length = s.buffer_capacity
      rw [wstep_dir_ne s x _ (by omega)]
      exact hext hee
    · rw [hsz2]
      simp
    · intro i hi
      rw [pget_eq]
      exact hW i (by simpa using hi)

theorem MetaSt.popBody_fields (n : MetaSt) (h : n.StrongM) (hsz : 0 < n.msize) :
    1 ≤ n.popBodyMeta.ds ∧ n.popBodyMeta.ds ≤ n.ds ∧
      n.popBodyMeta.lbs < n.popBodyMeta.bcap ∧
      n.popBodyMeta.L = n.L ∧ n.popBodyMeta.big = n.big ∧
      n.popBodyMeta.msize + 1 = n.msize ∧
      (n.popBodyMeta.e = true → n.popBodyMeta.ds < n.popBodyMeta.dcap) := by
  obtain ⟨ds, lbs, L, big, e⟩ := n
  obtain ⟨⟨hL, hds1, hdsD, hlbs, hlz, he, hinv5⟩, hstrict⟩ := h
  replace hL : 1 ≤ L := hL
  replace hds1 : 1 ≤ ds := hds1
  simp only [MetaSt.ValidM, MetaSt.dcap, MetaSt.bcap, MetaSt.ebit, MetaSt.msize,
    Bool.cond_false, Bool.cond_true] at hdsD hlbs he hlz hinv5
  simp only [MetaSt.msize, MetaSt.bcap] at hsz
  have hB2 : 2 ≤ 2 ^ L := by
    have h1 : 2 ^ 1 ≤ 2 ^ L := Nat.pow_le_pow_right (by norm_num) hL
    simpa using h1
  by_cases hlbs0 : lbs = 0
  · have hds2 : 2 ≤ ds := by
      by_contra hc
      have hds_eq : ds = 1 := by omega
      rw [hds_eq, hlbs0] at hsz
      simp at hsz
    have hez := hlz hlbs0
    subst hez
    have hmul2 := MetaSt.succ_pred_mul (ds - 1) (2 ^ L) (by omega)
    simp only [MetaSt.popBodyMeta, MetaSt.dcap, MetaSt.bcap, MetaSt.msize, MetaSt.ebit]
    rw [if_pos hlbs0]
    simp only [MetaSt.dcap, MetaSt.bcap, MetaSt.msize, MetaSt.ebit, Bool.cond_false,
      Bool.cond_true]
    refine ⟨by omega, by omega, by omega, by trivial, by trivial, by omega, ?_⟩
    intro _
    show ds - 1 < 2 ^ (L - cond big 1 0)
    cases big <;> simp only [Bool.cond_false, Bool.cond_true, Nat.sub_zero] at hdsD ⊢ <;>
      omega
  · simp only [MetaSt.popBodyMeta, MetaSt.dcap, MetaSt.bcap, MetaSt.msize, MetaSt.ebit]
    rw [if_neg hlbs0]
    by_cases hfr : lbs - 1 = 0 ∧ e = true
    · rw [if_pos hfr]
      simp only [MetaSt.dcap, MetaSt.bcap, MetaSt.msize, MetaSt.ebit, Bool.cond_false,
      Bool.cond_true]
      refine ⟨by omega, by omega, by omega, by trivial, by trivial, by omega, ?_⟩
      intro hc
      exact absurd hc (by simp)
    · rw [if_neg hfr]
      simp only [MetaSt.dcap, MetaSt.bcap, MetaSt.msize, MetaSt.ebit, Bool.cond_false,
      Bool.cond_true]
      refine ⟨by omega, by omega, by omega, by trivial, by trivial, by omega, ?_⟩
      intro hc
      have hee := he hc
      show ds < 2 ^ (L - cond big 1 0)
      cases big <;> simp only [Bool.cond_false, Bool.cond_true, Nat.sub_zero] at hee ⊢ <;>
        omega

theorem pop_body_same (s : vector α) :
    s.pop_body.dir = s.dir ∧ s.pop_body.log_buffer_capacity = s.log_buffer_capacity ∧
      s.pop_body.big_buffer = s.big_buffer := by
  refine ⟨?_, ?_, ?_⟩ <;> (simp only [pop_body]; split_ifs <;> rfl)

theorem getD_dropLast (l : List α) (i : Nat) (h : i < l.length - 1) :
    l.dropLast.getD i default = l.getD i default := by
  rw [List.dropLast_eq_take]
  exact getD_take_lt _ _ _ _ h

set_option maxHeartbeats 1600000 in
/-- `pop_back` preserves well-formedness and removes the last element of the
represented list. -/
theorem pop_wf (s : vector α) (l : List α) (hw : wf s) (hr : reps s l) (hne : l ≠ []) :
    wf s.pop_back ∧ reps s.pop_back l.dropLast := by
  obtain ⟨hstrong, hdlen, hblen, hext⟩ := hw
  obtain ⟨hsz, hget⟩ := hr
  obtain ⟨hL, hds1, hdsD, hlbs, hlz, he, hinv5⟩ := valid_fields s hstrong
  have hB1 : 0 < s.buffer_capacity := Nat.pow_pos (by norm_num)
  have hlen_pos : 0 < l.length := List.length_pos.mpr hne
  have hms : (metaOf s).msize = l.length := by rw [← size_eq_msize, hsz]
  have hszpos : 0 < (metaOf s).msize := by omega
  obtain ⟨hS0, hsz0, hconj3, hconj4⟩ := MetaSt.strong_pop (metaOf s) hstrong hszpos
  have hS : (metaOf s.pop_back).StrongM := by
    rw [metaOf_pop]
    exact hS0
  have hsz2 : s.pop_back.size = l.length - 1 := by
    rw [size_eq_msize, metaOf_pop]
    omega
  have hbody := metaOf_pop_body s
  obtain ⟨hds1_t, hdsle_t, hlbs_t, hL_t, hbig_t, hmsz_t, hdlt_t⟩ :=
    MetaSt.popBody_fields (metaOf s) hstrong hszpos
  have hmds : (metaOf s).ds = s.dir_size := rfl
  have hmL : (metaOf s).L = s.log_buffer_capacity := rfl
  have hBds : s.pop_body.dir_size = (metaOf s).popBodyMeta.ds := congrArg MetaSt.ds hbody
  have hBlbs : s.pop_body.last_buffer_size = (metaOf s).popBodyMeta.lbs :=
    congrArg MetaSt.lbs hbody
  have hBe : s.pop_body.extra_buffer = (metaOf s).popBodyMeta.e := congrArg MetaSt.e hbody
  have hBL : s.pop_body.log_buffer_capacity = s.log_buffer_capacity := by
    have h1 : s.pop_body.log_buffer_capacity = (metaOf s).popBodyMeta.L :=
      congrArg MetaSt.L hbody
    rw [h1, hL_t]
    rfl
  obtain ⟨hBdir, -, hBbig⟩ := pop_body_same s
  have hBB : s.pop_body.buffer_capacity = s.buffer_capacity := by
    unfold buffer_capacity
    rw [hBL]
  have hDD : s.pop_body.dir_capacity = s.dir_capacity := by
    unfold dir_capacity
    rw [hBL, hBbig]
  have hDm : s.pop_body.dir_capacity = (metaOf s).popBodyMeta.dcap :=
    congrArg MetaSt.dcap hbody
  have hszt : s.pop_body.size = l.length - 1 := by
    rw [size_eq_msize, hbody]
    omega
  have hdropget : ∀ i, i < l.length - 1 → l.dropLast.getD i default = l.getD i default :=
    fun i hi => getD_dropLast l i hi
  have hdrople : l.dropLast.length = l.length - 1 := List.length_dropLast l
  by_cases htr : (s.pop_body.dir_size + cond s.pop_body.extra_buffer 1 0) * 4 ≤
      s.pop_body.dir_capacity
  · -- the downsize trigger fires
    have htrig_m : (metaOf s).popBodyMeta.trig := by
      show ((metaOf s).popBodyMeta.ds + (metaOf s).popBodyMeta.ebit) * 4 ≤
        (metaOf s).popBodyMeta.dcap
      rw [← hbody]
      exact htr
    obtain ⟨heq_m, he_m, hbig_m⟩ := hconj3 htrig_m
    have hBe0 : s.pop_body.extra_buffer = false := by rw [hBe, he_m]
    have hebit0 : (metaOf s).popBodyMeta.ebit = 0 := by
      unfold MetaSt.ebit
      rw [he_m, Bool.cond_false]
    have heqSV : s.pop_body.dir_size * 4 = s.pop_body.dir_capacity := by
      rw [hBds, hDm]
      omega
    have hpe : s.pop_back = s.pop_body.downsize := by
      simp only [pop_back]
      rw [if_pos htr]
    rw [hpe] at hS hsz2 ⊢
    by_cases hbig : s.big_buffer = true
    · -- big regime: downsize_buffers splits every buffer
      obtain ⟨hlbs0_m, h2ds_m, hL2_m⟩ := hbig_m (by rw [← hbig]; rfl)
      have hBlbs0 : s.pop_body.last_buffer_size = 0 := by rw [hBlbs, hlbs0_m]
      have h2ds : 2 * s.pop_body.dir_size < s.pop_body.dir_capacity := by
        rw [hBds, hDm]
        omega
      have hL2 : 2 ≤ s.log_buffer_capacity := by
        rw [← hBL]
        have h1 : s.pop_body.log_buffer_capacity = (metaOf s).popBodyMeta.L :=
          congrArg MetaSt.L hbody
        omega
      have hpow := MetaSt.pow_pred_double s.log_buffer_capacity hL
      have hHalf : s.buffer_capacity / 2 = 2 ^ (s.log_buffer_capacity - 1) := by
        have : s.buffer_capacity = 2 ^ s.log_buffer_capacity := rfl
        omega
      have hDbig : s.dir_capacity = 2 ^ (s.log_buffer_capacity - 1) := by
        unfold dir_capacity
        rw [hbig, Bool.cond_true]
      have hde : s.pop_body.downsize = s.pop_body.downsize_buffers := by
        unfold downsize
        rw [hBbig, hbig, Bool.cond_true]
      rw [hde] at hS hsz2 ⊢
      have hts1 : 1 ≤ s.pop_body.dir_size := by rw [hBds]; omega
      have htsle : s.pop_body.dir_size ≤ s.dir_size := by rw [hBds, ← hmds]; omega
      have hdirlen_t : s.pop_body.dir.length = s.dir_capacity := by rw [hBdir, hdlen]
      have hsplen : (splitPairs s.pop_body.dir (s.pop_body.buffer_capacity / 2)
          (s.pop_body.dir_size - 1)).length = s.dir_capacity := by
        rw [length_splitPairs, hdirlen_t]
      have hsp := getD_splitPairs s.pop_body.dir (s.pop_body.buffer_capacity / 2)
        (s.pop_body.dir_size - 1) (by rw [hdirlen_t]; omega)
      simp only [downsize_buffers]
      refine ⟨⟨hS, ?_, ?_, ?_⟩, ?_, ?_⟩
      · show _ = 2 ^ (s.pop_body.log_buffer_capacity - 1 - cond false 1 0)
        rw [List.length_set, hsplen, hBL, Bool.cond_false, Nat.sub_zero, hDbig]
      · intro j hj
        replace hj : j < 2 * s.pop_body.dir_size - 1 := hj
        show (_ : List α).length = 2 ^ (s.pop_body.log_buffer_capacity - 1)
        rw [hBL]
        by_cases hj2 : j = 2 * s.pop_body.dir_size - 1 - 1
        · subst hj2
          rw [getD_set_self _ _ _ _ (by rw [hsplen]; omega), List.length_replicate,
            hBB, hHalf]
        · rw [getD_set_ne _ _ _ _ _ (fun hx => hj2 hx.symm), hsp j,
            if_pos (by omega)]
          have hhalf : j / 2 < s.dir_size := by omega
          split_ifs
          · rw [List.length_take, hBdir, hblen _ hhalf, hBB, hHalf]
            have h1 : (2 : Nat) ^ (s.log_buffer_capacity - 1) ≤
                2 ^ s.log_buffer_capacity := Nat.pow_le_pow_right (by norm_num) (by omega)
            have h2 : s.buffer_capacity = 2 ^ s.log_buffer_capacity := rfl
            omega
          · rw [List.length_drop, hBdir, hblen _ hhalf, hBB, hHalf]
            have h2 : s.buffer_capacity = 2 ^ s.log_buffer_capacity := rfl
            omega
      · intro hc
        replace hc : s.pop_body.extra_buffer = true := hc
        rw [hBe0] at hc
        exact absurd hc (by simp)
      · show s.pop_body.downsize_buffers.size = l.dropLast.length
        rw [hsz2, hdrople]
      · intro i hi
        replace hi : i < l.dropLast.length := hi
        rw [hdrople] at hi
        rw [hdropget i hi, pget_eq]
        show ((_ : List (List α)).getD
            (i / 2 ^ (s.pop_body.log_buffer_capacity - 1)) []).getD
            (i % 2 ^ (s.pop_body.log_buffer_capacity - 1)) default = _
        rw [hBL]
        have hH1 : 0 < 2 ^ (s.log_buffer_capacity - 1) := Nat.pow_pos (by norm_num)
        have hts_mul : s.pop_body.dir_size * s.buffer_capacity =
            (s.pop_body.dir_size - 1) * s.buffer_capacity + s.buffer_capacity :=
          MetaSt.succ_pred_mul _ _ hts1
        have hszt2 := size_eq s.pop_body
        rw [hszt, hBlbs0, hBB, Nat.add_zero] at hszt2
        have hbridge : (s.pop_body.dir_size - 1) * s.buffer_capacity =
            (2 * s.pop_body.dir_size - 1 - 1) * 2 ^ (s.log_buffer_capacity - 1) := by
          have h1 : 2 * s.pop_body.dir_size - 1 - 1 = 2 * (s.pop_body.dir_size - 1) := by
            omega
          rw [h1]
          have h2 : s.buffer_capacity = 2 ^ s.log_buffer_capacity := rfl
          rw [h2, hpow]
          ring
        have hilt : i < (2 * s.pop_body.dir_size - 1 - 1) *
            2 ^ (s.log_buffer_capacity - 1) := by omega
        have hq : i / 2 ^ (s.log_buffer_capacity - 1) <
            2 * s.pop_body.dir_size - 1 - 1 :=
          Nat.div_lt_of_lt_mul (by rw [Nat.mul_comm] at hilt; exact hilt)
        rw [getD_set_ne _ _ _ _ _ (by omega), hsp _, if_pos (by omega)]
        have hmod := Nat.mod_lt i hH1
        have hBH : s.buffer_capacity = 2 ^ (s.log_buffer_capacity - 1) * 2 := by
          have h2 : s.buffer_capacity = 2 ^ s.log_buffer_capacity := rfl
          omega
        have hdivdiv : i / 2 ^ (s.log_buffer_capacity - 1) / 2 = i / s.buffer_capacity := by
          rw [Nat.div_div_eq_div_mul, ← hBH]
        have hmodmod : i % s.buffer_capacity =
            i % 2 ^ (s.log_buffer_capacity - 1) + 2 ^ (s.log_buffer_capacity - 1) *
              (i / 2 ^ (s.log_buffer_capacity - 1) % 2) := by
          rw [hBH, Nat.mod_mul]
        rw [← hget i (by omega), pget_eq, hBdir, hBB]
        rcases Nat.mod_two_eq_zero_or_one (i / 2 ^ (s.log_buffer_capacity - 1)) with
          hpar | hpar
        · rw [if_pos hpar]
          rw [getD_take_lt _ _ _ _ (by rw [hHalf]; omega)]
          rw [← hdivdiv]
          have hmm : i % s.buffer_capacity = i % 2 ^ (s.log_buffer_capacity - 1) := by
            rw [hpar, Nat.mul_zero, Nat.add_zero] at hmodmod
            exact hmodmod
          rw [hmm]
        · rw [if_neg (show ¬(i / 2 ^ (s.log_buffer_capacity - 1) % 2 = 0) by omega)]
          rw [getD_drop]
          rw [← hdivdiv]
          have hmm : i % s.buffer_capacity = s.buffer_capacity / 2 +
              i % 2 ^ (s.log_buffer_capacity - 1) := by
            rw [hpar, Nat.mul_one] at hmodmod
            rw [hHalf]
            omega
          rw [hmm]
    · -- flat regime: downsize_dir halves the directory
      replace hbig : s.big_buffer = false := by
        revert hbig
        cases s.big_buffer <;> simp
      have hpow := MetaSt.pow_pred_double s.log_buffer_capacity hL
      have hDflat : s.dir_capacity = 2 ^ s.log_buffer_capacity := by
        unfold dir_capacity
        rw [hbig, Bool.cond_false, Nat.sub_zero]
      have hde : s.pop_body.downsize = s.pop_body.downsize_dir := by
        unfold downsize
        rw [hBbig, hbig, Bool.cond_false]
      rw [hde] at hS hsz2 ⊢
      have hts1 : 1 ≤ s.pop_body.dir_size := by rw [hBds]; omega
      have htsle : s.pop_body.dir_size ≤ s.dir_size := by rw [hBds, ← hmds]; omega
      have hdirlen_t : s.pop_body.dir.length = s.dir_capacity := by rw [hBdir, hdlen]
      have htlen : (s.pop_body.dir.take s.pop_body.dir_size).length =
          s.pop_body.dir_size := by
        rw [List.length_take, hdirlen_t]
        omega
      have hlbs_t2 : s.pop_body.last_buffer_size < s.buffer_capacity := by
        have h1 : (metaOf s).popBodyMeta.bcap = s.buffer_capacity := by
          unfold MetaSt.bcap
          rw [hL_t]
          rfl
        rw [hBlbs]
        omega
      simp only [downsize_dir]
      refine ⟨⟨hS, ?_, ?_, ?_⟩, ?_, ?_⟩
      · show _ = 2 ^ (s.pop_body.log_buffer_capacity - cond true 1 0)
        rw [List.length_append, htlen, List.length_replicate, hBL, Bool.cond_true]
        rw [hDD, hDflat] at heqSV
        omega
      · intro j hj
        replace hj : j < s.pop_body.dir_size := hj
        show (_ : List α).length = 2 ^ s.pop_body.log_buffer_capacity
        rw [getD_append_left _ _ _ _ (by omega), getD_take_lt _ _ _ _ hj, hBdir, hBL]
        exact hblen j (by omega)
      · intro hc
        replace hc : s.pop_body.extra_buffer = true := hc
        rw [hBe0] at hc
        exact absurd hc (by simp)
      · show s.pop_body.downsize_dir.size = l.dropLast.length
        rw [hsz2, hdrople]
      · intro i hi
        replace hi : i < l.dropLast.length := hi
        rw [hdrople] at hi
        rw [hdropget i hi, pget_eq]
        show ((_ : List (List α)).getD (i / 2 ^ s.pop_body.log_buffer_capacity) []).getD
          (i % 2 ^ s.pop_body.log_buffer_capacity) default = _
        rw [hBL]
        have hts_mul : s.pop_body.dir_size * s.buffer_capacity =
            (s.pop_body.dir_size - 1) * s.buffer_capacity + s.buffer_capacity :=
          MetaSt.succ_pred_mul _ _ hts1
        have hszt2 := size_eq s.pop_body
        rw [hszt, hBB] at hszt2
        have hilt : i < s.pop_body.dir_size * s.buffer_capacity := by omega
        have hq : i / s.buffer_capacity < s.pop_body.dir_size :=
          Nat.div_lt_of_lt_mul (by rw [Nat.mul_comm] at hilt; exact hilt)
        have hBpow : (2 : Nat) ^ s.log_buffer_capacity = s.buffer_capacity := rfl
        rw [hBpow]
        rw [getD_append_left _ _ _ _ (by omega), getD_take_lt _ _ _ _ hq, hBdir]
        rw [← hget i (by omega), pget_eq]
  · -- the trigger does not fire: the pop is just the body
    have hpe : s.pop_back = s.pop_body := by
      simp only [pop_back]
      rw [if_neg htr]
    rw [hpe] at hS hsz2 ⊢
    refine ⟨⟨hS, ?_, ?_, ?_⟩, ?_, ?_⟩
    · show s.pop_body.dir.length =
        2 ^ (s.pop_body.log_buffer_capacity - cond s.pop_body.big_buffer 1 0)
      rw [hBdir, hBL, hBbig]
      exact hdlen
    · intro j hj
      replace hj : j < s.pop_body.dir_size := hj
      show (s.pop_body.dir.getD j []).length = 2 ^ s.pop_body.log_buffer_capacity
      rw [hBdir, hBL]
      exact hblen j (by rw [hBds] at hj; omega)
    · intro hee
      show (s.pop_body.dir.getD s.pop_body.dir_size []).length =
        2 ^ s.pop_body.log_buffer_capacity
      rw [hBdir, hBL]
      by_cases hz : s.last_buffer_size = 0
      · -- the last buffer became the extra buffer
        have hbz : s.pop_body = { s with
            last_buffer_size := s.buffer_capacity - 1,
            dir_size := s.dir_size - 1,
            extra_buffer := true } := by
          simp only [pop_body]
          rw [if_pos hz]
        rw [hbz]
        show (s.dir.getD (s.dir_size - 1) []).length = s.buffer_capacity
        exact hblen _ (by omega)
      · by_cases hfr : s.last_buffer_size - 1 = 0 ∧ s.extra_buffer = true
        · have hbz : s.pop_body = { s with
              last_buffer_size := s.last_buffer_size - 1,
              extra_buffer := false } := by
            simp only [pop_body]
            rw [if_neg hz, if_pos hfr]
          rw [hbz] at hee
          exact absurd hee (by simp)
        · have hbz : s.pop_body = { s with
              last_buffer_size := s.last_buffer_size - 1 } := by
            simp only [pop_body]
            rw [if_neg hz, if_neg hfr]
          rw [hbz] at hee ⊢
          show (s.dir.getD s.dir_size []).length = s.buffer_capacity
          exact hext hee
    · rw [hsz2, hdrople]
    · intro i hi
      replace hi : i < l.dropLast.length := hi
      rw [hdrople] at hi
      rw [hdropget i hi, pget_eq, hBB, hBdir, ← pget_eq]
      exact hget i (by omega)

theorem wf_init : wf (init (α := α)) ∧ reps (init (α := α)) ([] : List α) := by
  refine ⟨⟨?_, ?_, ?_, ?_⟩, ?_, ?_⟩
  · rw [metaOf_init]
    decide
  · rfl
  · intro j hj
    replace hj : j < 1 := hj
    have hj0 : j = 0 := by omega
    subst hj0
    rfl
  · intro hc
    exact Bool.noConfusion hc
  · rfl
  · intro i hi
    exact absurd hi (by simp)

theorem metaOf_copy (s : vector α) : metaOf (copy_vec s) = metaOf s := rfl

/-- `copy_vec` preserves well-formedness and represents the same list. -/
theorem copy_wf (s : vector α) (l : List α) (hw : wf s) (hr : reps s l) :
    wf (copy_vec s) ∧ reps (copy_vec s) l := by
  obtain ⟨hstrong, hdlen, hblen, hext⟩ := hw
  obtain ⟨hsz, hget⟩ := hr
  obtain ⟨hL, hds1, hdsD, hlbs, hlz, he, hinv5⟩ := valid_fields s hstrong
  have hB1 : 0 < s.buffer_capacity := Nat.pow_pos (by norm_num)
  have hq := idx_div_lt s l hstrong hsz
  have hS : (metaOf (copy_vec s)).StrongM := by rw [metaOf_copy]; exact hstrong
  have hrep : (List.replicate s.dir_capacity ([] : List α)).length = s.dir_capacity :=
    List.length_replicate _ _
  have hfl := length_foldl_set (fun i => copyN (s.dir.getD i []) s.buffer_capacity)
    (List.replicate s.dir_capacity ([] : List α)) s.dir_size
  have hfg := getD_foldl_set (fun i => copyN (s.dir.getD i []) s.buffer_capacity)
    (List.replicate s.dir_capacity ([] : List α)) s.dir_size
  simp only [copy_vec, construct]
  have hBrec : (⟨List.replicate s.dir_capacity [], s.dir_size, s.last_buffer_size,
      s.log_buffer_capacity, s.big_buffer, s.extra_buffer⟩ : vector α).buffer_capacity =
      s.buffer_capacity := rfl
  simp only [hBrec]
  by_cases hee : s.extra_buffer = true
  · rw [if_pos (show (⟨List.replicate s.dir_capacity [], s.dir_size,
      s.last_buffer_size, s.log_buffer_capacity, s.big_buffer,
      s.extra_buffer⟩ : vector α).extra_buffer = true from hee)]
    refine ⟨⟨hS, ?_, ?_, ?_⟩, ?_, ?_⟩
    · show (_ : List (List α)).length = _
      rw [List.length_set, hfl, hrep]
      rfl
    · intro j hj
      replace hj : j < s.dir_size := hj
      show ((_ : List (List α)).getD j []).length = s.buffer_capacity
      rw [getD_set_ne _ _ _ _ _ (by omega), hfg j,
        if_pos (by constructor; exact hj; rw [hrep]; omega)]
      exact length_copyN _ _
    · intro _
      show ((_ : List (List α)).getD s.dir_size []).length = s.buffer_capacity
      obtain ⟨-, hdlt⟩ := he hee
      rw [getD_set_self _ _ _ _ (by rw [hfl, hrep]; omega)]
      exact List.length_replicate _ _
    · exact hsz
    · intro i hi
      rw [pget_eq]
      show ((_ : List (List α)).getD (i / s.buffer_capacity) []).getD
        (i % s.buffer_capacity) default = _
      have hqi := hq i (by omega)
      obtain ⟨-, hdlt⟩ := he hee
      rw [getD_set_ne _ _ _ _ _ (by omega), hfg _,
        if_pos (by constructor; exact hqi; rw [hrep]; omega), getD_copyN,
        if_pos (Nat.mod_lt i hB1), ← pget_eq]
      exact hget i hi
  · rw [if_neg (fun hx => hee hx)]
    refine ⟨⟨hS, ?_, ?_, ?_⟩, ?_, ?_⟩
    · show (_ : List (List α)).length = _
      rw [hfl, hrep]
      rfl
    · intro j hj
      replace hj : j < s.dir_size := hj
      show ((_ : List (List α)).getD j []).length = s.buffer_capacity
      rw [hfg j, if_pos (by constructor; exact hj; rw [hrep]; omega)]
      exact length_copyN _ _
    · intro hc
      exact absurd hc hee
    · exact hsz
    · intro i hi
      rw [pget_eq]
      show ((_ : List (List α)).getD (i / s.buffer_capacity) []).getD
        (i % s.buffer_capacity) default = _
      have hqi := hq i (by omega)
      rw [hfg _, if_pos (by constructor; exact hqi; rw [hrep]; omega), getD_copyN,
        if_pos (Nat.mod_lt i hB1), ← pget_eq]
      exact hget i hi

theorem runOps_wf (ops : List (Op α)) : ∀ (s : vector α) (l : List α),
    wf s → reps s l → legal l ops = true →
    wf (runOps s ops) ∧ reps (runOps s ops) (runList l ops) := by
  induction ops with
  | nil => intro s l hw hr _; exact ⟨hw, hr⟩
  | cons op rest ih =>
    intro s l hw hr hleg
    cases op with
    | push x =>
      obtain ⟨hw2, hr2⟩ := push_wf s l x hw hr
      exact ih _ _ hw2 hr2 hleg
    | pop =>
      rw [legal, Bool.and_eq_true, Bool.not_eq_true', List.isEmpty_eq_false] at hleg
      obtain ⟨hw2, hr2⟩ := pop_wf s l hw hr hleg.1
      exact ih _ _ hw2 hr2 hleg.2

/-- Every reachable state is well-formed and represents some list. -/
theorem reachable_wf (s : vector α) (h : Reachable s) : ∃ l, wf s ∧ reps s l := by
  induction h with
  | init => exact ⟨[], wf_init⟩
  | push t x _ ih =>
    obtain ⟨l, hw, hr⟩ := ih
    exact ⟨l ++ [x], push_wf t l x hw hr⟩
  | pop t _ hsz ih =>
    obtain ⟨l, hw, hr⟩ := ih
    have hne : l ≠ [] := by
      intro hx
      rw [hr.1, hx] at hsz
      exact absurd hsz (by simp)
    exact ⟨l.dropLast, pop_wf t l hw hr hne⟩
  | copy t _ ih =>
    obtain ⟨l, hw, hr⟩ := ih
    exact ⟨l, copy_wf t l hw hr⟩

theorem reachable_runOps (ops : List (Op α)) : ∀ (s : vector α) (l : List α),
    Reachable s → wf s → reps s l → legal l ops = true → Reachable (runOps s ops) := by
  induction ops with
  | nil => intro s l hR _ _ _; exact hR
  | cons op rest ih =>
    intro s l hR hw hr hleg
    cases op with
    | push x =>
      obtain ⟨hw2, hr2⟩ := push_wf s l x hw hr
      exact ih _ _ (Reachable.push s x hR) hw2 hr2 hleg
    | pop =>
      rw [legal, Bool.and_eq_true, Bool.not_eq_true', List.isEmpty_eq_false] at hleg
      obtain ⟨hw2, hr2⟩ := pop_wf s l hw hr hleg.1
      have hsz : 0 < s.size := by
        rw [hr.1]
        exact List.length_pos.mpr hleg.1
      exact ih _ _ (Reachable.pop s hR hsz) hw2 hr2 hleg.2

/-- C1: for every legal sequence of public operations from the
default-constructed container (`push_back` of arbitrary values interleaved
with `pop_back`, `pop_back` only on a non-empty container), `size()` equals
the length of the plain-list reference model run on the same sequence, and
`operator[]` agrees with the reference model at every index below the
size. -/
theorem c1_op_sequence_model (ops : List (Op α)) (h : legal ([] : List α) ops = true) :
    (runOps (init (α := α)) ops).size = (runList ([] : List α) ops).length ∧
    ∀ i, i < (runList ([] : List α) ops).length →
      (runOps (init (α := α)) ops).pget i = (runList ([] : List α) ops).getD i default := by
  obtain ⟨hw0, hr0⟩ := wf_init (α := α)
  exact (runOps_wf ops init [] hw0 hr0 h).2

theorem c1_witness :
    legal ([] : List Nat) [Op.push 5, Op.push 7, Op.pop, Op.push 9] = true ∧
    ((runOps (init (α := Nat)) [Op.push 5, Op.push 7, Op.pop, Op.push 9]).size =
      (runList ([] : List Nat) [Op.push 5, Op.push 7, Op.pop, Op.push 9]).length ∧
     ∀ i, i < (runList ([] : List Nat) [Op.push 5, Op.push 7, Op.pop, Op.push 9]).length →
       (runOps (init (α := Nat)) [Op.push 5, Op.push 7, Op.pop, Op.push 9]).pget i =
         (runList ([] : List Nat) [Op.push 5, Op.push 7, Op.pop, Op.push 9]).getD i
           default) :=
  ⟨by decide, c1_op_sequence_model [Op.push 5, Op.push 7, Op.pop, Op.push 9] (by decide)⟩

/-- C2: in every reachable state, the allocated slots
`(dir_size + (extra_buffer ? 1 : 0)) * buffer_capacity` exceed `size()` by
at most `2 * buffer_capacity`, and `buffer_capacity` is `O(sqrt(size))`:
its square is bounded by a fixed linear function of `size()`. -/
theorem c2_space_bound (s : vector α) (h : Reachable s) :
    (s.dir_size + cond s.extra_buffer 1 0) * s.buffer_capacity ≤
      s.size + 2 * s.buffer_capacity ∧
    s.buffer_capacity * s.buffer_capacity ≤ 16 * s.size + 16 * s.buffer_capacity := by
  obtain ⟨l, hw, -⟩ := reachable_wf s h
  obtain ⟨hL, hds1, hdsD, hlbs, hlz, he, hinv5⟩ := valid_fields s hw.1
  have hsz := size_eq s
  have heb : cond s.extra_buffer 1 0 ≤ 1 := by cases s.extra_buffer <;> simp
  have hm1 : (s.dir_size + 1) * s.buffer_capacity =
      s.dir_size * s.buffer_capacity + s.buffer_capacity := Nat.succ_mul _ _
  have hm2 : s.dir_size * s.buffer_capacity =
      (s.dir_size - 1) * s.buffer_capacity + s.buffer_capacity :=
    MetaSt.succ_pred_mul _ _ hds1
  have hle : (s.dir_size + cond s.extra_buffer 1 0) * s.buffer_capacity ≤
      (s.dir_size + 1) * s.buffer_capacity :=
    Nat.mul_le_mul_right _ (by omega)
  constructor
  · omega
  · have hBd : s.buffer_capacity ≤ 2 * s.dir_capacity := by
      cases hb : s.big_buffer
      · have hD : s.dir_capacity = 2 ^ s.log_buffer_capacity := by
          unfold dir_capacity
          rw [hb, Bool.cond_false, Nat.sub_zero]
        have hB : s.buffer_capacity = 2 ^ s.log_buffer_capacity := rfl
        omega
      · have hD : s.dir_capacity = 2 ^ (s.log_buffer_capacity - 1) := by
          unfold dir_capacity
          rw [hb, Bool.cond_true]
        have hB : s.buffer_capacity = 2 ^ s.log_buffer_capacity := rfl
        have hp := MetaSt.pow_pred_double s.log_buffer_capacity hL
        omega
    have hu : s.buffer_capacity * s.buffer_capacity ≤
        2 * (s.dir_capacity * s.buffer_capacity) := by
      have h1 : s.buffer_capacity * s.buffer_capacity ≤
          (2 * s.dir_capacity) * s.buffer_capacity := Nat.mul_le_mul_right _ hBd
      have h2 : (2 * s.dir_capacity) * s.buffer_capacity =
          2 * (s.dir_capacity * s.buffer_capacity) := by ring
      omega
    have h3 : s.dir_capacity * s.buffer_capacity ≤
        ((s.dir_size + cond s.extra_buffer 1 0) * 4) * s.buffer_capacity :=
      Nat.mul_le_mul_right _ hinv5
    have h4 : ((s.dir_size + cond s.extra_buffer 1 0) * 4) * s.buffer_capacity =
        4 * ((s.dir_size + cond s.extra_buffer 1 0) * s.buffer_capacity) := by ring
    omega

theorem c2_witness :
    Reachable (init (α := Nat)) ∧
    ((init (α := Nat)).dir_size + cond (init (α := Nat)).extra_buffer 1 0) *
        (init (α := Nat)).buffer_capacity ≤
      (init (α := Nat)).size + 2 * (init (α := Nat)).buffer_capacity ∧
    (init (α := Nat)).buffer_capacity * (init (α := Nat)).buffer_capacity ≤
      16 * (init (α := Nat)).size + 16 * (init (α := Nat)).buffer_capacity :=
  ⟨Reachable.init, c2_space_bound init Reachable.init⟩

/-- C3: invariants 1-5 hold in every state reachable from the
default-constructed container by public operations (push_back, pop_back and
copying): `1 <= dir_size <= dir_capacity`;
`last_buffer_size < buffer_capacity`; `last_buffer_size == 0` implies
`extra_buffer` is false; `extra_buffer` implies `last_buffer_size > 0` and
`dir_size < dir_capacity`; and
`(dir_size + (extra_buffer ? 1 : 0)) * 4 >= dir_capacity`. -/
theorem c3_invariants_reachable (s : vector α) (h : Reachable s) :
    (1 ≤ s.dir_size ∧ s.dir_size ≤ s.dir_capacity) ∧
    s.last_buffer_size < s.buffer_capacity ∧
    (s.last_buffer_size = 0 → s.extra_buffer = false) ∧
    (s.extra_buffer = true → 0 < s.last_buffer_size ∧ s.dir_size < s.dir_capacity) ∧
    s.dir_capacity ≤ (s.dir_size + cond s.extra_buffer 1 0) * 4 := by
  obtain ⟨l, hw, -⟩ := reachable_wf s h
  obtain ⟨hL, hds1, hdsD, hlbs, hlz, he, hinv5⟩ := valid_fields s hw.1
  exact ⟨⟨hds1, hdsD⟩, hlbs, hlz, he, hinv5⟩

theorem c3_witness :
    Reachable (init (α := Nat)) ∧
    ((1 ≤ (init (α := Nat)).dir_size ∧
      (init (α := Nat)).dir_size ≤ (init (α := Nat)).dir_capacity) ∧
     (init (α := Nat)).last_buffer_size < (init (α := Nat)).buffer_capacity ∧
     ((init (α := Nat)).last_buffer_size = 0 → (init (α := Nat)).extra_buffer = false) ∧
     ((init (α := Nat)).extra_buffer = true →
       0 < (init (α := Nat)).last_buffer_size ∧
       (init (α := Nat)).dir_size < (init (α := Nat)).dir_capacity) ∧
     (init (α := Nat)).dir_capacity ≤
       ((init (α := Nat)).dir_size + cond (init (α := Nat)).extra_buffer 1 0) * 4) :=
  ⟨Reachable.init, c3_invariants_reachable init Reachable.init⟩

/-- C4: `pop_back` on a non-empty reachable container behaves exactly as
specified: if `last_buffer_size == 0`, then `last_buffer_size` becomes
`buffer_capacity - 1`, `dir_size` is decremented and `extra_buffer` becomes
true; otherwise `last_buffer_size` is decremented, and when it reaches 0
with `extra_buffer` set, `extra_buffer` becomes false (the extra buffer is
freed); afterwards `downsize()` runs if and only if
`(dir_size + (extra_buffer ? 1 : 0)) * 4 <= dir_capacity`; and in every
case `size()` decreases by exactly one. -/
theorem c4_pop_back_behavior (s : vector α) (h : Reachable s) (hsz : 0 < s.size) :
    (s.last_buffer_size = 0 →
      s.pop_body = { s with last_buffer_size := s.buffer_capacity - 1,
                            dir_size := s.dir_size - 1, extra_buffer := true }) ∧
    (s.last_buffer_size ≠ 0 → ¬(s.last_buffer_size - 1 = 0 ∧ s.extra_buffer = true) →
      s.pop_body = { s with last_buffer_size := s.last_buffer_size - 1 }) ∧
    (s.last_buffer_size ≠ 0 → (s.last_buffer_size - 1 = 0 ∧ s.extra_buffer = true) →
      s.pop_body = { s with
                            last_buffer_size := s.last_buffer_size - 1,
                            extra_buffer := false }) ∧
    ((s.pop_body.dir_size + cond s.pop_body.extra_buffer 1 0) * 4 ≤
        s.pop_body.dir_capacity → s.pop_back = s.pop_body.downsize) ∧
    (¬((s.pop_body.dir_size + cond s.pop_body.extra_buffer 1 0) * 4 ≤
        s.pop_body.dir_capacity) → s.pop_back = s.pop_body) ∧
    s.pop_back.size + 1 = s.size := by
  obtain ⟨l, hw, -⟩ := reachable_wf s h
  have hszm : 0 < (metaOf s).msize := by
    rw [← size_eq_msize]
    exact hsz
  obtain ⟨-, hdec, -, -⟩ := MetaSt.strong_pop (metaOf s) hw.1 hszm
  refine ⟨?_, ?_, ?_, ?_, ?_, ?_⟩
  · intro hz
    simp only [pop_body]
    rw [if_pos hz]
  · intro hz hfr
    simp only [pop_body]
    rw [if_neg hz, if_neg hfr]
  · intro hz hfr
    simp only [pop_body]
    rw [if_neg hz, if_pos hfr]
  · intro ht
    simp only [pop_back]
    rw [if_pos ht]
  · intro ht
    simp only [pop_back]
    rw [if_neg ht]
  · have e1 := size_eq_msize s.pop_back
    have e2 := size_eq_msize s
    rw [metaOf_pop] at e1
    omega

theorem c4_witness :
    Reachable (push_back (init (α := Nat)) 1) ∧ 0 < (push_back (init (α := Nat)) 1).size ∧
    (((push_back (init (α := Nat)) 1).last_buffer_size = 0 →
      (push_back (init (α := Nat)) 1).pop_body =
        { push_back (init (α := Nat)) 1 with
            last_buffer_size := (push_back (init (α := Nat)) 1).buffer_capacity - 1,
            dir_size := (push_back (init (α := Nat)) 1).dir_size - 1,
            extra_buffer := true }) ∧
     ((push_back (init (α := Nat)) 1).last_buffer_size ≠ 0 →
      ¬((push_back (init (α := Nat)) 1).last_buffer_size - 1 = 0 ∧
          (push_back (init (α := Nat)) 1).extra_buffer = true) →
      (push_back (init (α := Nat)) 1).pop_body =
        { push_back (init (α := Nat)) 1 with
            last_buffer_size := (push_back (init (α := Nat)) 1).last_buffer_size - 1 }) ∧
     ((push_back (init (α := Nat)) 1).last_buffer_size ≠ 0 →
      ((push_back (init (α := Nat)) 1).last_buffer_size - 1 = 0 ∧
          (push_back (init (α := Nat)) 1).extra_buffer = true) →
      (push_back (init (α := Nat)) 1).pop_body =
        { push_back (init (α := Nat)) 1 with
            last_buffer_size := (push_back (init (α := Nat)) 1).last_buffer_size - 1,
            extra_buffer := false }) ∧
     (((push_back (init (α := Nat)) 1).pop_body.dir_size +
          cond (push_back (init (α := Nat)) 1).pop_body.extra_buffer 1 0) * 4 ≤
        (push_back (init (α := Nat)) 1).pop_body.dir_capacity →
      (push_back (init (α := Nat)) 1).pop_back =
        (push_back (init (α := Nat)) 1).pop_body.downsize) ∧
     (¬(((push_back (init (α := Nat)) 1).pop_body.dir_size +
          cond (push_back (init (α := Nat)) 1).pop_body.extra_buffer 1 0) * 4 ≤
        (push_back (init (α := Nat)) 1).pop_body.dir_capacity) →
      (push_back (init (α := Nat)) 1).pop_back = (push_back (init (α := Nat)) 1).pop_body) ∧
     (push_back (init (α := Nat)) 1).pop_back.size + 1 =
       (push_back (init (α := Nat)) 1).size) :=
  ⟨Reachable.push init 1 Reachable.init, by decide,
   c4_pop_back_behavior (push_back init 1) (Reachable.push init 1 Reachable.init) (by decide)⟩

/-- C6: in every reachable state, whenever the downsize trigger of
`pop_back` fires, the condition holds with equality —
`(dir_size + (extra_buffer ? 1 : 0)) * 4 == dir_capacity` — with
`extra_buffer` false, and when `big_buffer` is set at that point
`last_buffer_size == 0`, so the preconditions asserted inside
`downsize_buffers()` hold at every invocation. -/
theorem c6_trigger_equality (s : vector α) (h : Reachable s) (hsz : 0 < s.size)
    (ht : (s.pop_body.dir_size + cond s.pop_body.extra_buffer 1 0) * 4 ≤
      s.pop_body.dir_capacity) :
    (s.pop_body.dir_size + cond s.pop_body.extra_buffer 1 0) * 4 =
      s.pop_body.dir_capacity ∧
    s.pop_body.extra_buffer = false ∧
    (s.pop_body.big_buffer = true → s.pop_body.last_buffer_size = 0) := by
  obtain ⟨l, hw, -⟩ := reachable_wf s h
  have hszm : 0 < (metaOf s).msize := by
    rw [← size_eq_msize]
    exact hsz
  obtain ⟨-, -, hconj3, -⟩ := MetaSt.strong_pop (metaOf s) hw.1 hszm
  obtain ⟨-, -, -, -, hbig_t, -, -⟩ := MetaSt.popBody_fields (metaOf s) hw.1 hszm
  have hbody := metaOf_pop_body s
  have htm : (metaOf s).popBodyMeta.trig := by
    show ((metaOf s).popBodyMeta.ds + (metaOf s).popBodyMeta.ebit) * 4 ≤
      (metaOf s).popBodyMeta.dcap
    rw [← hbody]
    exact ht
  obtain ⟨heq, he0, hbig⟩ := hconj3 htm
  refine ⟨?_, ?_, ?_⟩
  · rw [← hbody] at heq
    exact heq
  · rw [← hbody] at he0
    exact he0
  · intro hb
    have hbm : (metaOf s).big = true := by
      rw [← hbig_t, ← hbody]
      exact hb
    have := (hbig hbm).1
    rw [← hbody] at this
    exact this

theorem c6_witness :
    0 < (runOps (init (α := Nat))
        (List.replicate 8 (Op.push 1) ++ List.replicate 7 Op.pop)).size ∧
    ((runOps (init (α := Nat))
        (List.replicate 8 (Op.push 1) ++ List.replicate 7 Op.pop)).pop_body.dir_size +
      cond (runOps (init (α := Nat))
        (List.replicate 8 (Op.push 1) ++ List.replicate 7 Op.pop)).pop_body.extra_buffer
        1 0) * 4 ≤
      (runOps (init (α := Nat))
        (List.replicate 8 (Op.push 1) ++ List.replicate 7 Op.pop)).pop_body.dir_capacity ∧
    (((runOps (init (α := Nat))
        (List.replicate 8 (Op.push 1) ++ List.replicate 7 Op.pop)).pop_body.dir_size +
      cond (runOps (init (α := Nat))
        (List.replicate 8 (Op.push 1) ++ List.replicate 7 Op.pop)).pop_body.extra_buffer
        1 0) * 4 =
      (runOps (init (α := Nat))
        (List.replicate 8 (Op.push 1) ++ List.replicate 7 Op.pop)).pop_body.dir_capacity ∧
     (runOps (init (α := Nat))
        (List.replicate 8 (Op.push 1) ++ List.replicate 7 Op.pop)).pop_body.extra_buffer =
       false ∧
     ((runOps (init (α := Nat))
        (List.replicate 8 (Op.push 1) ++ List.replicate 7 Op.pop)).pop_body.big_buffer =
        true →
      (runOps (init (α := Nat))
        (List.replicate 8 (Op.push 1) ++ List.replicate 7 Op.pop)).pop_body.last_buffer_size =
        0)) :=
  ⟨by decide, by decide,
   c6_trigger_equality _
     (reachable_runOps (List.replicate 8 (Op.push 1) ++ List.replicate 7 Op.pop)
       init [] Reachable.init (wf_init (α := Nat)).1 (wf_init (α := Nat)).2 (by decide))
     (by decide) (by decide)⟩

/-- C8: in the checked build, `pop_back()` on an empty container and
indexed access at `i >= size()` are detected before any mutation: the
failure value carries the container state at entry unchanged; conversely
in-bounds access and non-empty pops succeed. -/
theorem c8_checked_preconditions (s : vector α) (i : Nat) :
    (s.size ≤ i → s.pget_checked i = Except.error s) ∧
    (i < s.size → s.pget_checked i = Except.ok (s.pget i)) ∧
    (s.size = 0 → s.pop_checked = Except.error s) ∧
    (0 < s.size → s.pop_checked = Except.ok s.pop_back) := by
  refine ⟨?_, ?_, ?_, ?_⟩
  · intro h1
    simp only [pget_checked]
    rw [if_neg (by omega)]
  · intro h1
    simp only [pget_checked]
    rw [if_pos h1]
  · intro h1
    simp only [pop_checked]
    rw [if_neg (by omega)]
  · intro h1
    simp only [pop_checked]
    rw [if_pos h1]

theorem c8_witness :
    (init (α := Nat)).size ≤ 0 ∧ (init (α := Nat)).size = 0 ∧
    (pget_checked (init (α := Nat)) 0 = Except.error init ∧
     pop_checked (init (α := Nat)) = Except.error init) :=
  ⟨by decide, by decide,
   (c8_checked_preconditions (init (α := Nat)) 0).1 (by decide),
   (c8_checked_preconditions (init (α := Nat)) 0).2.2.1 (by decide)⟩

/-- C10: REFUTED.  The claim says self-assignment is harmless, but
`operator=` destroys the receiver's buffers and directory and then copies
from `that` — the same object — so `construct` copies each freshly
allocated buffer onto itself and the original element values are lost
(`assign_self` traces the source's steps on the aliased object).  On the
reachable container holding the single element 42, self-assignment keeps
`size()` but the element at index 0 reads back as the default value 0, not
42. -/
theorem c10_self_assignment_loses_elements :
    Reachable (push_back (init (α := Nat)) 42) ∧
    (assign_self (push_back (init (α := Nat)) 42)).size =
      (push_back (init (α := Nat)) 42).size ∧
    (push_back (init (α := Nat)) 42).pget 0 = 42 ∧
    (assign_self (push_back (init (α := Nat)) 42)).pget 0 = 0 :=
  ⟨Reachable.push init 42 Reachable.init, by decide, by decide, by decide⟩

/-- C5: under the preconditions `last_buffer_size == 0`,
`extra_buffer == false` and `big_buffer` true (with room in the directory
for the split halves, which holds at every actual invocation by the
trigger equality), `downsize_buffers()` splits every counted buffer
back-to-front into two half-capacity buffers: on exit
`log_buffer_capacity` is decremented, `big_buffer` is false, `dir_size`
equals `2 * dir_size - 1` with a fresh empty trailing buffer in the new
last slot, `size()` is unchanged and every element keeps its logical
index. -/
theorem c5_downsize_buffers_splits (s : vector α) (hw : wf s)
    (hlbs0 : s.last_buffer_size = 0) (he0 : s.extra_buffer = false)
    (hbig : s.big_buffer = true) (hroom : 2 * s.dir_size ≤ s.dir_capacity) :
    s.downsize_buffers.log_buffer_capacity = s.log_buffer_capacity - 1 ∧
    s.downsize_buffers.big_buffer = false ∧
    s.downsize_buffers.dir_size = 2 * s.dir_size - 1 ∧
    s.downsize_buffers.last_buffer_size = 0 ∧
    s.downsize_buffers.dir.getD (2 * s.dir_size - 1 - 1) [] =
      List.replicate (s.buffer_capacity / 2) default ∧
    s.downsize_buffers.size = s.size ∧
    (∀ i, i < s.size → s.downsize_buffers.pget i = s.pget i) := by
  obtain ⟨hstrong, hdlen, hblen, hext⟩ := hw
  obtain ⟨hL, hds1, hdsD, hlbs, hlz, he, hinv5⟩ := valid_fields s hstrong
  have hB1 : 0 < s.buffer_capacity := Nat.pow_pos (by norm_num)
  have hpow := MetaSt.pow_pred_double s.log_buffer_capacity hL
  have hHalf : s.buffer_capacity / 2 = 2 ^ (s.log_buffer_capacity - 1) := by
    have h2 : s.buffer_capacity = 2 ^ s.log_buffer_capacity := rfl
    omega
  have hsplen : (splitPairs s.dir (s.buffer_capacity / 2) (s.dir_size - 1)).length =
      s.dir_capacity := by
    rw [length_splitPairs, hdlen]
  have hsp := getD_splitPairs s.dir (s.buffer_capacity / 2) (s.dir_size - 1)
    (by rw [hdlen]; omega)
  have hsz := size_eq s
  rw [hlbs0, Nat.add_zero] at hsz
  have hts_mul : s.dir_size * s.buffer_capacity =
      (s.dir_size - 1) * s.buffer_capacity + s.buffer_capacity :=
    MetaSt.succ_pred_mul _ _ hds1
  have hbridge : (s.dir_size - 1) * s.buffer_capacity =
      (2 * s.dir_size - 1 - 1) * 2 ^ (s.log_buffer_capacity - 1) := by
    have h1 : 2 * s.dir_size - 1 - 1 = 2 * (s.dir_size - 1) := by omega
    rw [h1]
    have h2 : s.buffer_capacity = 2 ^ s.log_buffer_capacity := rfl
    rw [h2, hpow]
    ring
  have hdL : s.downsize_buffers.log_buffer_capacity = s.log_buffer_capacity - 1 := rfl
  have hdbig : s.downsize_buffers.big_buffer = false := rfl
  have hdds : s.downsize_buffers.dir_size = 2 * s.dir_size - 1 := rfl
  have hdlbs : s.downsize_buffers.last_buffer_size = s.last_buffer_size := rfl
  have hddir : s.downsize_buffers.dir =
      (splitPairs s.dir (s.buffer_capacity / 2) (s.dir_size - 1)).set
        (2 * s.dir_size - 1 - 1)
        (List.replicate (s.buffer_capacity / 2) default) := rfl
  have hbb : s.downsize_buffers.buffer_capacity = 2 ^ (s.log_buffer_capacity - 1) := by
    unfold buffer_capacity
    rw [hdL]
  have hdsz : s.downsize_buffers.size = s.size := by
    rw [size_eq, size_eq, hdds, hdlbs, hlbs0, hbb]
    omega
  refine ⟨hdL, hdbig, hdds, by rw [hdlbs]; exact hlbs0, ?_, hdsz, ?_⟩
  · rw [hddir, getD_set_self _ _ _ _ (by rw [hsplen]; omega)]
  · intro i hi
    rw [hsz] at hi
    rw [pget_eq, pget_eq, hddir, hbb]
    have hH1 : 0 < 2 ^ (s.log_buffer_capacity - 1) := Nat.pow_pos (by norm_num)
    have hilt : i < (2 * s.dir_size - 1 - 1) * 2 ^ (s.log_buffer_capacity - 1) := by
      omega
    have hq : i / 2 ^ (s.log_buffer_capacity - 1) < 2 * s.dir_size - 1 - 1 :=
      Nat.div_lt_of_lt_mul (by rw [Nat.mul_comm] at hilt; exact hilt)
    rw [getD_set_ne _ _ _ _ _ (by omega), hsp _, if_pos (by omega)]
    have hmod := Nat.mod_lt i hH1
    have hBH : s.buffer_capacity = 2 ^ (s.log_buffer_capacity - 1) * 2 := by
      have h2 : s.buffer_capacity = 2 ^ s.log_buffer_capacity := rfl
      omega
    have hdivdiv : i / 2 ^ (s.log_buffer_capacity - 1) / 2 = i / s.buffer_capacity := by
      rw [Nat.div_div_eq_div_mul, ← hBH]
    have hmodmod : i % s.buffer_capacity =
        i % 2 ^ (s.log_buffer_capacity - 1) + 2 ^ (s.log_buffer_capacity - 1) *
          (i / 2 ^ (s.log_buffer_capacity - 1) % 2) := by
      rw [hBH, Nat.mod_mul]
    rcases Nat.mod_two_eq_zero_or_one (i / 2 ^ (s.log_buffer_capacity - 1)) with
      hpar | hpar
    · rw [if_pos hpar]
      rw [getD_take_lt _ _ _ _ (by rw [hHalf]; omega)]
      rw [← hdivdiv]
      have hmm : i % s.buffer_capacity = i % 2 ^ (s.log_buffer_capacity - 1) := by
        rw [hpar, Nat.mul_zero, Nat.add_zero] at hmodmod
        exact hmodmod
      rw [hmm]
    · rw [if_neg (show ¬(i / 2 ^ (s.log_buffer_capacity - 1) % 2 = 0) by omega)]
      rw [getD_drop]
      rw [← hdivdiv]
      have hmm : i % s.buffer_capacity = s.buffer_capacity / 2 +
          i % 2 ^ (s.log_buffer_capacity - 1) := by
        rw [hpar, Nat.mul_one] at hmodmod
        rw [hHalf]
        omega
      rw [hmm]

theorem c5_witness :
    wf c5ex ∧ c5ex.last_buffer_size = 0 ∧ c5ex.extra_buffer = false ∧
    c5ex.big_buffer = true ∧ 2 * c5ex.dir_size ≤ c5ex.dir_capacity ∧
    (c5ex.downsize_buffers.log_buffer_capacity = c5ex.log_buffer_capacity - 1 ∧
     c5ex.downsize_buffers.big_buffer = false ∧
     c5ex.downsize_buffers.dir_size = 2 * c5ex.dir_size - 1 ∧
     c5ex.downsize_buffers.last_buffer_size = 0 ∧
     c5ex.downsize_buffers.dir.getD (2 * c5ex.dir_size - 1 - 1) [] =
       List.replicate (c5ex.buffer_capacity / 2) default ∧
     c5ex.downsize_buffers.size = c5ex.size ∧
     (∀ i, i < c5ex.size → c5ex.downsize_buffers.pget i = c5ex.pget i)) :=
  ⟨by decide, by decide, by decide, by decide, by decide,
   c5_downsize_buffers_splits c5ex (by decide) (by decide) (by decide) (by decide)
     (by decide)⟩

set_option maxHeartbeats 1600000 in
/-- `space::pop_back` preserves well-formedness and removes the last element
of the represented list. -/
theorem space_pop_wf (s : vector α) (l : List α) (hw : wf s) (hr : reps s l)
    (hne : l ≠ []) :
    wf s.space_pop_back ∧ reps s.space_pop_back l.dropLast := by
  obtain ⟨hstrong, hdlen, hblen, hext⟩ := hw
  obtain ⟨hsz, hget⟩ := hr
  obtain ⟨hL, hds1, hdsD, hlbs, hlz, he, hinv5⟩ := valid_fields s hstrong
  have hB1 : 0 < s.buffer_capacity := Nat.pow_pos (by norm_num)
  have hlen_pos : 0 < l.length := List.length_pos.mpr hne
  have hms : (metaOf s).msize = l.length := by rw [← size_eq_msize, hsz]
  have hszpos : 0 < (metaOf s).msize := by omega
  obtain ⟨hS0, hsz0, hassert⟩ := MetaSt.strong_spacePop (metaOf s) hstrong hszpos
  have hS : (metaOf s.space_pop_back).StrongM := by
    rw [metaOf_space_pop]
    exact hS0
  have hsz2 : s.space_pop_back.size = l.length - 1 := by
    rw [size_eq_msize, metaOf_space_pop]
    omega
  have hszeq := size_eq s
  rw [hsz] at hszeq
  have hdrople : l.dropLast.length = l.length - 1 := List.length_dropLast l
  have hdropget : ∀ i, i < l.length - 1 → l.dropLast.getD i default = l.getD i default :=
    fun i hi => getD_dropLast l i hi
  by_cases hz : s.last_buffer_size = 0
  · -- the last buffer becomes the extra buffer
    have heq : s.space_pop_back = { s with
        last_buffer_size := s.buffer_capacity - 1,
        dir_size := s.dir_size - 1, extra_buffer := true } := by
      simp only [space_pop_back]
      rw [if_pos hz]
    rw [heq] at hS hsz2 ⊢
    have hds2 : 2 ≤ s.dir_size := by
      rw [hz, Nat.add_zero] at hszeq
      have hne1 : s.dir_size - 1 ≠ 0 := by
        intro hx
        rw [hx, Nat.zero_mul] at hszeq
        omega
      omega
    refine ⟨⟨hS, ?_, ?_, ?_⟩, ?_, ?_⟩
    · show s.dir.length = s.dir_capacity
      exact hdlen
    · intro j hj
      replace hj : j < s.dir_size - 1 := hj
      show (s.dir.getD j []).length = s.buffer_capacity
      exact hblen j (by omega)
    · intro _
      show (s.dir.getD (s.dir_size - 1) []).length = s.buffer_capacity
      exact hblen _ (by omega)
    · rw [hsz2, hdrople]
    · intro i hi
      replace hi : i < l.dropLast.length := hi
      rw [hdrople] at hi
      rw [pget_eq]
      show (s.dir.getD (i / s.buffer_capacity) []).getD
        (i % s.buffer_capacity) default = _
      rw [← pget_eq, hget i (by omega), hdropget i hi]
  · by_cases hfr : s.last_buffer_size - 1 = 0 ∧ s.extra_buffer = true
    · -- freeing the extra buffer, then possibly downsizing
      have hlbs1 : s.last_buffer_size = 1 := by omega
      have he1 : s.extra_buffer = true := hfr.2
      by_cases htr : s.dir_size * 4 ≤
          ({ s with
             last_buffer_size := s.last_buffer_size - 1,
             extra_buffer := false } : vector α).dir_capacity
      · have htrS : s.dir_size * 4 ≤ s.dir_capacity := htr
        obtain ⟨heqm, hbigm⟩ := hassert hlbs1 he1 htrS
        have heqS : s.dir_size * 4 = s.dir_capacity := heqm
        have ht2 : s.space_pop_back = space_downsize
            { s with
              last_buffer_size := s.last_buffer_size - 1,
              extra_buffer := false } := by
          simp only [space_pop_back]
          rw [if_neg hz, if_pos hfr, if_pos htr]
        rw [ht2] at hS hsz2 ⊢
        by_cases hbig : s.big_buffer = true
        · -- big regime: space's downsize_buffers splits all counted buffers
          obtain ⟨h2ds, hL2⟩ := hbigm hbig
          have hde : space_downsize
              ({ s with
                 last_buffer_size := s.last_buffer_size - 1,
                 extra_buffer := false } : vector α) =
              space_downsize_buffers
                { s with
                  last_buffer_size := s.last_buffer_size - 1,
                  extra_buffer := false } := by
            unfold space_downsize
            rw [show ({ s with
              last_buffer_size := s.last_buffer_size - 1,
              extra_buffer := false } : vector α).big_buffer = true from hbig,
              Bool.cond_true]
          rw [hde] at hS hsz2 ⊢
          have hpow := MetaSt.pow_pred_double s.log_buffer_capacity hL
          have hHalf : s.buffer_capacity / 2 = 2 ^ (s.log_buffer_capacity - 1) := by
            have h2 : s.buffer_capacity = 2 ^ s.log_buffer_capacity := rfl
            omega
          have hDbig : s.dir_capacity = 2 ^ (s.log_buffer_capacity - 1) := by
            unfold dir_capacity
            rw [hbig, Bool.cond_true]
          have hsplen : (splitPairs s.dir (s.buffer_capacity / 2) s.dir_size).length =
              s.dir_capacity := by
            rw [length_splitPairs, hdlen]
          have hsp := getD_splitPairs s.dir (s.buffer_capacity / 2) s.dir_size
            (by rw [hdlen]; omega)
          have hBrec : ({ s with
              last_buffer_size := s.last_buffer_size - 1,
              extra_buffer := false } : vector α).buffer_capacity =
              s.buffer_capacity := rfl
          simp only [space_downsize_buffers, hBrec]
          refine ⟨⟨hS, ?_, ?_, ?_⟩, ?_, ?_⟩
          · show _ = 2 ^ (s.log_buffer_capacity - 1 - cond false 1 0)
            rw [hsplen, Bool.cond_false, Nat.sub_zero, hDbig]
          · intro j hj
            replace hj : j < 2 * s.dir_size - 1 := hj
            show (_ : List α).length = 2 ^ (s.log_buffer_capacity - 1)
            rw [hsp j, if_pos (by omega)]
            have hhalf : j / 2 < s.dir_size := by omega
            split_ifs
            · rw [List.length_take, hblen _ hhalf, hHalf]
              have h1 : (2 : Nat) ^ (s.log_buffer_capacity - 1) ≤
                  2 ^ s.log_buffer_capacity := Nat.pow_le_pow_right (by norm_num) (by omega)
              have h2 : s.buffer_capacity = 2 ^ s.log_buffer_capacity := rfl
              omega
            · rw [List.length_drop, hblen _ hhalf, hHalf]
              have h2 : s.buffer_capacity = 2 ^ s.log_buffer_capacity := rfl
              omega
          · intro hc
            exact absurd hc (by simp)
          · show (space_downsize_buffers { s with
                last_buffer_size := s.last_buffer_size - 1,
                extra_buffer := false } : vector α).size = l.dropLast.length
            rw [hsz2, hdrople]
          · intro i hi
            replace hi : i < l.dropLast.length := hi
            rw [hdrople] at hi
            rw [hdropget i hi, pget_eq]
            show ((_ : List (List α)).getD
                (i / 2 ^ (s.log_buffer_capacity - 1)) []).getD
                (i % 2 ^ (s.log_buffer_capacity - 1)) default = _
            have hH1 : 0 < 2 ^ (s.log_buffer_capacity - 1) := Nat.pow_pos (by norm_num)
            have hts_mul : s.dir_size * s.buffer_capacity =
                (s.dir_size - 1) * s.buffer_capacity + s.buffer_capacity :=
              MetaSt.succ_pred_mul _ _ hds1
            have hbridge : (s.dir_size - 1) * s.buffer_capacity =
                (2 * s.dir_size - 1 - 1) * 2 ^ (s.log_buffer_capacity - 1) := by
              have h1 : 2 * s.dir_size - 1 - 1 = 2 * (s.dir_size - 1) := by omega
              rw [h1]
              have h2 : s.buffer_capacity = 2 ^ s.log_buffer_capacity := rfl
              rw [h2, hpow]
              ring
            have hilt : i < (2 * s.dir_size - 1 - 1) *
                2 ^ (s.log_buffer_capacity - 1) := by omega
            have hq : i / 2 ^ (s.log_buffer_capacity - 1) <
                2 * s.dir_size - 1 - 1 :=
              Nat.div_lt_of_lt_mul (by rw [Nat.mul_comm] at hilt; exact hilt)
            rw [hsp _, if_pos (by omega)]
            have hmod := Nat.mod_lt i hH1
            have hBH : s.buffer_capacity = 2 ^ (s.log_buffer_capacity - 1) * 2 := by
              have h2 : s.buffer_capacity = 2 ^ s.log_buffer_capacity := rfl
              omega
            have hdivdiv : i / 2 ^ (s.log_buffer_capacity - 1) / 2 =
                i / s.buffer_capacity := by
              rw [Nat.div_div_eq_div_mul, ← hBH]
            have hmodmod : i % s.buffer_capacity =
                i % 2 ^ (s.log_buffer_capacity - 1) + 2 ^ (s.log_buffer_capacity - 1) *
                  (i / 2 ^ (s.log_buffer_capacity - 1) % 2) := by
              rw [hBH, Nat.mod_mul]
            rw [← hget i (by omega), pget_eq]
            rcases Nat.mod_two_eq_zero_or_one (i / 2 ^ (s.log_buffer_capacity - 1)) with
              hpar | hpar
            · rw [if_pos hpar]
              rw [getD_take_lt _ _ _ _ (by rw [hHalf]; omega)]
              rw [← hdivdiv]
              have hmm : i % s.buffer_capacity = i % 2 ^ (s.log_buffer_capacity - 1) := by
                rw [hpar, Nat.mul_zero, Nat.add_zero] at hmodmod
                exact hmodmod
              rw [hmm]
            · rw [if_neg (show ¬(i / 2 ^ (s.log_buffer_capacity - 1) % 2 = 0) by omega)]
              rw [getD_drop]
              rw [← hdivdiv]
              have hmm : i % s.buffer_capacity = s.buffer_capacity / 2 +
                  i % 2 ^ (s.log_buffer_capacity - 1) := by
                rw [hpar, Nat.mul_one] at hmodmod
                rw [hHalf]
                omega
              rw [hmm]
        · -- flat regime: the shared downsize_dir
          replace hbig : s.big_buffer = false := by
            revert hbig
            cases s.big_buffer <;> simp
          have hde : space_downsize
              ({ s with
                 last_buffer_size := s.last_buffer_size - 1,
                 extra_buffer := false } : vector α) =
              downsize_dir
                { s with
                  last_buffer_size := s.last_buffer_size - 1,
                  extra_buffer := false } := by
            unfold space_downsize
            rw [show ({ s with
              last_buffer_size := s.last_buffer_size - 1,
              extra_buffer := false } : vector α).big_buffer = false from hbig,
              Bool.cond_false]
          rw [hde] at hS hsz2 ⊢
          have hpow := MetaSt.pow_pred_double s.log_buffer_capacity hL
          have hDflat : s.dir_capacity = 2 ^ s.log_buffer_capacity := by
            unfold dir_capacity
            rw [hbig, Bool.cond_false, Nat.sub_zero]
          have htlen : (s.dir.take s.dir_size).length = s.dir_size := by
            rw [List.length_take, hdlen]
            omega
          have hDrec : ({ s with
              last_buffer_size := s.last_buffer_size - 1,
              extra_buffer := false } : vector α).dir_capacity =
              s.dir_capacity := rfl
          simp only [downsize_dir, hDrec]
          refine ⟨⟨hS, ?_, ?_, ?_⟩, ?_, ?_⟩
          · show _ = 2 ^ (s.log_buffer_capacity - cond true 1 0)
            rw [List.length_append, htlen, List.length_replicate, Bool.cond_true]
            omega
          · intro j hj
            replace hj : j < s.dir_size := hj
            show (_ : List α).length = 2 ^ s.log_buffer_capacity
            rw [getD_append_left _ _ _ _ (by omega), getD_take_lt _ _ _ _ hj]
            exact hblen j hj
          · intro hc
            exact absurd hc (by simp)
          · show (downsize_dir { s with
                last_buffer_size := s.last_buffer_size - 1,
                extra_buffer := false } : vector α).size = l.dropLast.length
            rw [hsz2, hdrople]
          · intro i hi
            replace hi : i < l.dropLast.length := hi
            rw [hdrople] at hi
            rw [hdropget i hi, pget_eq]
            show ((_ : List (List α)).getD (i / 2 ^ s.log_buffer_capacity) []).getD
              (i % 2 ^ s.log_buffer_capacity) default = _
            have hts_mul : s.dir_size * s.buffer_capacity =
                (s.dir_size - 1) * s.buffer_capacity + s.buffer_capacity :=
              MetaSt.succ_pred_mul _ _ hds1
            have hilt : i < s.dir_size * s.buffer_capacity := by omega
            have hq : i / s.buffer_capacity < s.dir_size :=
              Nat.div_lt_of_lt_mul (by rw [Nat.mul_comm] at hilt; exact hilt)
            have hBpow : (2 : Nat) ^ s.log_buffer_capacity = s.buffer_capacity := rfl
            rw [hBpow]
            rw [getD_append_left _ _ _ _ (by omega), getD_take_lt _ _ _ _ hq]
            rw [← hget i (by omega), pget_eq]
      · -- extra freed, no downsize
        have ht2 : s.space_pop_back =
            { s with
              last_buffer_size := s.last_buffer_size - 1,
              extra_buffer := false } := by
          simp only [space_pop_back]
          rw [if_neg hz, if_pos hfr, if_neg htr]
        rw [ht2] at hS hsz2 ⊢
        refine ⟨⟨hS, ?_, ?_, ?_⟩, ?_, ?_⟩
        · show s.dir.length = s.dir_capacity
          exact hdlen
        · intro j hj
          replace hj : j < s.dir_size := hj
          show (s.dir.getD j []).length = s.buffer_capacity
          exact hblen j hj
        · intro hc
          exact absurd hc (by simp)
        · rw [hsz2, hdrople]
        · intro i hi
          replace hi : i < l.dropLast.length := hi
          rw [hdrople] at hi
          rw [pget_eq]
          show (s.dir.getD (i / s.buffer_capacity) []).getD
            (i % s.buffer_capacity) default = _
          rw [← pget_eq, hget i (by omega), hdropget i hi]
    · -- simple decrement
      have ht2 : s.space_pop_back =
          { s with last_buffer_size := s.last_buffer_size - 1 } := by
        simp only [space_pop_back]
        rw [if_neg hz, if_neg hfr]
      rw [ht2] at hS hsz2 ⊢
      refine ⟨⟨hS, ?_, ?_, ?_⟩, ?_, ?_⟩
      · show s.dir.length = s.dir_capacity
        exact hdlen
      · intro j hj
        replace hj : j < s.dir_size := hj
        show (s.dir.getD j []).length = s.buffer_capacity
        exact hblen j hj
      · intro hc
        replace hc : s.extra_buffer = true := hc
        show (s.dir.getD s.dir_size []).length = s.buffer_capacity
        exact hext hc
      · rw [hsz2, hdrople]
      · intro i hi
        replace hi : i < l.dropLast.length := hi
        rw [hdrople] at hi
        rw [pget_eq]
        show (s.dir.getD (i / s.buffer_capacity) []).getD
          (i % s.buffer_capacity) default = _
        rw [← pget_eq, hget i (by omega), hdropget i hi]

theorem space_runOps_wf (ops : List (Op α)) : ∀ (s : vector α) (l : List α),
    wf s → reps s l → legal l ops = true →
    wf (space_runOps s ops) ∧ reps (space_runOps s ops) (runList l ops) := by
  induction ops with
  | nil => intro s l hw hr _; exact ⟨hw, hr⟩
  | cons op rest ih =>
    intro s l hw hr hleg
    cases op with
    | push x =>
      obtain ⟨hw2, hr2⟩ := push_wf s l x hw hr
      exact ih _ _ hw2 hr2 hleg
    | pop =>
      rw [legal, Bool.and_eq_true, Bool.not_eq_true', List.isEmpty_eq_false] at hleg
      obtain ⟨hw2, hr2⟩ := space_pop_wf s l hw hr hleg.1
      exact ih _ _ hw2 hr2 hleg.2

/-- C7: the near-duplicate `struct space` of `space.hpp` reproduces the
canonical algorithm observably: for every legal operation sequence from the
default-constructed state, both implementations report the same `size()`
and the same element at every valid index; both end in states satisfying
all the `assert_valid`/`valid()` invariants, and `space.hpp`'s internal
`assert (dir_size * 4 == dir_capacity())` — the spot where its downsize
trigger differs by omitting the `extra_buffer` term — can never fail. -/
theorem c7_space_equivalence (ops : List (Op α)) (h : legal ([] : List α) ops = true) :
    (space_runOps (init (α := α)) ops).size = (runOps (init (α := α)) ops).size ∧
    (∀ i, i < (runOps (init (α := α)) ops).size →
      (space_runOps (init (α := α)) ops).pget i = (runOps (init (α := α)) ops).pget i) ∧
    (metaOf (runOps (init (α := α)) ops)).ValidM ∧
    (metaOf (space_runOps (init (α := α)) ops)).ValidM ∧
    ((space_runOps (init (α := α)) ops).last_buffer_size = 1 →
      (space_runOps (init (α := α)) ops).extra_buffer = true →
      (space_runOps (init (α := α)) ops).dir_size * 4 ≤
        (space_runOps (init (α := α)) ops).dir_capacity →
      (space_runOps (init (α := α)) ops).dir_size * 4 =
        (space_runOps (init (α := α)) ops).dir_capacity) := by
  obtain ⟨hw0, hr0⟩ := wf_init (α := α)
  obtain ⟨hwa, hsza, hgeta⟩ := runOps_wf ops init [] hw0 hr0 h
  obtain ⟨hwb, hszb, hgetb⟩ := space_runOps_wf ops init [] hw0 hr0 h
  refine ⟨by rw [hsza, hszb], ?_, hwa.1.1, hwb.1.1, ?_⟩
  · intro i hi
    rw [hsza] at hi
    rw [hgeta i hi, hgetb i hi]
  · intro h1 h2 h3
    have hlink : (metaOf (space_runOps (init (α := α)) ops)).lbs =
        (space_runOps (init (α := α)) ops).last_buffer_size := rfl
    have hm : (metaOf (space_runOps (init (α := α)) ops)).msize =
        ((metaOf (space_runOps (init (α := α)) ops)).ds - 1) *
          (metaOf (space_runOps (init (α := α)) ops)).bcap +
          (metaOf (space_runOps (init (α := α)) ops)).lbs := rfl
    have hszpos : 0 < (metaOf (space_runOps (init (α := α)) ops)).msize := by omega
    exact ((MetaSt.strong_spacePop _ hwb.1 hszpos).2.2 h1 h2 h3).1

theorem c7_witness :
    legal ([] : List Nat) (List.replicate 8 (Op.push 2) ++ List.replicate 8 Op.pop) =
      true ∧
    ((space_runOps (init (α := Nat))
        (List.replicate 8 (Op.push 2) ++ List.replicate 8 Op.pop)).size =
      (runOps (init (α := Nat))
        (List.replicate 8 (Op.push 2) ++ List.replicate 8 Op.pop)).size ∧
     (∀ i, i < (runOps (init (α := Nat))
          (List.replicate 8 (Op.push 2) ++ List.replicate 8 Op.pop)).size →
       (space_runOps (init (α := Nat))
          (List.replicate 8 (Op.push 2) ++ List.replicate 8 Op.pop)).pget i =
       (runOps (init (α := Nat))
          (List.replicate 8 (Op.push 2) ++ List.replicate 8 Op.pop)).pget i) ∧
     (metaOf (runOps (init (α := Nat))
        (List.replicate 8 (Op.push 2) ++ List.replicate 8 Op.pop))).ValidM ∧
     (metaOf (space_runOps (init (α := Nat))
        (List.replicate 8 (Op.push 2) ++ List.replicate 8 Op.pop))).ValidM ∧
     ((space_runOps (init (α := Nat))
          (List.replicate 8 (Op.push 2) ++ List.replicate 8 Op.pop)).last_buffer_size =
        1 →
      (space_runOps (init (α := Nat))
          (List.replicate 8 (Op.push 2) ++ List.replicate 8 Op.pop)).extra_buffer =
        true →
      (space_runOps (init (α := Nat))
          (List.replicate 8 (Op.push 2) ++ List.replicate 8 Op.pop)).dir_size * 4 ≤
        (space_runOps (init (α := Nat))
          (List.replicate 8 (Op.push 2) ++ List.replicate 8 Op.pop)).dir_capacity →
      (space_runOps (init (α := Nat))
          (List.replicate 8 (Op.push 2) ++ List.replicate 8 Op.pop)).dir_size * 4 =
        (space_runOps (init (α := Nat))
          (List.replicate 8 (Op.push 2) ++ List.replicate 8 Op.pop)).dir_capacity)) :=
  ⟨by decide,
   c7_space_equivalence (List.replicate 8 (Op.push 2) ++ List.replicate 8 Op.pop)
     (by decide)⟩

theorem fp_iff (h : HV) (a : Nat) : h.fp a = true ↔
    ∃ k, k < h.dir_size + cond h.extra_buffer 1 0 ∧ h.dir.getD k 0 = a := by
  unfold HV.fp
  rw [List.any_eq_true]
  constructor
  · rintro ⟨k, hk, hp⟩
    exact ⟨k, List.mem_range.mp hk, by simpa using hp⟩
  · rintro ⟨k, hk, hp⟩
    exact ⟨k, List.mem_range.mpr hk, by simpa using hp⟩

theorem metaOfH_hpush (mem : List (List α)) (h : HV) (x : α) :
    metaOfH (hpush mem h x).2 = (metaOfH h).pushMeta := by
  obtain ⟨d, ds, lbs, L, big, e⟩ := h
  cases e <;> cases big <;>
      simp only [hpush, MetaSt.pushMeta, hupsize, hupsize_dir, hupsize_buffers,
        MetaSt.upsizeMeta, metaOfH, MetaSt.bcap, MetaSt.dcap,
        Bool.cond_false, Bool.cond_true] <;>
    split_ifs <;> rfl

theorem metaOfH_hpop_body (h : HV) :
    metaOfH (hpop_body h) = (metaOfH h).popBodyMeta := by
  obtain ⟨d, ds, lbs, L, big, e⟩ := h
  cases e <;> cases big <;>
      simp only [hpop_body, MetaSt.popBodyMeta, metaOfH, MetaSt.bcap,
        Bool.cond_false, Bool.cond_true] <;>
    split_ifs <;> rfl

theorem metaOfH_hpop (mem : List (List α)) (h : HV) :
    metaOfH (hpop mem h).2 = (metaOfH h).popMeta := by
  obtain ⟨d, ds, lbs, L, big, e⟩ := h
  cases e <;> cases big <;>
      simp only [hpop, hpop_body, MetaSt.popMeta, MetaSt.popBodyMeta,
        MetaSt.trig, hdownsize, hdownsize_buffers, hdownsize_dir,
        MetaSt.downsizeMeta, metaOfH, MetaSt.bcap, MetaSt.dcap, MetaSt.ebit,
        Bool.cond_false, Bool.cond_true] <;>
    split_ifs <;> rfl

theorem metaOfH_hcopy (mem : List (List α)) (h : HV) :
    metaOfH (hcopy mem h).2 = metaOfH h := by
  obtain ⟨d, ds, lbs, L, big, e⟩ := h
  cases e <;>
      simp only [hcopy, metaOfH] <;>
    split_ifs <;> rfl

theorem hmergePairs_mem_length (mem : List (List α)) (d : List Nat) (n : Nat) :
    (hmergePairs mem d n).1.length = mem.length + n := by
  induction n with
  | zero => rfl
  | succ k ih =>
    simp only [hmergePairs, List.length_append, List.length_cons, List.length_nil]
    omega

theorem hmergePairs_mem_getD (mem : List (List α)) (d : List Nat) (n j : Nat)
    (hj : j < mem.length) :
    (hmergePairs mem d n).1.getD j [] = mem.getD j [] := by
  induction n with
  | zero => rfl
  | succ k ih =>
    simp only [hmergePairs]
    rw [getD_append_left _ _ _ _ (by rw [hmergePairs_mem_length]; omega)]
    exact ih

theorem hmergePairs_dir_length (mem : List (List α)) (d : List Nat) (n : Nat) :
    (hmergePairs mem d n).2.length = d.length := by
  induction n with
  | zero => rfl
  | succ k ih =>
    simp only [hmergePairs]
    rw [List.length_set]
    exact ih

theorem hmergePairs_dir_getD (mem : List (List α)) (d : List Nat) (n : Nat)
    (hn : n ≤ d.length) (k : Nat) :
    (k < n → mem.length ≤ (hmergePairs mem d n).2.getD k 0) ∧
    (n ≤ k → (hmergePairs mem d n).2.getD k 0 = d.getD k 0) := by
  induction n with
  | zero => exact ⟨fun hk => absurd hk (by omega), fun _ => rfl⟩
  | succ m ih =>
    obtain ⟨ih1, ih2⟩ := ih (by omega)
    simp only [hmergePairs]
    constructor
    · intro hk
      by_cases hkm : k = m
      · subst hkm
        rw [getD_set_self _ _ _ _ (by rw [hmergePairs_dir_length]; omega),
          hmergePairs_mem_length]
        omega
      · rw [getD_set_ne _ _ _ _ _ (fun hx => hkm hx.symm)]
        exact ih1 (by omega)
    · intro hk
      rw [getD_set_ne _ _ _ _ _ (by omega)]
      exact ih2 (by omega)

theorem hsplitPairs_mem_length (half n : Nat) :
    ∀ (mem : List (List α)) (d : List Nat),
    (hsplitPairs mem d half n).1.length = mem.length + 2 * n := by
  induction n with
  | zero => intro mem d; rfl
  | succ k ih =>
    intro mem d
    simp only [hsplitPairs]
    rw [ih]
    simp only [List.length_append, List.length_cons, List.length_nil]
    omega

theorem hsplitPairs_mem_getD (half n : Nat) :
    ∀ (mem : List (List α)) (d : List Nat) (j : Nat), j < mem.length →
    (hsplitPairs mem d half n).1.getD j [] = mem.getD j [] := by
  induction n with
  | zero => intro mem d j _; rfl
  | succ k ih =>
    intro mem d j hj
    simp only [hsplitPairs]
    rw [ih _ _ j (by rw [List.length_append]; omega)]
    rw [getD_append_left _ _ _ _ hj]

theorem hsplitPairs_dir_length (half n : Nat) :
    ∀ (mem : List (List α)) (d : List Nat),
    (hsplitPairs mem d half n).2.length = d.length := by
  induction n with
  | zero => intro mem d; rfl
  | succ k ih =>
    intro mem d
    simp only [hsplitPairs]
    rw [ih]
    simp only [List.length_set]

theorem hsplitPairs_dir_getD (half n : Nat) :
    ∀ (mem : List (List α)) (d : List Nat), 2 * n ≤ d.length → ∀ k,
    (k < 2 * n → mem.length ≤ (hsplitPairs mem d half n).2.getD k 0) ∧
    (2 * n ≤ k → (hsplitPairs mem d half n).2.getD k 0 = d.getD k 0) := by
  induction n with
  | zero =>
    intro mem d _ k
    exact ⟨fun hk => absurd hk (by omega), fun _ => rfl⟩
  | succ m ih =>
    intro mem d hn k
    simp only [hsplitPairs]
    have hlen2 : ((d.set (2 * m) mem.length).set (2 * m + 1) (mem.length + 1)).length =
        d.length := by simp only [List.length_set]
    obtain ⟨ih1, ih2⟩ := ih (mem ++ [(mem.getD (d.getD m 0) []).take half,
        (mem.getD (d.getD m 0) []).drop half])
      ((d.set (2 * m) mem.length).set (2 * m + 1) (mem.length + 1))
      (by rw [hlen2]; omega) k
    constructor
    · intro hk
      by_cases hk2 : k < 2 * m
      · have := ih1 hk2
        rw [List.length_append] at this
        omega
      · have hk3 : 2 * m ≤ k := by omega
        rw [ih2 hk3]
        by_cases hke : k = 2 * m + 1
        · subst hke
          rw [getD_set_self _ _ _ _ (by rw [List.length_set]; omega)]
          omega
        · have hke2 : k = 2 * m := by omega
          subst hke2
          rw [getD_set_ne _ _ _ _ _ (by omega),
            getD_set_self _ _ _ _ (by omega)]
    · intro hk
      rw [ih2 (by omega), getD_set_ne _ _ _ _ _ (by omega),
        getD_set_ne _ _ _ _ _ (by omega)]

set_option maxHeartbeats 1600000 in
/-- Frame property of heap-level `push_back`: memory outside the footprint
is untouched, the footprint grows only into freshly allocated addresses,
memory only grows, and the directory keeps its allocated capacity. -/
theorem hpush_frame (mem : List (List α)) (h : HV) (x : α)
    (hs : (metaOfH h).StrongM) (hd : h.dir.length = (metaOfH h).dcap) :
    (∀ j, j < mem.length → h.fp j = false →
      (hpush mem h x).1.getD j [] = mem.getD j []) ∧
    (∀ j, (hpush mem h x).2.fp j = true → h.fp j = true ∨ mem.length ≤ j) ∧
    mem.length ≤ (hpush mem h x).1.length ∧
    (hpush mem h x).2.dir.length = (metaOfH (hpush mem h x).2).dcap := by
  obtain ⟨⟨hL, hds1, hdsD, hlbs, hlz, he, hinv5⟩, hstrict⟩ := hs
  replace hL : 1 ≤ h.log_buffer_capacity := hL
  replace hds1 : 1 ≤ h.dir_size := hds1
  replace hdsD : h.dir_size ≤ 2 ^ (h.log_buffer_capacity - cond h.big_buffer 1 0) :=
    hdsD
  rw [show (metaOfH h).dcap =
    2 ^ (h.log_buffer_capacity - cond h.big_buffer 1 0) from rfl] at hd
  have hwa : h.fp (h.dir.getD (h.dir_size - 1) 0) = true :=
    (fp_iff h _).mpr ⟨h.dir_size - 1, by
      have : (0 : Nat) ≤ cond h.extra_buffer 1 0 := Nat.zero_le _
      omega, rfl⟩
  have hmem0 : ∀ j, j < mem.length → h.fp j = false →
      (mem.set (h.dir.getD (h.dir_size - 1) 0)
        ((mem.getD (h.dir.getD (h.dir_size - 1) 0) []).set h.last_buffer_size x)).getD
          j [] = mem.getD j [] := by
    intro j hj hfp
    exact getD_set_ne _ _ _ _ _ (fun hx => by rw [hx] at hwa; rw [hwa] at hfp; cases hfp)
  have hmem0len : (mem.set (h.dir.getD (h.dir_size - 1) 0)
      ((mem.getD (h.dir.getD (h.dir_size - 1) 0) []).set h.last_buffer_size x)).length =
      mem.length := List.length_set _ _ _
  by_cases hC1 : h.last_buffer_size + 1 = 2 ^ h.log_buffer_capacity
  · by_cases hE : h.extra_buffer = true
    · -- the extra buffer is promoted into the counted region
      have heq : hpush mem h x =
          (mem.set (h.dir.getD (h.dir_size - 1) 0)
            ((mem.getD (h.dir.getD (h.dir_size - 1) 0) []).set h.last_buffer_size x),
           { h with
              dir_size := h.dir_size + 1, extra_buffer := false,
              last_buffer_size := 0 }) := by
        simp only [hpush]
        rw [if_pos hC1, hE, Bool.cond_true]
      rw [heq]
      have hce : cond h.extra_buffer 1 0 = 1 := by rw [hE]; rfl
      refine ⟨hmem0, ?_, by rw [hmem0len], ?_⟩
      · intro j hj
        obtain ⟨k, hk, hkv⟩ := (fp_iff _ j).mp hj
        replace hk : k < h.dir_size + 1 + cond false 1 0 := hk
        replace hkv : h.dir.getD k 0 = j := hkv
        exact Or.inl ((fp_iff h j).mpr ⟨k, by
          simp only [Bool.cond_false] at hk
          omega, hkv⟩)
      · show h.dir.length = 2 ^ (h.log_buffer_capacity - cond h.big_buffer 1 0)
        rw [hd]
    · replace hE : h.extra_buffer = false := by
        revert hE
        cases h.extra_buffer <;> simp
      have hce : cond h.extra_buffer 1 0 = 0 := by rw [hE]; rfl
      by_cases hC2 : h.dir_size = 2 ^ (h.log_buffer_capacity - cond h.big_buffer 1 0)
      · by_cases hB : h.big_buffer = true
        · -- upsize_dir, then a fresh buffer
          have hcb : cond h.big_buffer 1 0 = 1 := by rw [hB]; rfl
          have heq : hpush mem h x =
              (mem.set (h.dir.getD (h.dir_size - 1) 0)
                 ((mem.getD (h.dir.getD (h.dir_size - 1) 0) []).set
                   h.last_buffer_size x) ++
               [List.replicate (2 ^ h.log_buffer_capacity) default],
               { h with
                  dir := (h.dir.take
                      (2 ^ (h.log_buffer_capacity - cond h.big_buffer 1 0)) ++
                    List.replicate
                      (2 ^ (h.log_buffer_capacity - cond h.big_buffer 1 0)) 0).set
                    h.dir_size
                    (mem.set (h.dir.getD (h.dir_size - 1) 0)
                      ((mem.getD (h.dir.getD (h.dir_size - 1) 0) []).set
                        h.last_buffer_size x)).length,
                  big_buffer := false,
                  dir_size := h.dir_size + 1, extra_buffer := false,
                  last_buffer_size := 0 }) := by
            simp only [hpush, hupsize, hupsize_dir]
            rw [if_pos hC1, hE, Bool.cond_false, if_pos hC2, hB, Bool.cond_true]
          rw [heq]
          refine ⟨?_, ?_, ?_, ?_⟩
          · intro j hj hfp
            rw [getD_append_left _ _ _ _ (by rw [hmem0len]; exact hj)]
            exact hmem0 j hj hfp
          · intro j hj
            obtain ⟨k, hk, hkv⟩ := (fp_iff _ j).mp hj
            replace hk : k < h.dir_size + 1 + cond false 1 0 := hk
            simp only [Bool.cond_false] at hk
            replace hkv : ((h.dir.take
                (2 ^ (h.log_buffer_capacity - cond h.big_buffer 1 0)) ++
              List.replicate
                (2 ^ (h.log_buffer_capacity - cond h.big_buffer 1 0)) 0).set
              h.dir_size
              (mem.set (h.dir.getD (h.dir_size - 1) 0)
                ((mem.getD (h.dir.getD (h.dir_size - 1) 0) []).set
                  h.last_buffer_size x)).length).getD k 0 = j := hkv
            by_cases hkd : k = h.dir_size
            · subst hkd
              rw [getD_set_self _ _ _ _ (by
                  rw [List.length_append, List.length_take, List.length_replicate, hd]
                  omega), hmem0len] at hkv
              exact Or.inr (by omega)
            · rw [getD_set_ne _ _ _ _ _ (fun hx => hkd hx.symm),
                getD_append_left _ _ _ _ (by
                  rw [List.length_take, hd]
                  omega),
                getD_take_lt _ _ _ _ (by omega)] at hkv
              exact Or.inl ((fp_iff h j).mpr ⟨k, by omega, hkv⟩)
          · rw [List.length_append, hmem0len]
            omega
          · show ((h.dir.take (2 ^ (h.log_buffer_capacity - cond h.big_buffer 1 0)) ++
                List.replicate (2 ^ (h.log_buffer_capacity - cond h.big_buffer 1 0))
                  0).set h.dir_size _).length =
              2 ^ (h.log_buffer_capacity - cond false 1 0)
            rw [List.length_set, List.length_append, List.length_take,
              List.length_replicate, hd, Bool.cond_false, Nat.sub_zero, hcb]
            have hp := MetaSt.pow_pred_double h.log_buffer_capacity hL
            omega
        · -- upsize_buffers (merge), then a fresh buffer
          replace hB : h.big_buffer = false := by
            revert hB
            cases h.big_buffer <;> simp
          have hcb : cond h.big_buffer 1 0 = 0 := by rw [hB]; rfl
          have hmlen := hmergePairs_mem_length
            (mem.set (h.dir.getD (h.dir_size - 1) 0)
              ((mem.getD (h.dir.getD (h.dir_size - 1) 0) []).set h.last_buffer_size x))
            h.dir (h.dir_size / 2)
          have hmget := hmergePairs_mem_getD
            (mem.set (h.dir.getD (h.dir_size - 1) 0)
              ((mem.getD (h.dir.getD (h.dir_size - 1) 0) []).set h.last_buffer_size x))
            h.dir (h.dir_size / 2)
          have hmdlen := hmergePairs_dir_length
            (mem.set (h.dir.getD (h.dir_size - 1) 0)
              ((mem.getD (h.dir.getD (h.dir_size - 1) 0) []).set h.last_buffer_size x))
            h.dir (h.dir_size / 2)
          have hmdget := hmergePairs_dir_getD
            (mem.set (h.dir.getD (h.dir_size - 1) 0)
              ((mem.getD (h.dir.getD (h.dir_size - 1) 0) []).set h.last_buffer_size x))
            h.dir (h.dir_size / 2) (by rw [hd]; omega)
          have heq : hpush mem h x =
              ((hmergePairs
                  (mem.set (h.dir.getD (h.dir_size - 1) 0)
                    ((mem.getD (h.dir.getD (h.dir_size - 1) 0) []).set
                      h.last_buffer_size x))
                  h.dir (h.dir_size / 2)).1 ++
                [List.replicate (2 ^ (h.log_buffer_capacity + 1)) default],
               { h with
                  dir := (hmergePairs
                      (mem.set (h.dir.getD (h.dir_size - 1) 0)
                        ((mem.getD (h.dir.getD (h.dir_size - 1) 0) []).set
                          h.last_buffer_size x))
                      h.dir (h.dir_size / 2)).2.set (h.dir_size / 2)
                    (hmergePairs
                      (mem.set (h.dir.getD (h.dir_size - 1) 0)
                        ((mem.getD (h.dir.getD (h.dir_size - 1) 0) []).set
                          h.last_buffer_size x))
                      h.dir (h.dir_size / 2)).1.length,
                  log_buffer_capacity := h.log_buffer_capacity + 1,
                  last_buffer_size := 0, big_buffer := true,
                  dir_size := h.dir_size / 2 + 1, extra_buffer := false }) := by
            simp only [hpush, hupsize, hupsize_buffers]
            rw [if_pos hC1, hE, Bool.cond_false, if_pos hC2, hB, Bool.cond_false]
          rw [heq]
          refine ⟨?_, ?_, ?_, ?_⟩
          · intro j hj hfp
            rw [getD_append_left _ _ _ _ (by rw [hmlen, hmem0len]; omega),
              hmget j (by rw [hmem0len]; omega)]
            exact hmem0 j hj hfp
          · intro j hj
            obtain ⟨k, hk, hkv⟩ := (fp_iff _ j).mp hj
            replace hk : k < h.dir_size / 2 + 1 + cond false 1 0 := hk
            simp only [Bool.cond_false] at hk
            replace hkv : ((hmergePairs
                (mem.set (h.dir.getD (h.dir_size - 1) 0)
                  ((mem.getD (h.dir.getD (h.dir_size - 1) 0) []).set
                    h.last_buffer_size x))
                h.dir (h.dir_size / 2)).2.set (h.dir_size / 2)
              (hmergePairs
                (mem.set (h.dir.getD (h.dir_size - 1) 0)
                  ((mem.getD (h.dir.getD (h.dir_size - 1) 0) []).set
                    h.last_buffer_size x))
                h.dir (h.dir_size / 2)).1.length).getD k 0 = j := hkv
            by_cases hkd : k = h.dir_size / 2
            · subst hkd
              rw [getD_set_self _ _ _ _ (by rw [hmdlen, hd]; omega), hmlen,
                hmem0len] at hkv
              exact Or.inr (by omega)
            · rw [getD_set_ne _ _ _ _ _ (fun hx => hkd hx.symm)] at hkv
              have := (hmdget k).1 (by omega)
              rw [hkv, hmem0len] at this
              exact Or.inr this
          · rw [List.length_append, hmlen, hmem0len]
            omega
          · show ((hmergePairs _ h.dir (h.dir_size / 2)).2.set (h.dir_size / 2)
                _).length = 2 ^ (h.log_buffer_capacity + 1 - cond true 1 0)
            rw [List.length_set, hmdlen, hd, Bool.cond_true, Nat.add_sub_cancel, hcb,
              Nat.sub_zero]
      · -- no upsize: a fresh buffer is allocated into slot dir_size
        have heq : hpush mem h x =
            (mem.set (h.dir.getD (h.dir_size - 1) 0)
               ((mem.getD (h.dir.getD (h.dir_size - 1) 0) []).set
                 h.last_buffer_size x) ++
             [List.replicate (2 ^ h.log_buffer_capacity) default],
             { h with
                dir := h.dir.set h.dir_size
                  (mem.set (h.dir.getD (h.dir_size - 1) 0)
                    ((mem.getD (h.dir.getD (h.dir_size - 1) 0) []).set
                      h.last_buffer_size x)).length,
                dir_size := h.dir_size + 1, extra_buffer := false,
                last_buffer_size := 0 }) := by
          simp only [hpush]
          rw [if_pos hC1, hE, Bool.cond_false, if_neg hC2]
        rw [heq]
        refine ⟨?_, ?_, ?_, ?_⟩
        · intro j hj hfp
          rw [getD_append_left _ _ _ _ (by rw [hmem0len]; exact hj)]
          exact hmem0 j hj hfp
        · intro j hj
          obtain ⟨k, hk, hkv⟩ := (fp_iff _ j).mp hj
          replace hk : k < h.dir_size + 1 + cond false 1 0 := hk
          simp only [Bool.cond_false] at hk
          replace hkv : (h.dir.set h.dir_size
              (mem.set (h.dir.getD (h.dir_size - 1) 0)
                ((mem.getD (h.dir.getD (h.dir_size - 1) 0) []).set
                  h.last_buffer_size x)).length).getD k 0 = j := hkv
          by_cases hkd : k = h.dir_size
          · subst hkd
            rw [getD_set_self _ _ _ _ (by rw [hd]; omega), hmem0len] at hkv
            exact Or.inr (by omega)
          · rw [getD_set_ne _ _ _ _ _ (fun hx => hkd hx.symm)] at hkv
            exact Or.inl ((fp_iff h j).mpr ⟨k, by omega, hkv⟩)
        · rw [List.length_append, hmem0len]
          omega
        · show (h.dir.set h.dir_size _).length =
            2 ^ (h.log_buffer_capacity - cond h.big_buffer 1 0)
          rw [List.length_set, hd]
  · -- no overflow: only the element write happens
    have heq : hpush mem h x =
        (mem.set (h.dir.getD (h.dir_size - 1) 0)
          ((mem.getD (h.dir.getD (h.dir_size - 1) 0) []).set h.last_buffer_size x),
         { h with last_buffer_size := h.last_buffer_size + 1 }) := by
      simp only [hpush]
      rw [if_neg hC1]
    rw [heq]
    refine ⟨hmem0, ?_, by rw [hmem0len], ?_⟩
    · intro j hj
      obtain ⟨k, hk, hkv⟩ := (fp_iff _ j).mp hj
      replace hk : k < h.dir_size + cond h.extra_buffer 1 0 := hk
      replace hkv : h.dir.getD k 0 = j := hkv
      exact Or.inl ((fp_iff h j).mpr ⟨k, hk, hkv⟩)
    · show h.dir.length = 2 ^ (h.log_buffer_capacity - cond h.big_buffer 1 0)
      rw [hd]

theorem hpop_body_same (h : HV) :
    (hpop_body h).dir = h.dir ∧
    (hpop_body h).log_buffer_capacity = h.log_buffer_capacity ∧
    (hpop_body h).big_buffer = h.big_buffer := by
  refine ⟨?_, ?_, ?_⟩ <;> (simp only [hpop_body]; split_ifs <;> rfl)

set_option maxHeartbeats 1600000 in
/-- Frame property of heap-level `pop_back`: no owned buffer outside the
footprint is touched (`pop_back` never writes an existing buffer at all),
the footprint grows only into fresh addresses, memory only grows, and the
directory keeps its allocated capacity. -/
theorem hpop_frame (mem : List (List α)) (h : HV)
    (hs : (metaOfH h).StrongM) (hd : h.dir.length = (metaOfH h).dcap)
    (hsz : 0 < (metaOfH h).msize) :
    (∀ j, j < mem.length → h.fp j = false →
      (hpop mem h).1.getD j [] = mem.getD j []) ∧
    (∀ j, (hpop mem h).2.fp j = true → h.fp j = true ∨ mem.length ≤ j) ∧
    mem.length ≤ (hpop mem h).1.length ∧
    (hpop mem h).2.dir.length = (metaOfH (hpop mem h).2).dcap := by
  obtain ⟨hS0, hsz0, hconj3, hconj4⟩ := MetaSt.strong_pop (metaOfH h) hs hsz
  obtain ⟨hds1_t, hdsle_t, hlbs_t, hL_t, hbig_t, hmsz_t, hdlt_t⟩ :=
    MetaSt.popBody_fields (metaOfH h) hs hsz
  obtain ⟨⟨hL, hds1, hdsD, hlbs, hlz, he, hinv5⟩, hstrict⟩ := hs
  replace hL : 1 ≤ h.log_buffer_capacity := hL
  replace hds1 : 1 ≤ h.dir_size := hds1
  replace hdsD : h.dir_size ≤ 2 ^ (h.log_buffer_capacity - cond h.big_buffer 1 0) :=
    hdsD
  rw [show (metaOfH h).dcap =
    2 ^ (h.log_buffer_capacity - cond h.big_buffer 1 0) from rfl] at hd
  have hbody := metaOfH_hpop_body h
  have bds : (hpop_body h).dir_size = (metaOfH h).popBodyMeta.ds :=
    congrArg MetaSt.ds hbody
  have blbs : (hpop_body h).last_buffer_size = (metaOfH h).popBodyMeta.lbs :=
    congrArg MetaSt.lbs hbody
  have bee : (hpop_body h).extra_buffer = (metaOfH h).popBodyMeta.e :=
    congrArg MetaSt.e hbody
  obtain ⟨bdir, bL, bbig⟩ := hpop_body_same h
  have bdlen : (hpop_body h).dir.length =
      2 ^ (h.log_buffer_capacity - cond h.big_buffer 1 0) := by rw [bdir, hd]
  by_cases htr : ((hpop_body h).dir_size + cond (hpop_body h).extra_buffer 1 0) * 4 ≤
      2 ^ ((hpop_body h).log_buffer_capacity - cond (hpop_body h).big_buffer 1 0)
  · -- the trigger fires
    have htm : (metaOfH h).popBodyMeta.trig := by
      show ((metaOfH h).popBodyMeta.ds + (metaOfH h).popBodyMeta.ebit) * 4 ≤
        (metaOfH h).popBodyMeta.dcap
      rw [← hbody]
      exact htr
    obtain ⟨heqm, hem, hbigm⟩ := hconj3 htm
    have hee0 : (hpop_body h).extra_buffer = false := by rw [bee, hem]
    have hce0 : cond (hpop_body h).extra_buffer 1 0 = 0 := by rw [hee0]; rfl
    have heq : hpop mem h = hdownsize mem (hpop_body h) := by
      simp only [hpop]
      rw [if_pos htr]
    rw [heq]
    by_cases hbigb : (hpop_body h).big_buffer = true
    · -- split every buffer into fresh halves
      have hbigh : h.big_buffer = true := by rw [← bbig]; exact hbigb
      obtain ⟨hlbs0_m, h2ds_m, hL2_m⟩ := hbigm (by rw [← hbigh]; rfl)
      have h2ds : 2 * (hpop_body h).dir_size <
          2 ^ (h.log_buffer_capacity - cond h.big_buffer 1 0) := by
        have hdm : (metaOfH h).popBodyMeta.dcap =
            2 ^ (h.log_buffer_capacity - cond h.big_buffer 1 0) := by
          rw [← hbody]
          show 2 ^ ((hpop_body h).log_buffer_capacity -
            cond (hpop_body h).big_buffer 1 0) = _
          rw [bL, bbig]
        rw [bds]
        omega
      have hde : hdownsize mem (hpop_body h) = hdownsize_buffers mem (hpop_body h) := by
        unfold hdownsize
        rw [hbigb, Bool.cond_true]
      rw [hde]
      have hslen := hsplitPairs_mem_length
        (2 ^ (hpop_body h).log_buffer_capacity / 2) ((hpop_body h).dir_size - 1)
        mem (hpop_body h).dir
      have hsget := hsplitPairs_mem_getD
        (2 ^ (hpop_body h).log_buffer_capacity / 2) ((hpop_body h).dir_size - 1)
        mem (hpop_body h).dir
      have hsdlen := hsplitPairs_dir_length
        (2 ^ (hpop_body h).log_buffer_capacity / 2) ((hpop_body h).dir_size - 1)
        mem (hpop_body h).dir
      have hsdget := hsplitPairs_dir_getD
        (2 ^ (hpop_body h).log_buffer_capacity / 2) ((hpop_body h).dir_size - 1)
        mem (hpop_body h).dir (by rw [bdlen]; omega)
      simp only [hdownsize_buffers]
      refine ⟨?_, ?_, ?_, ?_⟩
      · intro j hj _
        rw [getD_append_left _ _ _ _ (by rw [hslen]; omega)]
        exact hsget j hj
      · intro j hj
        obtain ⟨k, hk, hkv⟩ := (fp_iff _ j).mp hj
        replace hk : k < 2 * (hpop_body h).dir_size - 1 +
            cond (hpop_body h).extra_buffer 1 0 := hk
        rw [hce0] at hk
        replace hkv : ((hsplitPairs mem (hpop_body h).dir
            (2 ^ (hpop_body h).log_buffer_capacity / 2)
            ((hpop_body h).dir_size - 1)).2.set (2 * (hpop_body h).dir_size - 1 - 1)
            (hsplitPairs mem (hpop_body h).dir
              (2 ^ (hpop_body h).log_buffer_capacity / 2)
              ((hpop_body h).dir_size - 1)).1.length).getD k 0 = j := hkv
        by_cases hkd : k = 2 * (hpop_body h).dir_size - 1 - 1
        · subst hkd
          rw [getD_set_self _ _ _ _ (by rw [hsdlen, bdlen]; omega), hslen] at hkv
          exact Or.inr (by omega)
        · rw [getD_set_ne _ _ _ _ _ (fun hx => hkd hx.symm)] at hkv
          have := (hsdget k).1 (by omega)
          rw [hkv] at this
          exact Or.inr this
      · rw [List.length_append, hslen]
        omega
      · show ((hsplitPairs mem (hpop_body h).dir _ _).2.set _ _).length =
          2 ^ ((hpop_body h).log_buffer_capacity - 1 - cond false 1 0)
        rw [List.length_set, hsdlen, bdlen, Bool.cond_false, Nat.sub_zero, bL]
        rw [hbigh, Bool.cond_true]
    · -- halve the directory, buffers untouched
      replace hbigb : (hpop_body h).big_buffer = false := by
        revert hbigb
        cases (hpop_body h).big_buffer <;> simp
      have hbigh : h.big_buffer = false := by rw [← bbig]; exact hbigb
      have hde : hdownsize mem (hpop_body h) = (mem, hdownsize_dir (hpop_body h)) := by
        unfold hdownsize
        rw [hbigb, Bool.cond_false]
      rw [hde]
      have heqS : (hpop_body h).dir_size * 4 =
          2 ^ ((hpop_body h).log_buffer_capacity -
            cond (hpop_body h).big_buffer 1 0) := by
        have hdm : (metaOfH h).popBodyMeta.dcap =
            2 ^ ((hpop_body h).log_buffer_capacity -
              cond (hpop_body h).big_buffer 1 0) := by rw [← hbody]; rfl
        have hem2 : (metaOfH h).popBodyMeta.ebit = 0 := by
          unfold MetaSt.ebit
          rw [hem, Bool.cond_false]
        rw [bds]
        omega
      have hdsle : (hpop_body h).dir_size ≤ h.dir_size := by
        rw [bds]
        exact hdsle_t
      refine ⟨?_, ?_, ?_, ?_⟩
      · intro j _ _
        rfl
      · intro j hj
        obtain ⟨k, hk, hkv⟩ := (fp_iff _ j).mp hj
        replace hk : k < (hpop_body h).dir_size +
            cond (hpop_body h).extra_buffer 1 0 := hk
        rw [hce0] at hk
        replace hkv : ((hpop_body h).dir.take (hpop_body h).dir_size ++
            List.replicate (2 ^ ((hpop_body h).log_buffer_capacity -
              cond (hpop_body h).big_buffer 1 0) / 2 - (hpop_body h).dir_size)
              0).getD k 0 = j := hkv
        rw [getD_append_left _ _ _ _ (by
            rw [List.length_take, bdlen]
            rw [bL, bbig] at heqS
            omega),
          getD_take_lt _ _ _ _ (by omega), bdir] at hkv
        refine Or.inl ((fp_iff h j).mpr ⟨k, ?_, hkv⟩)
        have : (0 : Nat) ≤ cond h.extra_buffer 1 0 := Nat.zero_le _
        omega
      · exact Nat.le_refl _
      · show ((hpop_body h).dir.take (hpop_body h).dir_size ++
            List.replicate (2 ^ ((hpop_body h).log_buffer_capacity -
              cond (hpop_body h).big_buffer 1 0) / 2 - (hpop_body h).dir_size)
              0).length =
          2 ^ ((hpop_body h).log_buffer_capacity - cond true 1 0)
        rw [List.length_append, List.length_take, List.length_replicate, bdlen,
          bL, bbig, hbigh]
        simp only [Bool.cond_false, Bool.cond_true, Nat.sub_zero]
        rw [bL, bbig, hbigh] at heqS
        simp only [Bool.cond_false, Nat.sub_zero] at heqS
        have hp := MetaSt.pow_pred_double h.log_buffer_capacity hL
        omega
  · -- no trigger: only scalar bookkeeping
    have heq : hpop mem h = (mem, hpop_body h) := by
      simp only [hpop]
      rw [if_neg htr]
    rw [heq]
    refine ⟨fun j _ _ => rfl, ?_, Nat.le_refl _, ?_⟩
    · intro j hj
      obtain ⟨k, hk, hkv⟩ := (fp_iff _ j).mp hj
      replace hk : k < (hpop_body h).dir_size +
          cond (hpop_body h).extra_buffer 1 0 := hk
      replace hkv : (hpop_body h).dir.getD k 0 = j := hkv
      rw [bdir] at hkv
      refine Or.inl ((fp_iff h j).mpr ⟨k, ?_, hkv⟩)
      -- the owned-slot count never grows across the body
      by_cases hz : h.last_buffer_size = 0
      · have hbz : hpop_body h = { h with
            last_buffer_size := 2 ^ h.log_buffer_capacity - 1,
            dir_size := h.dir_size - 1, extra_buffer := true } := by
          simp only [hpop_body]
          rw [if_pos hz]
        rw [hbz] at hk
        replace hk : k < h.dir_size - 1 + cond true 1 0 := hk
        have : (0 : Nat) ≤ cond h.extra_buffer 1 0 := Nat.zero_le _
        simp only [Bool.cond_true] at hk
        omega
      · by_cases hfr : h.last_buffer_size - 1 = 0 ∧ h.extra_buffer = true
        · have hbz : hpop_body h = { h with
              last_buffer_size := h.last_buffer_size - 1,
              extra_buffer := false } := by
            simp only [hpop_body]
            rw [if_neg hz, if_pos hfr]
          rw [hbz] at hk
          replace hk : k < h.dir_size + cond false 1 0 := hk
          have : (0 : Nat) ≤ cond h.extra_buffer 1 0 := Nat.zero_le _
          simp only [Bool.cond_false] at hk
          omega
        · have hbz : hpop_body h = { h with
              last_buffer_size := h.last_buffer_size - 1 } := by
            simp only [hpop_body]
            rw [if_neg hz, if_neg hfr]
          rw [hbz] at hk
          exact hk
    · show (hpop_body h).dir.length =
        2 ^ ((hpop_body h).log_buffer_capacity - cond (hpop_body h).big_buffer 1 0)
      rw [bdir, bL, bbig, hd]

theorem hcopy_eq (mem : List (List α)) (h : HV) :
    hcopy mem h =
      (let p := hcopyLoop mem h mem
        (List.replicate (2 ^ (h.log_buffer_capacity - cond h.big_buffer 1 0)) 0)
        h.dir_size
       let q := if h.extra_buffer = true
                then (p.1 ++ [List.replicate (2 ^ h.log_buffer_capacity) default],
                      p.2.set h.dir_size p.1.length)
                else p
       (q.1, { dir := q.2, dir_size := h.dir_size,
               last_buffer_size := h.last_buffer_size,
               log_buffer_capacity := h.log_buffer_capacity,
               big_buffer := h.big_buffer, extra_buffer := h.extra_buffer })) := rfl

theorem hcopyLoop_succ (mem : List (List α)) (h : HV) (macc : List (List α))
    (dacc : List Nat) (n : Nat) :
    hcopyLoop mem h macc dacc (n + 1) =
      ((hcopyLoop mem h macc dacc n).1 ++
        [copyN (mem.getD (h.dir.getD n 0) []) (2 ^ h.log_buffer_capacity)],
       (hcopyLoop mem h macc dacc n).2.set n (hcopyLoop mem h macc dacc n).1.length) := by
  unfold hcopyLoop
  rw [List.range_succ, List.foldl_append]
  simp only [List.foldl_cons, List.foldl_nil]

theorem hcopyLoop_mem_length (mem : List (List α)) (h : HV) (macc : List (List α))
    (dacc : List Nat) (n : Nat) :
    (hcopyLoop mem h macc dacc n).1.length = macc.length + n := by
  induction n with
  | zero => rfl
  | succ k ih =>
    rw [hcopyLoop_succ, List.length_append, ih]
    simp only [List.length_cons, List.length_nil]
    omega

theorem hcopyLoop_mem_getD (mem : List (List α)) (h : HV) (macc : List (List α))
    (dacc : List Nat) (n j : Nat) (hj : j < macc.length) :
    (hcopyLoop mem h macc dacc n).1.getD j [] = macc.getD j [] := by
  induction n with
  | zero => rfl
  | succ k ih =>
    rw [hcopyLoop_succ,
      getD_append_left _ _ _ _ (by rw [hcopyLoop_mem_length]; omega)]
    exact ih

theorem hcopyLoop_dir_length (mem : List (List α)) (h : HV) (macc : List (List α))
    (dacc : List Nat) (n : Nat) :
    (hcopyLoop mem h macc dacc n).2.length = dacc.length := by
  induction n with
  | zero => rfl
  | succ k ih =>
    rw [hcopyLoop_succ, List.length_set]
    exact ih

theorem hcopyLoop_dir_getD_ge (mem : List (List α)) (h : HV) (macc : List (List α))
    (dacc : List Nat) (n k : Nat) (hk : n ≤ k) :
    (hcopyLoop mem h macc dacc n).2.getD k 0 = dacc.getD k 0 := by
  induction n with
  | zero => rfl
  | succ m ih =>
    rw [hcopyLoop_succ, getD_set_ne _ _ _ _ _ (by omega)]
    exact ih (by omega)

theorem hcopyLoop_dir_getD_lt (mem : List (List α)) (h : HV) (macc : List (List α))
    (dacc : List Nat) (n : Nat) : ∀ k, k < n → k < dacc.length →
    macc.length ≤ (hcopyLoop mem h macc dacc n).2.getD k 0 ∧
    (hcopyLoop mem h macc dacc n).2.getD k 0 < macc.length + n ∧
    (hcopyLoop mem h macc dacc n).1.getD ((hcopyLoop mem h macc dacc n).2.getD k 0) [] =
      copyN (mem.getD (h.dir.getD k 0) []) (2 ^ h.log_buffer_capacity) := by
  induction n with
  | zero => intro k hk _; exact absurd hk (by omega)
  | succ m ih =>
    intro k hk hkd
    rw [hcopyLoop_succ]
    by_cases hkm : k = m
    · subst hkm
      rw [getD_set_self _ _ _ _ (by rw [hcopyLoop_dir_length]; omega),
        hcopyLoop_mem_length]
      refine ⟨by omega, by omega, ?_⟩
      rw [getD_append_right _ _ _ _ (by rw [hcopyLoop_mem_length]),
        hcopyLoop_mem_length]
      simp only [Nat.sub_self, List.getD]
      rfl
    · rw [getD_set_ne _ _ _ _ _ (fun hx => hkm hx.symm)]
      obtain ⟨ih1, ih2, ih3⟩ := ih k (by omega) hkd
      refine ⟨ih1, by omega, ?_⟩
      rw [getD_append_left _ _ _ _ (by rw [hcopyLoop_mem_length]; omega)]
      exact ih3

set_option maxHeartbeats 800000 in
/-- What the heap-level copy produces: memory only grows and keeps every old
buffer; the new directory has full capacity; every owned slot of the copy
holds a fresh address; and each counted fresh buffer holds the
`std::copy` image of the corresponding source buffer. -/
theorem hcopy_fields (mem : List (List α)) (h : HV)
    (hs : (metaOfH h).StrongM) (hd : h.dir.length = (metaOfH h).dcap) :
    mem.length ≤ (hcopy mem h).1.length ∧
    (∀ j, j < mem.length → (hcopy mem h).1.getD j [] = mem.getD j []) ∧
    (hcopy mem h).2.dir.length = (metaOfH h).dcap ∧
    (∀ k, k < h.dir_size + cond h.extra_buffer 1 0 →
      mem.length ≤ (hcopy mem h).2.dir.getD k 0 ∧
      (hcopy mem h).2.dir.getD k 0 < (hcopy mem h).1.length) ∧
    (∀ k, k < h.dir_size →
      (hcopy mem h).1.getD ((hcopy mem h).2.dir.getD k 0) [] =
        copyN (mem.getD (h.dir.getD k 0) []) (2 ^ h.log_buffer_capacity)) := by
  obtain ⟨⟨hL, hds1, hdsD, hlbs, hlz, he, hinv5⟩, hstrict⟩ := hs
  replace hds1 : 1 ≤ h.dir_size := hds1
  replace hdsD : h.dir_size ≤ 2 ^ (h.log_buffer_capacity - cond h.big_buffer 1 0) :=
    hdsD
  rw [show (metaOfH h).dcap =
    2 ^ (h.log_buffer_capacity - cond h.big_buffer 1 0) from rfl] at hd ⊢
  have hrlen : (List.replicate
      (2 ^ (h.log_buffer_capacity - cond h.big_buffer 1 0)) (0 : Nat)).length =
      2 ^ (h.log_buffer_capacity - cond h.big_buffer 1 0) := List.length_replicate _ _
  have hml := hcopyLoop_mem_length mem h mem
    (List.replicate (2 ^ (h.log_buffer_capacity - cond h.big_buffer 1 0)) 0)
    h.dir_size
  have hmg := hcopyLoop_mem_getD mem h mem
    (List.replicate (2 ^ (h.log_buffer_capacity - cond h.big_buffer 1 0)) 0)
    h.dir_size
  have hdl := hcopyLoop_dir_length mem h mem
    (List.replicate (2 ^ (h.log_buffer_capacity - cond h.big_buffer 1 0)) 0)
    h.dir_size
  have hdlt := hcopyLoop_dir_getD_lt mem h mem
    (List.replicate (2 ^ (h.log_buffer_capacity - cond h.big_buffer 1 0)) 0)
    h.dir_size
  simp only [hcopy_eq]
  by_cases hE : h.extra_buffer = true
  · rw [if_pos hE]
    have hce : cond h.extra_buffer 1 0 = 1 := by rw [hE]; rfl
    have hdlt2 : h.dir_size <
        2 ^ (h.log_buffer_capacity - cond h.big_buffer 1 0) := (he hE).2
    refine ⟨?_, ?_, ?_, ?_, ?_⟩
    · show mem.length ≤ ((hcopyLoop mem h mem _ h.dir_size).1 ++ _).length
      rw [List.length_append, hml]
      omega
    · intro j hj
      show ((hcopyLoop mem h mem _ h.dir_size).1 ++ _).getD j [] = mem.getD j []
      rw [getD_append_left _ _ _ _ (by rw [hml]; omega)]
      exact hmg j hj
    · show ((hcopyLoop mem h mem _ h.dir_size).2.set h.dir_size _).length = _
      rw [List.length_set, hdl, hrlen]
    · intro k hk
      rw [hce] at hk
      show mem.length ≤ ((hcopyLoop mem h mem _ h.dir_size).2.set h.dir_size
          (hcopyLoop mem h mem _ h.dir_size).1.length).getD k 0 ∧
        ((hcopyLoop mem h mem _ h.dir_size).2.set h.dir_size
          (hcopyLoop mem h mem _ h.dir_size).1.length).getD k 0 <
        ((hcopyLoop mem h mem _ h.dir_size).1 ++ _).length
      rw [List.length_append, hml]
      by_cases hkd : k = h.dir_size
      · subst hkd
        rw [getD_set_self _ _ _ _ (by rw [hdl, hrlen]; omega)]
        simp only [List.length_cons, List.length_nil]
        omega
      · rw [getD_set_ne _ _ _ _ _ (fun hx => hkd hx.symm)]
        obtain ⟨h1, h2, -⟩ := hdlt k (by omega) (by rw [hrlen]; omega)
        simp only [List.length_cons, List.length_nil]
        omega
    · intro k hk
      show ((hcopyLoop mem h mem _ h.dir_size).1 ++ _).getD
          (((hcopyLoop mem h mem _ h.dir_size).2.set h.dir_size
            (hcopyLoop mem h mem _ h.dir_size).1.length).getD k 0) [] = _
      rw [getD_set_ne _ _ _ _ _ (by omega)]
      obtain ⟨h1, h2, h3⟩ := hdlt k hk (by rw [hrlen]; omega)
      rw [getD_append_left _ _ _ _ (by rw [hml]; omega)]
      exact h3
  · rw [if_neg hE]
    have hce : cond h.extra_buffer 1 0 = 0 := by
      revert hE
      cases h.extra_buffer <;> simp
    refine ⟨?_, ?_, ?_, ?_, ?_⟩
    · show mem.length ≤ (hcopyLoop mem h mem _ h.dir_size).1.length
      rw [hml]
      omega
    · intro j hj
      exact hmg j hj
    · show (hcopyLoop mem h mem _ h.dir_size).2.length = _
      rw [hdl, hrlen]
    · intro k hk
      rw [hce] at hk
      obtain ⟨h1, h2, -⟩ := hdlt k (by omega) (by rw [hrlen]; omega)
      rw [hml]
      exact ⟨h1, h2⟩
    · intro k hk
      obtain ⟨-, -, h3⟩ := hdlt k hk (by rw [hrlen]; omega)
      exact h3

/-- Index arithmetic for heap-level reads: a valid index selects a counted
directory slot. -/
theorem hv_idx (h : HV) (hs : (metaOfH h).StrongM) (i : Nat) (hi : i < h.size) :
    i >>> h.log_buffer_capacity < h.dir_size ∧
    i >>> h.log_buffer_capacity = i / 2 ^ h.log_buffer_capacity := by
  obtain ⟨⟨hL, hds1, hdsD, hlbs, hlz, he, hinv5⟩, hstrict⟩ := hs
  replace hds1 : 1 ≤ h.dir_size := hds1
  replace hlbs : h.last_buffer_size < 2 ^ h.log_buffer_capacity := hlbs
  have hsz : h.size = (h.dir_size - 1) * 2 ^ h.log_buffer_capacity +
      h.last_buffer_size := by
    unfold HV.size
    rw [Nat.shiftLeft_eq]
  have hmul : h.dir_size * 2 ^ h.log_buffer_capacity =
      (h.dir_size - 1) * 2 ^ h.log_buffer_capacity + 2 ^ h.log_buffer_capacity :=
    MetaSt.succ_pred_mul _ _ hds1
  rw [Nat.shiftRight_eq_div_pow]
  refine ⟨?_, rfl⟩
  have hilt : i < h.dir_size * 2 ^ h.log_buffer_capacity := by omega
  exact Nat.div_lt_of_lt_mul (by rw [Nat.mul_comm] at hilt; exact hilt)

/-- Frame property of an arbitrary legal heap-level mutation sequence. -/
theorem hrun_frame (ops : List (Op α)) : ∀ (mem : List (List α)) (h : HV),
    (metaOfH h).StrongM → h.dir.length = (metaOfH h).dcap →
    mlegal (metaOfH h) ops = true →
    (∀ j, j < mem.length → h.fp j = false →
      (hrunOps mem h ops).1.getD j [] = mem.getD j []) ∧
    (∀ j, (hrunOps mem h ops).2.fp j = true → h.fp j = true ∨ mem.length ≤ j) ∧
    mem.length ≤ (hrunOps mem h ops).1.length := by
  induction ops with
  | nil => intro mem h _ _ _; exact ⟨fun j _ _ => rfl, fun j hj => Or.inl hj, Nat.le_refl _⟩
  | cons op rest ih =>
    intro mem h hs hd hleg
    cases op with
    | push x =>
      obtain ⟨f1, f2, f3, f4⟩ := hpush_frame mem h x hs hd
      have hs2 : (metaOfH (hpush mem h x).2).StrongM := by
        rw [metaOfH_hpush]
        exact (MetaSt.strong_push (metaOfH h) hs).1
      replace hleg : mlegal (metaOfH h).pushMeta rest = true := hleg
      rw [← metaOfH_hpush mem h x] at hleg
      obtain ⟨g1, g2, g3⟩ := ih (hpush mem h x).1 (hpush mem h x).2 hs2 f4 hleg
      simp only [hrunOps]
      refine ⟨?_, ?_, ?_⟩
      · intro j hj hfp
        have hfp2 : (hpush mem h x).2.fp j = false := by
          cases hx : (hpush mem h x).2.fp j
          · rfl
          · rcases f2 j hx with hc | hc
            · rw [hc] at hfp; cases hfp
            · omega
        rw [g1 j (by omega) hfp2]
        exact f1 j hj hfp
      · intro j hj
        rcases g2 j hj with hc | hc
        · rcases f2 j hc with hc2 | hc2
          · exact Or.inl hc2
          · exact Or.inr hc2
        · exact Or.inr (by omega)
      · omega
    | pop =>
      replace hleg : (if (metaOfH h).msize = 0 then false
          else mlegal (metaOfH h).popMeta rest) = true := hleg
      by_cases hz : (metaOfH h).msize = 0
      · rw [if_pos hz] at hleg
        cases hleg
      · rw [if_neg hz] at hleg
        have hszpos : 0 < (metaOfH h).msize := by omega
        obtain ⟨f1, f2, f3, f4⟩ := hpop_frame mem h hs hd hszpos
        have hs2 : (metaOfH (hpop mem h).2).StrongM := by
          rw [metaOfH_hpop]
          exact (MetaSt.strong_pop (metaOfH h) hs hszpos).1
        rw [← metaOfH_hpop mem h] at hleg
        obtain ⟨g1, g2, g3⟩ := ih (hpop mem h).1 (hpop mem h).2 hs2 f4 hleg
        simp only [hrunOps]
        refine ⟨?_, ?_, ?_⟩
        · intro j hj hfp
          have hfp2 : (hpop mem h).2.fp j = false := by
            cases hx : (hpop mem h).2.fp j
            · rfl
            · rcases f2 j hx with hc | hc
              · rw [hc] at hfp; cases hfp
              · omega
          rw [g1 j (by omega) hfp2]
          exact f1 j hj hfp
        · intro j hj
          rcases g2 j hj with hc | hc
          · rcases f2 j hc with hc2 | hc2
            · exact Or.inl hc2
            · exact Or.inr hc2
          · exact Or.inr (by omega)
        · omega

set_option maxHeartbeats 1000000 in
/-- C9: at the heap level, copy construction (and assignment between
distinct objects, which performs the same steps after releasing the
receiver) yields a container with the same `size()` and the same value at
every valid index as the source, reading only fresh buffers; and the two
containers are independent: after any legal sequence of mutations applied
to the source, every element observed through the copy is unchanged, and
after any legal sequence of mutations applied to the copy, every element
observed through the source is unchanged (each container's scalar state,
hence its `size()`, lives in its own object and is untouched by mutations
of the other). -/
theorem c9_copy_deep_independent (mem : List (List α)) (a : HV)
    (hs : (metaOfH a).StrongM) (hd : a.dir.length = (metaOfH a).dcap)
    (hfp : ∀ k, k < a.dir_size + cond a.extra_buffer 1 0 →
      a.dir.getD k 0 < mem.length) :
    ((hcopy mem a).2.size = a.size ∧
     (∀ i, i < a.size →
       hpget (hcopy mem a).1 (hcopy mem a).2 i = hpget (hcopy mem a).1 a i ∧
       hpget (hcopy mem a).1 a i = hpget mem a i)) ∧
    (∀ ops : List (Op α), mlegal (metaOfH a) ops = true →
      ∀ i, i < (hcopy mem a).2.size →
        hpget (hrunOps (hcopy mem a).1 a ops).1 (hcopy mem a).2 i =
          hpget (hcopy mem a).1 (hcopy mem a).2 i) ∧
    (∀ ops : List (Op α), mlegal (metaOfH a) ops = true →
      ∀ i, i < a.size →
        hpget (hrunOps (hcopy mem a).1 (hcopy mem a).2 ops).1 a i =
          hpget (hcopy mem a).1 a i) := by
  obtain ⟨hc1, hc2, hc3, hc4, hc5⟩ := hcopy_fields mem a hs hd
  have e1 : (hcopy mem a).2.dir_size = a.dir_size :=
    congrArg MetaSt.ds (metaOfH_hcopy mem a)
  have e2 : (hcopy mem a).2.last_buffer_size = a.last_buffer_size :=
    congrArg MetaSt.lbs (metaOfH_hcopy mem a)
  have e3 : (hcopy mem a).2.log_buffer_capacity = a.log_buffer_capacity :=
    congrArg MetaSt.L (metaOfH_hcopy mem a)
  have e4 : (hcopy mem a).2.extra_buffer = a.extra_buffer :=
    congrArg MetaSt.e (metaOfH_hcopy mem a)
  have hc0 : (0 : Nat) ≤ cond a.extra_buffer 1 0 := Nat.zero_le _
  have hBpos : 0 < 2 ^ a.log_buffer_capacity := Nat.pow_pos (by norm_num)
  have hbsz : (hcopy mem a).2.size = a.size := by
    unfold HV.size
    rw [e1, e2, e3]
  refine ⟨⟨hbsz, ?_⟩, ?_, ?_⟩
  · intro i hi
    obtain ⟨hqlt, -⟩ := hv_idx a hs i hi
    have hr : i &&& (2 ^ a.log_buffer_capacity - 1) = i % 2 ^ a.log_buffer_capacity :=
      Nat.and_pow_two_sub_one_eq_mod _ _
    have hrlt : i % 2 ^ a.log_buffer_capacity < 2 ^ a.log_buffer_capacity :=
      Nat.mod_lt _ hBpos
    constructor
    · unfold hpget
      rw [e3, hr, hc5 (i >>> a.log_buffer_capacity) hqlt, getD_copyN, if_pos hrlt,
        hc2 _ (hfp _ (by omega))]
    · unfold hpget
      rw [hc2 _ (hfp _ (by omega))]
  · intro ops hleg i hi
    replace hi : i < a.size := by rw [hbsz] at hi; exact hi
    obtain ⟨hqlt, -⟩ := hv_idx a hs i hi
    obtain ⟨haddr1, haddr2⟩ := hc4 (i >>> a.log_buffer_capacity) (by omega)
    obtain ⟨f1, -, -⟩ := hrun_frame ops (hcopy mem a).1 a hs hd hleg
    have hfpa : a.fp ((hcopy mem a).2.dir.getD (i >>> a.log_buffer_capacity) 0) =
        false := by
      cases hx : a.fp ((hcopy mem a).2.dir.getD (i >>> a.log_buffer_capacity) 0)
      · rfl
      · obtain ⟨k, hk, hkv⟩ := (fp_iff a _).mp hx
        have := hfp k hk
        omega
    unfold hpget
    rw [e3, f1 _ haddr2 hfpa]
  · intro ops hleg i hi
    obtain ⟨hqlt, -⟩ := hv_idx a hs i hi
    have hsb : (metaOfH (hcopy mem a).2).StrongM := by
      rw [metaOfH_hcopy]
      exact hs
    have hdb : (hcopy mem a).2.dir.length = (metaOfH (hcopy mem a).2).dcap := by
      rw [metaOfH_hcopy]
      exact hc3
    have hlegb : mlegal (metaOfH (hcopy mem a).2) ops = true := by
      rw [metaOfH_hcopy]
      exact hleg
    obtain ⟨f1, -, -⟩ := hrun_frame ops (hcopy mem a).1 (hcopy mem a).2 hsb hdb hlegb
    have haddr : a.dir.getD (i >>> a.log_buffer_capacity) 0 < mem.length :=
      hfp _ (by omega)
    have hfpb : (hcopy mem a).2.fp (a.dir.getD (i >>> a.log_buffer_capacity) 0) =
        false := by
      cases hx : (hcopy mem a).2.fp (a.dir.getD (i >>> a.log_buffer_capacity) 0)
      · rfl
      · obtain ⟨k, hk, hkv⟩ := (fp_iff _ _).mp hx
        rw [e1, e4] at hk
        obtain ⟨hge, -⟩ := hc4 k hk
        omega
    unfold hpget
    rw [f1 _ (by omega) hfpb]

theorem c9_witness :
    (metaOfH (⟨[0], 1, 0, 1, true, false⟩ : HV)).StrongM ∧
    (⟨[0], 1, 0, 1, true, false⟩ : HV).dir.length =
      (metaOfH (⟨[0], 1, 0, 1, true, false⟩ : HV)).dcap ∧
    (∀ k, k < (⟨[0], 1, 0, 1, true, false⟩ : HV).dir_size +
        cond (⟨[0], 1, 0, 1, true, false⟩ : HV).extra_buffer 1 0 →
      (⟨[0], 1, 0, 1, true, false⟩ : HV).dir.getD k 0 <
        ([[5, 6]] : List (List Nat)).length) ∧
    (((hcopy ([[5, 6]] : List (List Nat)) ⟨[0], 1, 0, 1, true, false⟩).2.size =
        (⟨[0], 1, 0, 1, true, false⟩ : HV).size ∧
      (∀ i, i < (⟨[0], 1, 0, 1, true, false⟩ : HV).size →
        hpget (hcopy ([[5, 6]] : List (List Nat)) ⟨[0], 1, 0, 1, true, false⟩).1
            (hcopy ([[5, 6]] : List (List Nat)) ⟨[0], 1, 0, 1, true, false⟩).2 i =
          hpget (hcopy ([[5, 6]] : List (List Nat)) ⟨[0], 1, 0, 1, true, false⟩).1
            ⟨[0], 1, 0, 1, true, false⟩ i ∧
        hpget (hcopy ([[5, 6]] : List (List Nat)) ⟨[0], 1, 0, 1, true, false⟩).1
            ⟨[0], 1, 0, 1, true, false⟩ i =
          hpget ([[5, 6]] : List (List Nat)) ⟨[0], 1, 0, 1, true, false⟩ i)) ∧
     (∀ ops : List (Op Nat),
        mlegal (metaOfH (⟨[0], 1, 0, 1, true, false⟩ : HV)) ops = true →
        ∀ i, i < (hcopy ([[5, 6]] : List (List Nat)) ⟨[0], 1, 0, 1, true, false⟩).2.size →
          hpget (hrunOps
              (hcopy ([[5, 6]] : List (List Nat)) ⟨[0], 1, 0, 1, true, false⟩).1
              ⟨[0], 1, 0, 1, true, false⟩ ops).1
            (hcopy ([[5, 6]] : List (List Nat)) ⟨[0], 1, 0, 1, true, false⟩).2 i =
          hpget (hcopy ([[5, 6]] : List (List Nat)) ⟨[0], 1, 0, 1, true, false⟩).1
            (hcopy ([[5, 6]] : List (List Nat)) ⟨[0], 1, 0, 1, true, false⟩).2 i) ∧
     (∀ ops : List (Op Nat),
        mlegal (metaOfH (⟨[0], 1, 0, 1, true, false⟩ : HV)) ops = true →
        ∀ i, i < (⟨[0], 1, 0, 1, true, false⟩ : HV).size →
          hpget (hrunOps
              (hcopy ([[5, 6]] : List (List Nat)) ⟨[0], 1, 0, 1, true, false⟩).1
              (hcopy ([[5, 6]] : List (List Nat)) ⟨[0], 1, 0, 1, true, false⟩).2
              ops).1
            ⟨[0], 1, 0, 1, true, false⟩ i =
          hpget (hcopy ([[5, 6]] : List (List Nat)) ⟨[0], 1, 0, 1, true, false⟩).1
            ⟨[0], 1, 0, 1, true, false⟩ i)) :=
  ⟨by decide, by decide, by decide,
   c9_copy_deep_independent [[5, 6]] ⟨[0], 1, 0, 1, true, false⟩ (by decide)
     (by decide) (by decide)⟩

end vector

end Succinct
